import Mathlib

/-!
Verification of the caption-cleaning utilities.

`clean_text` (clean_captions.py) is embedded as a pipeline of scanners over
`List Char`, each mirroring one regex substitution or loop of the source, with
Python regex leftmost-match semantics made explicit.  Whitespace is modelled by
the ASCII whitespace class matched by Python's default string/regex whitespace
handling.  `parse_vtt_file`, `get_video_captions` and `clean_captions`
(link_to_cap.py / clean_captions.py) are embedded with the external library and
the file system abstracted as explicit parameters.
-/

namespace CaptionTools

/-- ASCII whitespace, the characters matched by a Python whitespace class on
ASCII text. -/
def isWS (c : Char) : Bool :=
  c = ' ' || c = '\t' || c = '\n' || c = '\r' || c = '\x0b' || c = '\x0c'

/-- ASCII decimal digit. -/
def isDigitC (c : Char) : Bool := '0' ≤ c && c ≤ '9'

/-- ASCII uppercase letter, the class A-Z of the sentence-spacing regex. -/
def isUpperC (c : Char) : Bool := 'A' ≤ c && c ≤ 'Z'

/-- Sentence-terminal punctuation, the class of dot, bang, question mark. -/
def isTerm (c : Char) : Bool := c = '.' || c = '!' || c = '?'

/-- The punctuation class of the spacing-normalisation regex. -/
def isPunct (c : Char) : Bool :=
  c = ',' || c = '.' || c = '!' || c = '?' || c = ';' || c = ':'

/-- The character the timestamp pattern expects at offset `i` after its
opening bracket: digits except for colons at offsets 2 and 5, a dot at
offset 8, and the closing bracket at offset 12. -/
def expectTs (i : Nat) (c : Char) : Bool :=
  if i = 2 || i = 5 then c = ':'
  else if i = 8 then c = '.'
  else if i = 12 then c = '>'
  else isDigitC c

/-- Scanner for step 1: `some (i, pend)` means an opening bracket was read and
the characters `pend` (reversed) behind it matched the timestamp pattern up to
offset `i`.  On a mismatch the attempt is abandoned and scanning resumes at
the failing character; this agrees with the regex engine restarting right
after the opening bracket, because no character inside a partial match can
open a new one. -/
def removeTsA : Option (Nat × List Char) → List Char → List Char
  | none, [] => []
  | some (_, pend), [] => '<' :: pend.reverse
  | none, c :: rest =>
    if c = '<' then removeTsA (some (0, [])) rest
    else c :: removeTsA none rest
  | some (i, pend), c :: rest =>
    if expectTs i c then
      if i = 12 then removeTsA none rest
      else removeTsA (some (i + 1, c :: pend)) rest
    else
      ('<' :: pend.reverse) ++
        (if c = '<' then removeTsA (some (0, [])) rest
         else c :: removeTsA none rest)

/-- Step 1 of clean_text: remove every timestamp marker with shape
angle bracket, two digits, colon, two digits, colon, two digits, dot, three
digits, closing angle bracket, scanning left to right. -/
def removeTimestamps (l : List Char) : List Char := removeTsA none l

/-- The characters consumed so far in a partial c-tag match: state 1 after
the opening bracket, 2 after bracket and slash, 3 after bracket and c,
4 after bracket, slash and c. -/
def ctagPend : Nat → List Char
  | 1 => ['<']
  | 2 => ['<', '/']
  | 3 => ['<', 'c']
  | 4 => ['<', '/', 'c']
  | _ => []

/-- Scanner for step 2, tracking a partial match of the c-tag pattern: opening
bracket, optional slash, the letter c, closing bracket.  On a mismatch the
consumed characters are emitted and scanning resumes at the failing
character; this agrees with the regex engine because no consumed character
after the opening bracket can open a new match. -/
def removeCTagsA : Nat → List Char → List Char
  | s, [] => ctagPend s
  | 0, c :: r => if c = '<' then removeCTagsA 1 r else c :: removeCTagsA 0 r
  | 1, c :: r =>
    if c = '/' then removeCTagsA 2 r
    else if c = 'c' then removeCTagsA 3 r
    else ctagPend 1 ++ (if c = '<' then removeCTagsA 1 r else c :: removeCTagsA 0 r)
  | 2, c :: r =>
    if c = 'c' then removeCTagsA 4 r
    else ctagPend 2 ++ (if c = '<' then removeCTagsA 1 r else c :: removeCTagsA 0 r)
  | 3, c :: r =>
    if c = '>' then removeCTagsA 0 r
    else ctagPend 3 ++ (if c = '<' then removeCTagsA 1 r else c :: removeCTagsA 0 r)
  | _, c :: r =>
    if c = '>' then removeCTagsA 0 r
    else ctagPend 4 ++ (if c = '<' then removeCTagsA 1 r else c :: removeCTagsA 0 r)

/-- Step 2 of clean_text: remove every occurrence of the c-tag, opening or
closing form. -/
def removeCTags (l : List Char) : List Char := removeCTagsA 0 l

/-- Scanner state for step 3: `none` means outside any candidate tag, `some
pend` means a tag opener was seen and `pend` (reversed) holds the characters
read since, none of which is a closing bracket. -/
def removeTagsA : Option (List Char) → List Char → List Char
  | none, [] => []
  | some pend, [] => '<' :: pend.reverse
  | none, c :: rest =>
    if c = '<' then removeTagsA (some []) rest else c :: removeTagsA none rest
  | some pend, c :: rest =>
    if c = '>' then
      if pend = [] then '<' :: '>' :: removeTagsA none rest
      else removeTagsA none rest
    else removeTagsA (some (c :: pend)) rest

/-- Step 3 of clean_text: remove every remaining angle-bracket tag holding at
least one character, none of which is a closing bracket. -/
def removeTags (l : List Char) : List Char := removeTagsA none l

/-- Steps 1-3 of clean_text composed. -/
def steps123 (l : List Char) : List Char :=
  removeTags (removeCTags (removeTimestamps l))

/-- Join pieces with a separator between consecutive pieces. -/
def joinWith (sep : List Char) : List (List Char) → List Char
  | [] => []
  | [p] => p
  | p :: rest => p ++ sep ++ joinWith sep rest

/-- Python split on the newline character: the list of lines, empty pieces
kept. -/
def splitOnNl : List Char → List (List Char)
  | [] => [[]]
  | c :: rest =>
    if c = '\n' then [] :: splitOnNl rest
    else
      match splitOnNl rest with
      | h :: t => (c :: h) :: t
      | [] => [[c]]

/-- Python strip: drop leading and trailing whitespace. -/
def pyStrip (l : List Char) : List Char :=
  ((l.dropWhile isWS).reverse.dropWhile isWS).reverse

/-- Step 4 of clean_text: strip each line, drop empty lines, and drop a line
equal to the immediately preceding kept line.  The accumulator holds the kept
lines in reverse. -/
def processLines (acc : List (List Char)) : List (List Char) → List (List Char)
  | [] => acc.reverse
  | l :: rest =>
    let s := pyStrip l
    if s = [] then processLines acc rest
    else
      match acc with
      | [] => processLines [s] rest
      | a :: _ => if s = a then processLines acc rest else processLines (s :: acc) rest

/-- The line list after step 4 of clean_text. -/
def step4Lines (l : List Char) : List (List Char) :=
  processLines [] (splitOnNl (steps123 l))

/-- Whether a list starts with a whitespace character. -/
def headIsWS : List Char → Bool
  | c :: _ => isWS c
  | [] => false

/-- Whether a list starts with a punctuation character. -/
def headIsPunct : List Char → Bool
  | c :: _ => isPunct c
  | [] => false

/-- Whether a list starts with sentence-terminal punctuation. -/
def headIsTerm : List Char → Bool
  | c :: _ => isTerm c
  | [] => false

/-- Whether a list ends in a non-whitespace character; vacuously true of the
empty list. -/
def lastNonWS (l : List Char) : Bool :=
  match l.getLast? with
  | some c => !isWS c
  | none => true

/-- Step 6a of clean_text: collapse every whitespace run into a single space
(the run emits its space at its last character). -/
def collapseWS : List Char → List Char
  | [] => []
  | c :: rest =>
    if isWS c then
      if headIsWS rest then collapseWS rest
      else ' ' :: collapseWS rest
    else c :: collapseWS rest

/-- Scanner for step 6b: `pend` (reversed) is the pending whitespace run; a run
followed by a punctuation character is deleted, otherwise it is emitted
unchanged. -/
def fixPunctA (pend : List Char) : List Char → List Char
  | [] => pend.reverse
  | c :: rest =>
    if isWS c then fixPunctA (c :: pend) rest
    else if isPunct c && !pend.isEmpty then c :: fixPunctA [] rest
    else pend.reverse ++ c :: fixPunctA [] rest

/-- Step 6b of clean_text: delete whitespace standing before punctuation. -/
def fixPunct (l : List Char) : List Char := fixPunctA [] l

/-- Scanner for step 6c: `some (t, pend)` means terminal punctuation `t` was
read, followed so far by the whitespace run `pend` (reversed); if an uppercase
letter follows the run, the whole match is rewritten as terminal, one space,
letter. -/
def fixSentA : Option (Char × List Char) → List Char → List Char
  | none, [] => []
  | some (t, pend), [] => t :: pend.reverse
  | none, c :: rest =>
    if isTerm c then fixSentA (some (c, [])) rest
    else c :: fixSentA none rest
  | some (t, pend), c :: rest =>
    if isWS c then fixSentA (some (t, c :: pend)) rest
    else if isUpperC c then t :: ' ' :: c :: fixSentA none rest
    else if isTerm c then (t :: pend.reverse) ++ fixSentA (some (c, [])) rest
    else (t :: pend.reverse) ++ c :: fixSentA none rest

/-- Step 6c of clean_text: ensure a single space between sentence-terminal
punctuation and a following uppercase letter. -/
def fixSent (l : List Char) : List Char := fixSentA none l

/-- The fully normalised text of clean_text, before sentence segmentation. -/
def normalizedText (l : List Char) : List Char :=
  fixSent (fixPunct (collapseWS (joinWith ['\n'] (step4Lines l))))

/-- Scanner for step 7, the sentence split: a whitespace run whose first
character is preceded by terminal punctuation separates sentences.  `acc` is
the current piece reversed; `insep` holds while consuming a separator run. -/
def splitSentA (acc : List Char) (insep : Bool) : List Char → List (List Char)
  | [] => [acc.reverse]
  | c :: rest =>
    if insep then
      if isWS c then splitSentA acc true rest
      else splitSentA [c] false rest
    else
      if isWS c && (match acc with | p :: _ => isTerm p | [] => false) then
        acc.reverse :: splitSentA [] true rest
      else splitSentA (c :: acc) false rest

/-- Step 7 of clean_text: split the normalised text into sentences. -/
def splitSent (l : List Char) : List (List Char) := splitSentA [] false l

/-- The sentence list clean_text builds for an input. -/
def sentencesOf (l : List Char) : List (List Char) := splitSent (normalizedText l)

/-- Sentences of a paragraph joined by single spaces. -/
def joinSpace (g : List (List Char)) : List Char := joinWith [' '] g

/-- Step 8 of clean_text: group the stripped nonempty sentences into
paragraphs, emitting the buffer once it holds four sentences or at the last
sentence; a buffer left over because the last sentence stripped to nothing is
dropped, as in the source loop. -/
def groupAux (cur : List (List Char)) : List (List Char) → List (List Char)
  | [] => []
  | s :: rest =>
    let s' := pyStrip s
    if s' = [] then groupAux cur rest
    else
      let cur' := cur ++ [s']
      if 4 ≤ cur'.length || rest.isEmpty then joinSpace cur' :: groupAux [] rest
      else groupAux cur' rest

/-- The same grouping loop, keeping each paragraph as its sentence list. -/
def groupsAux (cur : List (List Char)) : List (List Char) → List (List (List Char))
  | [] => []
  | s :: rest =>
    let s' := pyStrip s
    if s' = [] then groupsAux cur rest
    else
      let cur' := cur ++ [s']
      if 4 ≤ cur'.length || rest.isEmpty then cur' :: groupsAux [] rest
      else groupsAux cur' rest

/-- The paragraph list clean_text builds for an input. -/
def paragraphsOf (l : List Char) : List (List Char) := groupAux [] (sentencesOf l)

/-- The sentence groups behind `paragraphsOf`. -/
def groupsOf (l : List Char) : List (List (List Char)) := groupsAux [] (sentencesOf l)

/-- clean_text: the full cleaning pipeline, paragraphs joined by blank
lines. -/
def clean_text (l : List Char) : List Char :=
  joinWith ['\n', '\n'] (paragraphsOf l)

/-- Python split on the two-character double-newline separator, leftmost
non-overlapping. -/
def splitNlNl : List Char → List (List Char)
  | [] => [[]]
  | [c] => [[c]]
  | c :: d :: rest =>
    if c = '\n' ∧ d = '\n' then [] :: splitNlNl rest
    else
      match splitNlNl (d :: rest) with
      | h :: t => (c :: h) :: t
      | [] => [[c]]

/-- Adjacent-pair predicate: `f` holds of every pair of neighbours. -/
def pairsOk {α : Type} (f : α → α → Bool) : List α → Bool
  | a :: b :: rest => f a b && pairsOk f (b :: rest)
  | _ => true

/-- Every whitespace character is a plain space. -/
def onlySpaceWS (l : List Char) : Bool := l.all (fun c => !isWS c || c = ' ')

/-- No two adjacent whitespace characters. -/
def noDubWS : List Char → Bool := pairsOk (fun a b => !(isWS a && isWS b))

/-- No whitespace character immediately before punctuation. -/
def noWSP : List Char → Bool := pairsOk (fun a b => !(isWS a && isPunct b))

/-- No whitespace character immediately after sentence-terminal
punctuation. -/
def noTermWS : List Char → Bool := pairsOk (fun a b => !(isTerm a && isWS b))

/-- No uppercase letter immediately after sentence-terminal punctuation. -/
def noTermUpper : List Char → Bool := pairsOk (fun a b => !(isTerm a && isUpperC b))

/-- Whether a list starts with a newline. -/
def headNl : List Char → Bool
  | c :: _ => c = '\n'
  | [] => false

/-- Every maximal run of newline characters has length exactly two. -/
def nlRunsDouble : List Char → Bool
  | [] => true
  | [c] => !(c = '\n')
  | c :: d :: rest =>
    if c = '\n' then
      if d = '\n' then
        if headNl rest then false else nlRunsDouble rest
      else false
    else nlRunsDouble (d :: rest)

/-- Whether a list starts with a closing angle bracket. -/
def headIsGt : List Char → Bool
  | c :: _ => c = '>'
  | [] => false

/-- Tag-safety with context: every tag opener in the list is either followed
immediately by a closing bracket, or sees no closing bracket later, where the
flag records whether a closing bracket occurs after the end of the list. -/
def ltOkCtx : List Char → Bool → Bool
  | [], _ => true
  | c :: rest, g =>
    if c = '<' then
      if headIsGt rest then ltOkCtx rest g
      else !g && !(rest.contains '>')
    else ltOkCtx rest g

/-- Tag-safety of a whole string: no removable tag shape remains. -/
def ltOkB (l : List Char) : Bool := ltOkCtx l false

/-- Whether some line of the list holds a closing angle bracket. -/
def anyGt (ls : List (List Char)) : Bool := ls.any (fun l => l.contains '>')

/-- Tag-safety of a line list: each line is tag-safe in the context of the
closing brackets of the lines after it and of the trailing context flag. -/
def linesOkCtx : List (List Char) → Bool → Bool
  | [], _ => true
  | l :: ls, g => ltOkCtx l (anyGt ls || g) && linesOkCtx ls g

/-- `WsJoin ps l`: `l` is the pieces `ps` in order, interleaved with nonempty
all-whitespace separators. -/
inductive WsJoin : List (List Char) → List Char → Prop
  | single (s : List Char) : WsJoin [s] s
  | cons (s w : List Char) (rest : List (List Char)) (l : List Char) :
      w ≠ [] → w.all isWS = true → WsJoin rest l → WsJoin (s :: rest) (s ++ w ++ l)

/-- List begins with the given pattern. -/
def lstartsWith : List Char → List Char → Bool
  | [], _ => true
  | _ :: _, [] => false
  | p :: ps, c :: cs => p = c && lstartsWith ps cs

/-- The line contains the timing-range separator, a double dash followed by a
closing angle bracket. -/
def hasArrow : List Char → Bool
  | '-' :: '-' :: '>' :: _ => true
  | _ :: rest => hasArrow rest
  | [] => false

/-- Python replace of colon, dot and comma by the empty string. -/
def removeSeps (l : List Char) : List Char :=
  l.filter (fun c => !(c = ':' || c = '.' || c = ','))

/-- Python isdigit: nonempty and all digits. -/
def pyIsDigit (l : List Char) : Bool := !l.isEmpty && l.all isDigitC

/-- The filtering loop of parse_vtt_file: each raw line is stripped, then
header, note, timing, blank, timestamp-shaped and tag-opening lines are
skipped and the rest kept in order. -/
def parseVttLoop : List (List Char) → List (List Char)
  | [] => []
  | line :: rest =>
    let l := pyStrip line
    if lstartsWith ('W' :: 'E' :: 'B' :: 'V' :: 'T' :: 'T' :: []) l ||
       lstartsWith ('N' :: 'O' :: 'T' :: 'E' :: []) l ||
       hasArrow l || l.isEmpty then parseVttLoop rest
    else if pyIsDigit (removeSeps l) then parseVttLoop rest
    else if !l.isEmpty && !lstartsWith ['<'] l then l :: parseVttLoop rest
    else parseVttLoop rest

/-- parse_vtt_file on the raw lines of a subtitle container: kept lines joined
by newlines. -/
def parse_vtt (lines : List (List Char)) : List Char :=
  joinWith ['\n'] (parseVttLoop lines)

/-- A character a timestamp line is made of: a digit or time-separator
punctuation. -/
def tsShape (c : Char) : Bool := isDigitC c || c = ':' || c = '.' || c = ','

/-- The line filter exactly as the specification words it: drop the header,
note lines, timing-range lines, blank lines, lines consisting only of digits
and time-separator punctuation, and lines beginning with a tag opener. -/
def specVttKeep (l : List Char) : Bool :=
  !(lstartsWith ('W' :: 'E' :: 'B' :: 'V' :: 'T' :: 'T' :: []) l) &&
  !(lstartsWith ('N' :: 'O' :: 'T' :: 'E' :: []) l) &&
  !hasArrow l && !l.isEmpty &&
  !(l.all tsShape) &&
  !lstartsWith ['<'] l

/-- The extractor the specification describes: the spec filter over stripped
lines, joined by newlines. -/
def specParseVtt (lines : List (List Char)) : List Char :=
  joinWith ['\n'] ((lines.map pyStrip).filter specVttKeep)

/-- The amended line filter: timestamp-shaped means at least one digit and
otherwise only digits and time-separator punctuation. -/
def amendedVttKeep (l : List Char) : Bool :=
  !(lstartsWith ('W' :: 'E' :: 'B' :: 'V' :: 'T' :: 'T' :: []) l) &&
  !(lstartsWith ('N' :: 'O' :: 'T' :: 'E' :: []) l) &&
  !hasArrow l && !l.isEmpty &&
  !(l.all tsShape && l.any isDigitC) &&
  !lstartsWith ['<'] l

/-- The caption metadata the external download library reports for a video:
the language keys of the manual-subtitles set and of the automatic-captions
set, in their listing order. -/
structure VideoInfo where
  subtitles : List (List Char)
  automatic_captions : List (List Char)

/-- Observable outcome of one get_video_captions call. -/
structure FetchOutcome where
  result : Option (List Char)
  reportedAvailable : Option (List (List Char))
  downloaded : Bool

/-- get_video_captions: prefer a manual track, else an automatic track, else
report the concatenated available-language list and stop; on a chosen track,
download (modelled by the oracle `fetch`, taking whether the manual track was
chosen and returning the downloaded file's lines, or nothing when the file is
missing), parse it, and return the text. -/
def get_video_captions (info : VideoInfo) (language : List Char)
    (fetch : Bool → Option (List (List Char))) : FetchOutcome :=
  if language ∈ info.subtitles then
    match fetch true with
    | none => { result := none, reportedAvailable := none, downloaded := true }
    | some lines =>
      { result := some (parse_vtt lines), reportedAvailable := none, downloaded := true }
  else if language ∈ info.automatic_captions then
    match fetch false with
    | none => { result := none, reportedAvailable := none, downloaded := true }
    | some lines =>
      { result := some (parse_vtt lines), reportedAvailable := none, downloaded := true }
  else
    { result := none,
      reportedAvailable := some (info.subtitles ++ info.automatic_captions),
      downloaded := false }

/-- A flat file system: path-content pairs, later entries shadowed by earlier
ones. -/
def lookupFs (k : List Char) : List (List Char × List Char) → Option (List Char)
  | [] => none
  | (k', v) :: rest => if k' = k then some v else lookupFs k rest

/-- Writing a file: the new pair shadows any old entry. -/
def writeFs (k v : List Char) (fs : List (List Char × List Char)) :
    List (List Char × List Char) := (k, v) :: fs

/-- clean_captions: abort when the input path is absent, leaving the file
system untouched; otherwise clean the content and write it to the output
path. -/
def clean_captions (fs : List (List Char × List Char)) (input output : List Char) :
    Option (List Char) × List (List Char × List Char) :=
  match lookupFs input fs with
  | none => (none, fs)
  | some content =>
    let cleaned := clean_text content
    (some cleaned, writeFs output cleaned fs)

/-- The character list of a string literal. -/
def chars (s : String) : List Char := s.data

/-- Whether the first pair of a cons satisfies `f`; trivially true for a
single element. -/
def headOk {α : Type} (f : α → α → Bool) (a : α) : List α → Bool
  | b :: _ => f a b
  | [] => true

/-- Whether the junction pair of an append satisfies `f`; trivially true when
the left part is empty. -/
def lastOk {α : Type} (f : α → α → Bool) (xs ys : List α) : Bool :=
  match xs.getLast? with
  | some x => headOk f x ys
  | none => true

/-- The pieces interleaved with empty pieces, the shape `splitOnNl` gives to a
blank-line-separated document. -/
def sepEmpties : List (List Char) → List (List Char)
  | [] => []
  | [p] => [p]
  | p :: rest => p :: [] :: sepEmpties rest

/-- The piece does not begin with a punctuation character. -/
def notPunctHead (p : List Char) : Bool := !headIsPunct p

/-- The list holds no newline character. -/
def noNl (p : List Char) : Bool := p.all (fun c => !(c = '\n'))

end CaptionTools

namespace CaptionTools

theorem pairsOk_cons₂ {α : Type} (f : α → α → Bool) (x y : α) (l : List α) :
    pairsOk f (x :: y :: l) = (f x y && pairsOk f (y :: l)) := rfl

theorem lastOk_cons₂ {α : Type} (f : α → α → Bool) (x y : α) (l ys : List α) :
    lastOk f (x :: y :: l) ys = lastOk f (y :: l) ys := by
  simp [lastOk, List.getLast?_cons_cons]

theorem pairsOk_cons {α : Type} (f : α → α → Bool) (a : α) (l : List α) :
    pairsOk f (a :: l) = (headOk f a l && pairsOk f l) := by
  cases l <;> simp [pairsOk, headOk]

theorem pairsOk_tail {α : Type} {f : α → α → Bool} {a : α} {l : List α}
    (h : pairsOk f (a :: l) = true) : pairsOk f l = true := by
  rw [pairsOk_cons, Bool.and_eq_true] at h
  exact h.2

theorem pairsOk_head {α : Type} {f : α → α → Bool} {a : α} {l : List α}
    (h : pairsOk f (a :: l) = true) : headOk f a l = true := by
  rw [pairsOk_cons, Bool.and_eq_true] at h
  exact h.1

theorem pairsOk_append_right {α : Type} {f : α → α → Bool} :
    ∀ {xs ys : List α}, pairsOk f (xs ++ ys) = true → pairsOk f ys = true := by
  intro xs
  induction xs with
  | nil => intro ys h; exact h
  | cons a xs ih => intro ys h; exact ih (pairsOk_tail h)

theorem pairsOk_append_left {α : Type} {f : α → α → Bool} :
    ∀ (xs : List α) {ys : List α}, pairsOk f (xs ++ ys) = true → pairsOk f xs = true := by
  intro xs
  induction xs with
  | nil => intro ys _; rfl
  | cons a xs ih =>
    intro ys h
    rw [List.cons_append, pairsOk_cons, Bool.and_eq_true] at h
    obtain ⟨h1, h2⟩ := h
    rw [pairsOk_cons, Bool.and_eq_true]
    refine ⟨?_, ih h2⟩
    cases xs with
    | nil => rfl
    | cons b xs' => simpa [headOk] using h1

theorem pairsOk_append_of {α : Type} {f : α → α → Bool} :
    ∀ (xs : List α) {ys : List α}, pairsOk f xs = true → pairsOk f ys = true →
      lastOk f xs ys = true → pairsOk f (xs ++ ys) = true := by
  intro xs
  induction xs with
  | nil => intro ys _ hy _; exact hy
  | cons a xs ih =>
    intro ys hx hy hb
    cases xs with
    | nil =>
      rw [List.singleton_append, pairsOk_cons, Bool.and_eq_true]
      refine ⟨?_, hy⟩
      simpa [lastOk] using hb
    | cons b xs' =>
      rw [List.cons_append, pairsOk_cons, Bool.and_eq_true]
      rw [pairsOk_cons, Bool.and_eq_true] at hx
      obtain ⟨h1, h2⟩ := hx
      refine ⟨?_, ih h2 hy ?_⟩
      · simpa [headOk] using h1
      · rw [lastOk_cons₂] at hb
        exact hb

theorem pairsOk_append_singleton {α : Type} (f : α → α → Bool) (a : α) :
    ∀ xs : List α, pairsOk f (xs ++ [a]) = (pairsOk f xs && lastOk f xs [a]) := by
  intro xs
  induction xs with
  | nil => simp [pairsOk, lastOk]
  | cons b xs ih =>
    cases xs with
    | nil => simp [pairsOk, lastOk, headOk]
    | cons c xs' =>
      have hl : ((b :: c :: xs') ++ [a] : List α) = b :: c :: (xs' ++ [a]) := rfl
      rw [hl, pairsOk_cons₂]
      have ih' : pairsOk f (c :: (xs' ++ [a])) = (pairsOk f (c :: xs') && lastOk f (c :: xs') [a]) := ih
      rw [ih', pairsOk_cons₂, lastOk_cons₂, Bool.and_assoc]

theorem pairsOk_reverse {α : Type} (f : α → α → Bool) (hf : ∀ a b, f a b = f b a) :
    ∀ l : List α, pairsOk f l.reverse = pairsOk f l := by
  intro l
  induction l with
  | nil => rfl
  | cons a l ih =>
    rw [List.reverse_cons, pairsOk_append_singleton, ih, pairsOk_cons]
    have hlast : lastOk f l.reverse [a] = headOk f a l := by
      cases l with
      | nil => simp [lastOk, headOk]
      | cons b l' =>
        simp only [lastOk, List.getLast?_reverse, List.head?, headOk]
        exact hf b a
    rw [hlast, Bool.and_comm]

theorem groupAux_eq_map :
    ∀ (l cur : List (List Char)), groupAux cur l = (groupsAux cur l).map joinSpace := by
  intro l
  induction l with
  | nil => intro cur; rfl
  | cons s rest ih =>
    intro cur
    simp only [groupAux, groupsAux]
    by_cases hs : pyStrip s = []
    · rw [if_pos hs, if_pos hs, ih]
    · rw [if_neg hs, if_neg hs]
      by_cases hc : (decide (4 ≤ (cur ++ [pyStrip s]).length) || rest.isEmpty) = true
      · rw [if_pos hc, if_pos hc, List.map_cons, ih]
      · rw [if_neg hc, if_neg hc, ih]

theorem groupsAux_len :
    ∀ (l cur : List (List Char)), cur.length ≤ 3 →
      ∀ g ∈ groupsAux cur l, 1 ≤ g.length ∧ g.length ≤ 4 := by
  intro l
  induction l with
  | nil => intro cur _ g hg; simp [groupsAux] at hg
  | cons s rest ih =>
    intro cur hcur g hg
    simp only [groupsAux] at hg
    by_cases hs : pyStrip s = []
    · rw [if_pos hs] at hg
      exact ih cur hcur g hg
    · rw [if_neg hs] at hg
      by_cases hc : (decide (4 ≤ (cur ++ [pyStrip s]).length) || rest.isEmpty) = true
      · rw [if_pos hc, List.mem_cons] at hg
        rcases hg with hg | hg
        · subst hg
          constructor
          · simp
          · simp only [List.length_append, List.length_cons, List.length_nil]
            omega
        · exact ih [] (by simp) g hg
      · rw [if_neg hc] at hg
        refine ih (cur ++ [pyStrip s]) ?_ g hg
        have h4 : ¬ 4 ≤ (cur ++ [pyStrip s]).length := by
          intro h4
          exact hc (by rw [decide_eq_true h4, Bool.true_or])
        simp only [List.length_append, List.length_cons, List.length_nil] at h4 ⊢
        omega

theorem groupsAux_dropLast_len :
    ∀ (l cur : List (List Char)), cur.length ≤ 3 →
      ∀ g ∈ (groupsAux cur l).dropLast, g.length = 4 := by
  intro l
  induction l with
  | nil => intro cur _ g hg; simp [groupsAux] at hg
  | cons s rest ih =>
    intro cur hcur g hg
    simp only [groupsAux] at hg
    by_cases hs : pyStrip s = []
    · rw [if_pos hs] at hg
      exact ih cur hcur g hg
    · rw [if_neg hs] at hg
      by_cases hc : (decide (4 ≤ (cur ++ [pyStrip s]).length) || rest.isEmpty) = true
      · rw [if_pos hc] at hg
        rcases hr : groupsAux [] rest with _ | ⟨g2, gs2⟩
        · rw [hr] at hg
          simp at hg
        · rw [hr, List.dropLast_cons₂, List.mem_cons] at hg
          rcases hg with hg | hg
          · subst hg
            have h4 : 4 ≤ (cur ++ [pyStrip s]).length := by
              rcases Bool.or_eq_true_iff.mp hc with h | h
              · exact of_decide_eq_true h
              · exfalso
                have hre : rest = [] := by
                  cases rest with
                  | nil => rfl
                  | cons r rs => simp at h
                rw [hre] at hr
                simp [groupsAux] at hr
            have hle : cur.length + 1 ≤ 4 := by
              simpa using Nat.add_le_add_right hcur 1
            simp only [List.length_append, List.length_cons, List.length_nil] at h4 ⊢
            omega
          · have := ih [] (by simp) g
            rw [hr] at this
            exact this hg
      · rw [if_neg hc] at hg
        refine ih (cur ++ [pyStrip s]) ?_ g hg
        have h4 : ¬ 4 ≤ (cur ++ [pyStrip s]).length := by
          intro h4
          exact hc (by rw [decide_eq_true h4, Bool.true_or])
        simp only [List.length_append, List.length_cons, List.length_nil] at h4 ⊢
        omega

theorem groupsAux_mem_ne :
    ∀ (l cur : List (List Char)), (∀ s ∈ cur, s ≠ []) →
      ∀ g ∈ groupsAux cur l, ∀ s ∈ g, s ≠ [] := by
  intro l
  induction l with
  | nil => intro cur _ g hg; simp [groupsAux] at hg
  | cons s rest ih =>
    intro cur hcur g hg
    simp only [groupsAux] at hg
    by_cases hs : pyStrip s = []
    · rw [if_pos hs] at hg
      exact ih cur hcur g hg
    · rw [if_neg hs] at hg
      have hcur' : ∀ x ∈ cur ++ [pyStrip s], x ≠ [] := by
        intro x hx
        rcases List.mem_append.mp hx with hx | hx
        · exact hcur x hx
        · simp only [List.mem_singleton] at hx
          subst hx
          exact hs
      by_cases hc : (decide (4 ≤ (cur ++ [pyStrip s]).length) || rest.isEmpty) = true
      · rw [if_pos hc, List.mem_cons] at hg
        rcases hg with hg | hg
        · subst hg
          exact hcur'
        · exact ih [] (by simp) g hg
      · rw [if_neg hc] at hg
        exact ih (cur ++ [pyStrip s]) hcur' g hg

theorem bne_symm_list (a b : List Char) : (a != b) = (b != a) := by
  by_cases hab : a = b
  · subst hab; rfl
  · rw [bne_iff_ne.mpr hab, bne_iff_ne.mpr (Ne.symm hab)]

theorem processLines_pairsOk :
    ∀ (ls acc : List (List Char)),
      pairsOk (fun a b : List Char => a != b) acc = true →
      pairsOk (fun a b : List Char => a != b) (processLines acc ls) = true := by
  intro ls
  induction ls with
  | nil =>
    intro acc h
    simp only [processLines]
    rw [pairsOk_reverse _ bne_symm_list]
    exact h
  | cons l rest ih =>
    intro acc h
    simp only [processLines]
    by_cases hs : pyStrip l = []
    · rw [if_pos hs]
      exact ih acc h
    · rw [if_neg hs]
      cases acc with
      | nil => exact ih [pyStrip l] rfl
      | cons a as =>
        dsimp only
        by_cases he : pyStrip l = a
        · rw [if_pos he]
          exact ih (a :: as) h
        · rw [if_neg he]
          refine ih (pyStrip l :: a :: as) ?_
          rw [pairsOk_cons₂, Bool.and_eq_true]
          exact ⟨bne_iff_ne.mpr he, h⟩

/-- C4: in the line list produced by step 4 (strip, drop empties, collapse
consecutive duplicates) no kept line equals the line kept immediately before
it, for every input; and duplicate lines separated by a different kept line
are retained. -/
theorem step4_dedup :
    (∀ t : List Char, pairsOk (fun a b : List Char => a != b) (step4Lines t) = true) ∧
    (∀ a b : List Char, pyStrip a = a → a ≠ [] → pyStrip b = b → b ≠ [] → a ≠ b →
      processLines [] [a, b, a] = [a, b, a]) := by
  constructor
  · intro t
    exact processLines_pairsOk _ [] rfl
  · intro a b ha hane hb hbne hab
    simp only [processLines]
    rw [ha, hb]
    simp [hane, hbne, hab, Ne.symm hab]

/-- Witness for the C4 theorem at concrete lines. -/
theorem step4_dedup_witness :
    processLines [] [chars "a", chars "b", chars "a"] = [chars "a", chars "b", chars "a"] :=
  step4_dedup.2 (chars "a") (chars "b") (by decide) (by decide) (by decide) (by decide)
    (by decide)

theorem removeSeps_all :
    ∀ l : List Char, ((removeSeps l).all isDigitC) = l.all tsShape := by
  intro l
  induction l with
  | nil => rfl
  | cons c rest ih =>
    simp only [removeSeps] at ih ⊢
    rw [List.filter_cons]
    by_cases h1 : c = ':'
    · subst h1
      rw [if_neg (by decide), List.all_cons, show tsShape ':' = true from by decide,
        Bool.true_and, ih]
    · by_cases h2 : c = '.'
      · subst h2
        rw [if_neg (by decide), List.all_cons, show tsShape '.' = true from by decide,
          Bool.true_and, ih]
      · by_cases h3 : c = ','
        · subst h3
          rw [if_neg (by decide), List.all_cons, show tsShape ',' = true from by decide,
            Bool.true_and, ih]
        · have hp : (!(c = ':' || c = '.' || c = ',') : Bool) = true := by
            simp [h1, h2, h3]
          rw [if_pos hp, List.all_cons, List.all_cons, ih]
          have ht : tsShape c = isDigitC c := by
            simp [tsShape, h1, h2, h3]
          rw [ht]

theorem removeSeps_isEmpty :
    ∀ l : List Char, ((removeSeps l).isEmpty = false) ↔ (l.any (fun c => !tsShape c) = true ∨ l.any isDigitC = true) := by
  intro l
  induction l with
  | nil => simp [removeSeps]
  | cons c rest ih =>
    simp only [removeSeps] at ih ⊢
    rw [List.filter_cons]
    by_cases h1 : c = ':'
    · subst h1
      rw [if_neg (by decide)]
      simp only [List.any_cons, show tsShape ':' = true from by decide,
        show isDigitC ':' = false from by decide]
      simpa using ih
    · by_cases h2 : c = '.'
      · subst h2
        rw [if_neg (by decide)]
        simp only [List.any_cons, show tsShape '.' = true from by decide,
          show isDigitC '.' = false from by decide]
        simpa using ih
      · by_cases h3 : c = ','
        · subst h3
          rw [if_neg (by decide)]
          simp only [List.any_cons, show tsShape ',' = true from by decide,
            show isDigitC ',' = false from by decide]
          simpa using ih
        · have hp : (!(c = ':' || c = '.' || c = ',') : Bool) = true := by
            simp [h1, h2, h3]
          rw [if_pos hp]
          simp only [List.isEmpty_cons, List.any_cons]
          have ht : tsShape c = isDigitC c := by simp [tsShape, h1, h2, h3]
          constructor
          · intro _
            cases hd : isDigitC c
            · left
              simp [ht, hd]
            · right
              simp [hd]
          · intro _
            trivial

theorem pyIsDigit_removeSeps :
    ∀ l : List Char, pyIsDigit (removeSeps l) = (l.all tsShape && l.any isDigitC) := by
  intro l
  rcases he : (removeSeps l).isEmpty with _ | _
  · rw [pyIsDigit, he, removeSeps_all]
    rcases ha : l.all tsShape with _ | _
    · simp
    · have hany : l.any isDigitC = true := by
        rcases (removeSeps_isEmpty l).mp he with h | h
        · exfalso
          rcases List.any_eq_true.mp h with ⟨c, hc, hnc⟩
          have := List.all_eq_true.mp ha c hc
          rw [this] at hnc
          exact absurd hnc (by decide)
        · exact h
      simp [hany]
  · have hnone : ¬ ((l.any fun c => !tsShape c) = true ∨ l.any isDigitC = true) := by
      intro h
      rw [(removeSeps_isEmpty l).mpr h] at he
      exact Bool.noConfusion he
    push_neg at hnone
    have hany : l.any isDigitC = false := by
      cases hx : l.any isDigitC
      · rfl
      · exact absurd hx hnone.2
    rw [pyIsDigit, he, hany]
    simp

theorem parseVttLoop_eq_filter :
    ∀ lines : List (List Char),
      parseVttLoop lines = (lines.map pyStrip).filter amendedVttKeep := by
  intro lines
  induction lines with
  | nil => rfl
  | cons line rest ih =>
    simp only [parseVttLoop, List.map_cons]
    rw [List.filter_cons]
    by_cases hW : lstartsWith ('W' :: 'E' :: 'B' :: 'V' :: 'T' :: 'T' :: []) (pyStrip line) = true
    · rw [if_pos (by rw [hW] ; rfl)]
      have : amendedVttKeep (pyStrip line) = false := by
        simp [amendedVttKeep, hW]
      rw [this, if_neg (by simp)]
      exact ih
    · by_cases hN : lstartsWith ('N' :: 'O' :: 'T' :: 'E' :: []) (pyStrip line) = true
      · rw [if_pos (by simp [hN])]
        have : amendedVttKeep (pyStrip line) = false := by
          simp [amendedVttKeep, hN]
        rw [this, if_neg (by simp)]
        exact ih
      · by_cases hR : hasArrow (pyStrip line) = true
        · rw [if_pos (by simp [hR])]
          have : amendedVttKeep (pyStrip line) = false := by
            simp [amendedVttKeep, hR]
          rw [this, if_neg (by simp)]
          exact ih
        · by_cases hE : (pyStrip line).isEmpty = true
          · rw [if_pos (by simp [hE])]
            have : amendedVttKeep (pyStrip line) = false := by
              simp [amendedVttKeep, hE]
            rw [this, if_neg (by simp)]
            exact ih
          · rw [if_neg (by simp [hW, hN, hR, hE])]
            by_cases hD : pyIsDigit (removeSeps (pyStrip line)) = true
            · rw [if_pos hD]
              have : amendedVttKeep (pyStrip line) = false := by
                rw [pyIsDigit_removeSeps] at hD
                simp [amendedVttKeep, hD]
              rw [this, if_neg (by simp)]
              exact ih
            · rw [if_neg hD]
              by_cases hL : lstartsWith ['<'] (pyStrip line) = true
              · rw [if_neg (by simp [hL])]
                have : amendedVttKeep (pyStrip line) = false := by
                  simp [amendedVttKeep, hL]
                rw [this, if_neg (by simp)]
                exact ih
              · rw [if_pos (by simp [hE, hL])]
                have : amendedVttKeep (pyStrip line) = true := by
                  rw [pyIsDigit_removeSeps] at hD
                  simp only [amendedVttKeep]
                  simp [hW, hN, hR, hE, hL, hD]
                rw [this, if_pos rfl]
                rw [ih]

/-- C6 counterexample: a line of separator punctuation alone is kept by
parse_vtt_file (Python isdigit is false on the empty string) although the
claimed filter calls it purely timestamp-shaped and drops it. -/
theorem parse_vtt_spec_counterexample :
    parse_vtt [chars ":::"] = chars ":::" ∧ specParseVtt [chars ":::"] = [] ∧
      parse_vtt [chars ":::"] ≠ specParseVtt [chars ":::"] :=
  ⟨by decide, by decide, by decide⟩

/-- C6 amended: parse_vtt_file keeps exactly the stripped lines that are not
the header, not note lines, not timing-range lines, not blank, not
timestamp-shaped (at least one digit and otherwise only digits and
time-separator punctuation) and not beginning with a tag opener, joined by
newlines; and on the header, timing line and text line Hello it returns
exactly Hello. -/
theorem parse_vtt_line_filter :
    (∀ lines : List (List Char),
      parse_vtt lines = joinWith ['\n'] ((lines.map pyStrip).filter amendedVttKeep)) ∧
    parse_vtt [chars "WEBVTT", chars "00:00:01.000 --> 00:00:02.000", chars "Hello"] =
      chars "Hello" := by
  constructor
  · intro lines
    unfold parse_vtt
    rw [parseVttLoop_eq_filter]
  · decide

/-- C10: the kept line sequence of parse_vtt_file is a sublist of the stripped
input lines in their original order, and the result is exactly those lines
joined by newlines. -/
theorem parse_vtt_lines_sublist :
    ∀ lines : List (List Char),
      (parseVttLoop lines).Sublist (lines.map pyStrip) ∧
      parse_vtt lines = joinWith ['\n'] (parseVttLoop lines) := by
  intro lines
  refine ⟨?_, rfl⟩
  induction lines with
  | nil => exact List.Sublist.refl []
  | cons line rest ih =>
    simp only [parseVttLoop, List.map_cons]
    by_cases hA : (lstartsWith ('W' :: 'E' :: 'B' :: 'V' :: 'T' :: 'T' :: []) (pyStrip line) ||
        lstartsWith ('N' :: 'O' :: 'T' :: 'E' :: []) (pyStrip line) ||
        hasArrow (pyStrip line) || (pyStrip line).isEmpty) = true
    · rw [if_pos hA]
      exact List.Sublist.cons _ ih
    · rw [if_neg hA]
      by_cases hD : pyIsDigit (removeSeps (pyStrip line)) = true
      · rw [if_pos hD]
        exact List.Sublist.cons _ ih
      · rw [if_neg hD]
        by_cases hK : (!(pyStrip line).isEmpty && !lstartsWith ['<'] (pyStrip line)) = true
        · rw [if_pos hK]
          exact List.Sublist.cons₂ _ ih
        · rw [if_neg hK]
          exact List.Sublist.cons _ ih

/-- C7: when the requested language is in neither the manual-subtitles set nor
the automatic-captions set, get_video_captions returns no result, reports the
concatenation of the two language lists exactly as obtained, and downloads
nothing. -/
theorem get_video_captions_unavailable :
    ∀ (info : VideoInfo) (language : List Char)
      (fetch : Bool → Option (List (List Char))),
      language ∉ info.subtitles → language ∉ info.automatic_captions →
      get_video_captions info language fetch =
        { result := none,
          reportedAvailable := some (info.subtitles ++ info.automatic_captions),
          downloaded := false } := by
  intro info language fetch h1 h2
  unfold get_video_captions
  rw [if_neg h1, if_neg h2]

/-- Witness for the C7 theorem at a concrete metadata record. -/
theorem get_video_captions_unavailable_witness :
    get_video_captions ⟨[chars "en"], [chars "fr"]⟩ (chars "de") (fun _ => none) =
      { result := none, reportedAvailable := some [chars "en", chars "fr"],
        downloaded := false } :=
  get_video_captions_unavailable ⟨[chars "en"], [chars "fr"]⟩ (chars "de")
    (fun _ => none) (by decide) (by decide)

/-- C8: when the input path does not exist, clean_captions returns no result
and leaves the file system exactly as it was: no output file is written or
created. -/
theorem clean_captions_missing_input :
    ∀ (fs : List (List Char × List Char)) (input output : List Char),
      lookupFs input fs = none → clean_captions fs input output = (none, fs) := by
  intro fs input output h
  unfold clean_captions
  rw [h]

/-- Witness for the C8 theorem on an empty file system. -/
theorem clean_captions_missing_input_witness :
    clean_captions [] (chars "captions_en.txt") (chars "cleaned_captions.txt") =
      (none, []) :=
  clean_captions_missing_input [] (chars "captions_en.txt")
    (chars "cleaned_captions.txt") rfl

/-- C3: on the doubled caption line with timestamp and c-tags, clean_text
returns the single paragraph Hello world. This is great! -/
theorem clean_text_concrete_example :
    clean_text (chars
        "Hello world<01:13:29.320>. This is<c> great</c>!\nHello world<01:13:29.320>. This is<c> great</c>!") =
      chars "Hello world. This is great!" := by
  decide

/-- C1 counterexample: eight sentences on one line clean to two identical
paragraphs; re-cleaning collapses them as consecutive duplicate lines, so
clean_text is not idempotent on its own image. -/
theorem clean_text_not_idempotent_on_image :
    clean_text (chars "A. B. C. D. A. B. C. D.") =
        chars "A. B. C. D.\n\nA. B. C. D." ∧
    clean_text (clean_text (chars "A. B. C. D. A. B. C. D.")) =
        chars "A. B. C. D." ∧
    clean_text (clean_text (chars "A. B. C. D. A. B. C. D.")) ≠
        clean_text (chars "A. B. C. D. A. B. C. D.") :=
  ⟨by decide, by decide, by decide⟩

theorem ws_cases {c : Char} (h : isWS c = true) :
    c = ' ' ∨ c = '\t' ∨ c = '\n' ∨ c = '\r' ∨ c = '\x0b' ∨ c = '\x0c' := by
  simp only [isWS, Bool.or_eq_true, decide_eq_true_eq] at h
  tauto

theorem ws_not_punct {c : Char} (h : isWS c = true) : isPunct c = false := by
  rcases ws_cases h with h | h | h | h | h | h <;> subst h <;> decide

theorem ws_not_term {c : Char} (h : isWS c = true) : isTerm c = false := by
  rcases ws_cases h with h | h | h | h | h | h <;> subst h <;> decide

theorem ws_not_upper {c : Char} (h : isWS c = true) : isUpperC c = false := by
  rcases ws_cases h with h | h | h | h | h | h <;> subst h <;> decide

theorem ws_not_lt {c : Char} (h : isWS c = true) : c ≠ '<' := by
  rcases ws_cases h with h | h | h | h | h | h <;> subst h <;> decide

theorem ws_not_gt {c : Char} (h : isWS c = true) : c ≠ '>' := by
  rcases ws_cases h with h | h | h | h | h | h <;> subst h <;> decide

theorem term_cases {c : Char} (h : isTerm c = true) : c = '.' ∨ c = '!' ∨ c = '?' := by
  simp only [isTerm, Bool.or_eq_true, decide_eq_true_eq] at h
  tauto

theorem term_not_ws {c : Char} (h : isTerm c = true) : isWS c = false := by
  rcases term_cases h with h | h | h <;> subst h <;> decide

theorem term_punct {c : Char} (h : isTerm c = true) : isPunct c = true := by
  rcases term_cases h with h | h | h <;> subst h <;> decide

theorem term_not_upper {c : Char} (h : isTerm c = true) : isUpperC c = false := by
  rcases term_cases h with h | h | h <;> subst h <;> decide

theorem punct_cases {c : Char} (h : isPunct c = true) :
    c = ',' ∨ c = '.' ∨ c = '!' ∨ c = '?' ∨ c = ';' ∨ c = ':' := by
  simp only [isPunct, Bool.or_eq_true, decide_eq_true_eq] at h
  tauto

theorem punct_not_ws {c : Char} (h : isPunct c = true) : isWS c = false := by
  rcases punct_cases h with h | h | h | h | h | h <;> subst h <;> decide

theorem upper_not_punct {c : Char} (h : isUpperC c = true) : isPunct c = false := by
  cases hp : isPunct c
  · rfl
  · exfalso
    rcases punct_cases hp with hc | hc | hc | hc | hc | hc <;> subst hc <;>
      exact absurd h (by decide)

theorem upper_not_ws {c : Char} (h : isUpperC c = true) : isWS c = false := by
  cases hp : isWS c
  · rfl
  · exfalso
    rcases ws_cases hp with hc | hc | hc | hc | hc | hc <;> subst hc <;>
      exact absurd h (by decide)

theorem upper_not_term {c : Char} (h : isUpperC c = true) : isTerm c = false := by
  cases hp : isTerm c
  · rfl
  · exfalso
    rcases term_cases hp with hc | hc | hc <;> subst hc <;>
      exact absurd h (by decide)

theorem headIsWS_append {a : List Char} (b : List Char) (h : a ≠ []) :
    headIsWS (a ++ b) = headIsWS a := by
  cases a with
  | nil => exact absurd rfl h
  | cons c a' => rfl

theorem lastNonWS_append {a b : List Char} (h : b ≠ []) :
    lastNonWS (a ++ b) = lastNonWS b := by
  rw [lastNonWS, lastNonWS, List.getLast?_append_of_ne_nil a h]

theorem lastNonWS_cons {c : Char} {l : List Char} (h : l ≠ []) :
    lastNonWS (c :: l) = lastNonWS l := by
  cases l with
  | nil => exact absurd rfl h
  | cons d l' => rw [lastNonWS, lastNonWS, List.getLast?_cons_cons]

theorem lastNonWS_singleton (c : Char) : lastNonWS [c] = !isWS c := rfl

theorem lastNonWS_concat (a : List Char) (c : Char) :
    lastNonWS (a ++ [c]) = !isWS c := by
  rw [lastNonWS, List.getLast?_concat]

theorem contains_cons (c d : Char) (l : List Char) :
    (d :: l).contains c = ((c == d) || l.contains c) := by
  cases hc : c == d <;> simp [List.contains, List.elem, hc]

theorem contains_append (c : Char) (a b : List Char) :
    (a ++ b).contains c = (a.contains c || b.contains c) := by
  induction a with
  | nil => simp
  | cons d a' ih =>
    rw [List.cons_append, contains_cons, ih, contains_cons, Bool.or_assoc]

theorem contains_false_of_all {c : Char} {l : List Char}
    (h : ∀ d ∈ l, d ≠ c) : l.contains c = false := by
  induction l with
  | nil => rfl
  | cons d l' ih =>
    rw [contains_cons, ih (fun x hx => h x (List.mem_cons_of_mem _ hx))]
    have h1 : (c == d) = false := by
      refine beq_eq_false_iff_ne.mpr ?_
      exact fun he => (h d (List.mem_cons_self d l')) he.symm
    rw [h1]
    rfl

theorem ne_of_contains_false {c : Char} {l : List Char}
    (h : l.contains c = false) : ∀ d ∈ l, d ≠ c := by
  induction l with
  | nil => intro d hd; simp at hd
  | cons d l' ih =>
    rw [contains_cons] at h
    rcases Bool.or_eq_false_iff.mp h with ⟨h1, h2⟩
    intro x hx
    rcases List.mem_cons.mp hx with hx | hx
    · subst hx
      exact fun he => (beq_eq_false_iff_ne.mp h1) he.symm
    · exact ih h2 x hx

theorem contains_false_of_all_ws {l : List Char}
    (h : l.all isWS = true) : l.contains '>' = false :=
  contains_false_of_all (fun d hd => ws_not_gt (List.all_eq_true.mp h d hd))

theorem takeWhile_all (p : Char → Bool) : ∀ l : List Char, (l.takeWhile p).all p = true := by
  intro l
  induction l with
  | nil => rfl
  | cons c rest ih =>
    rw [List.takeWhile_cons]
    by_cases hc : p c = true
    · rw [if_pos hc, List.all_cons, hc, ih]
      rfl
    · rw [if_neg hc]
      rfl

theorem headIsWS_dropWhile : ∀ l : List Char, headIsWS (l.dropWhile isWS) = false := by
  intro l
  induction l with
  | nil => rfl
  | cons c rest ih =>
    rw [List.dropWhile_cons]
    by_cases hc : isWS c = true
    · rw [if_pos hc]
      exact ih
    · rw [if_neg hc]
      simp only [headIsWS]
      cases hx : isWS c
      · rfl
      · exact absurd hx hc

theorem dropWhile_of_headFalse {l : List Char} (h : headIsWS l = false) :
    l.dropWhile isWS = l := by
  cases l with
  | nil => rfl
  | cons c rest =>
    rw [List.dropWhile_cons, if_neg]
    rw [headIsWS] at h
    simp [h]

theorem headIsWS_eq_head? (l : List Char) :
    headIsWS l = (match l.head? with | some c => isWS c | none => false) := by
  cases l <;> rfl

theorem pyStrip_decomp (l : List Char) :
    l = l.takeWhile isWS ++ pyStrip l ++
        (((l.dropWhile isWS).reverse.takeWhile isWS).reverse) ∧
      (l.takeWhile isWS).all isWS = true ∧
      ((((l.dropWhile isWS).reverse.takeWhile isWS).reverse).all isWS = true) := by
  have h2 : (l.dropWhile isWS).reverse =
      (l.dropWhile isWS).reverse.takeWhile isWS ++ (l.dropWhile isWS).reverse.dropWhile isWS :=
    (List.takeWhile_append_dropWhile isWS _).symm
  have h3 : l.dropWhile isWS =
      pyStrip l ++ ((l.dropWhile isWS).reverse.takeWhile isWS).reverse := by
    have h6 := congrArg List.reverse h2
    rw [List.reverse_reverse, List.reverse_append] at h6
    exact h6
  refine ⟨?_, takeWhile_all isWS l, ?_⟩
  · conv_lhs => rw [← List.takeWhile_append_dropWhile isWS l, h3]
    exact (List.append_assoc _ _ _).symm
  · rw [List.all_reverse]
    exact takeWhile_all isWS _

theorem pyStrip_headIsWS (l : List Char) : headIsWS (pyStrip l) = false := by
  rcases hd : (l.dropWhile isWS).reverse.dropWhile isWS with _ | ⟨c, d'⟩
  · rw [pyStrip, hd]
    rfl
  · rw [pyStrip, hd, headIsWS_eq_head?, List.head?_reverse]
    have h2 : (l.dropWhile isWS).reverse =
        (l.dropWhile isWS).reverse.takeWhile isWS ++ (c :: d') := by
      conv_lhs => rw [← List.takeWhile_append_dropWhile isWS (l.dropWhile isWS).reverse]
      rw [hd]
    have h3 : (c :: d').getLast? = (l.dropWhile isWS).head? := by
      have h5 : (c :: d').getLast? = ((l.dropWhile isWS).reverse).getLast? := by
        conv_rhs => rw [h2]
        rw [List.getLast?_append_of_ne_nil _ (List.cons_ne_nil _ _)]
      rw [h5, List.getLast?_reverse]
    rw [h3]
    have h4 := headIsWS_dropWhile l
    rw [headIsWS_eq_head?] at h4
    exact h4

theorem pyStrip_lastNonWS (l : List Char) : lastNonWS (pyStrip l) = true := by
  rw [pyStrip, lastNonWS, List.getLast?_reverse]
  have h4 := headIsWS_dropWhile (l.dropWhile isWS).reverse
  rw [headIsWS_eq_head?] at h4
  rcases hh : ((l.dropWhile isWS).reverse.dropWhile isWS).head? with _ | c
  · rfl
  · rw [hh] at h4
    have h5 : isWS c = false := h4
    show (!isWS c) = true
    simp only [h5, Bool.not_false]

theorem pyStrip_id {l : List Char} (h1 : headIsWS l = false) (h2 : lastNonWS l = true) :
    pyStrip l = l := by
  rw [pyStrip, dropWhile_of_headFalse h1]
  have h3 : l.reverse.dropWhile isWS = l.reverse := by
    refine dropWhile_of_headFalse ?_
    rw [headIsWS_eq_head?, List.head?_reverse]
    rcases hl : l.getLast? with _ | c
    · rfl
    · rw [lastNonWS, hl] at h2
      have h2' : (!isWS c) = true := h2
      show isWS c = false
      cases hx : isWS c
      · rfl
      · rw [hx] at h2'
        exact absurd h2' (by decide)
  rw [h3, List.reverse_reverse]

theorem pyStrip_nil : pyStrip [] = [] := rfl

theorem pyStrip_all {p : Char → Bool} {l : List Char} (h : l.all p = true) :
    (pyStrip l).all p = true := by
  rcases pyStrip_decomp l with ⟨hdec, _, _⟩
  rw [hdec, List.all_append, List.all_append] at h
  simp only [Bool.and_eq_true] at h
  exact h.1.2

theorem pyStrip_sub {l : List Char} : ∀ c ∈ pyStrip l, c ∈ l := by
  intro c hc
  rcases pyStrip_decomp l with ⟨hdec, _, _⟩
  rw [hdec]
  exact List.mem_append.mpr (Or.inl (List.mem_append.mpr (Or.inr hc)))

theorem joinWith_cons₂ (sep p q : List Char) (rest : List (List Char)) :
    joinWith sep (p :: q :: rest) = p ++ sep ++ joinWith sep (q :: rest) := rfl

theorem joinWith_head_cons (sep : List Char) (c : Char) (h : List Char)
    (t : List (List Char)) :
    joinWith sep ((c :: h) :: t) = c :: joinWith sep (h :: t) := by
  cases t <;> rfl

theorem joinWith_ne_nil {sep : List Char} {Ps : List (List Char)}
    (h1 : ∀ p ∈ Ps, p ≠ []) (h2 : Ps ≠ []) : joinWith sep Ps ≠ [] := by
  cases Ps with
  | nil => exact absurd rfl h2
  | cons p rest =>
    cases rest with
    | nil => exact h1 p (by simp)
    | cons q rest' =>
      rw [joinWith_cons₂]
      intro hx
      rcases List.append_eq_nil.mp (List.append_eq_nil.mp hx).1 with ⟨hp, _⟩
      exact h1 p (by simp) hp

theorem headIsWS_joinWith {sep : List Char} {p : List Char} {rest : List (List Char)}
    (h : p ≠ []) : headIsWS (joinWith sep (p :: rest)) = headIsWS p := by
  cases rest with
  | nil => rfl
  | cons q rest' =>
    rw [joinWith_cons₂, List.append_assoc, headIsWS_append _ h]

theorem lastNonWS_joinWith {sep : List Char} {Ps : List (List Char)}
    (h1 : ∀ p ∈ Ps, p ≠ []) (h2 : ∀ p ∈ Ps, lastNonWS p = true) (h3 : Ps ≠ []) :
    lastNonWS (joinWith sep Ps) = true := by
  induction Ps with
  | nil => exact absurd rfl h3
  | cons p rest ih =>
    cases rest with
    | nil => exact h2 p (by simp)
    | cons q rest' =>
      rw [joinWith_cons₂, List.append_assoc]
      have hJ : joinWith sep (q :: rest') ≠ [] :=
        joinWith_ne_nil (fun x hx => h1 x (List.mem_cons_of_mem _ hx)) (List.cons_ne_nil _ _)
      rw [lastNonWS_append (show (sep ++ joinWith sep (q :: rest')) ≠ [] from
          fun hcon => hJ (List.append_eq_nil.mp hcon).2),
        lastNonWS_append hJ]
      exact ih (fun x hx => h1 x (List.mem_cons_of_mem _ hx))
        (fun x hx => h2 x (List.mem_cons_of_mem _ hx)) (List.cons_ne_nil _ _)

theorem splitOnNl_ne_nil : ∀ l : List Char, splitOnNl l ≠ [] := by
  intro l
  induction l with
  | nil => exact List.cons_ne_nil _ _
  | cons c rest ih =>
    rw [splitOnNl]
    by_cases hc : c = '\n'
    · rw [if_pos hc]
      exact List.cons_ne_nil _ _
    · rw [if_neg hc]
      rcases splitOnNl rest with _ | ⟨h, t⟩
      · exact List.cons_ne_nil _ _
      · exact List.cons_ne_nil _ _

theorem joinWith_splitOnNl : ∀ l : List Char, joinWith ['\n'] (splitOnNl l) = l := by
  intro l
  induction l with
  | nil => rfl
  | cons c rest ih =>
    rw [splitOnNl]
    by_cases hc : c = '\n'
    · rw [if_pos hc]
      subst hc
      rcases hs : splitOnNl rest with _ | ⟨h, t⟩
      · exact absurd hs (splitOnNl_ne_nil rest)
      · rw [hs] at ih
        rw [joinWith_cons₂, ih]
        rfl
    · rw [if_neg hc]
      rcases hs : splitOnNl rest with _ | ⟨h, t⟩
      · exact absurd hs (splitOnNl_ne_nil rest)
      · rw [hs] at ih
        dsimp only
        rw [joinWith_head_cons, ih]

theorem collapse_cons_nonws {c : Char} (rest : List Char) (h : isWS c = false) :
    collapseWS (c :: rest) = c :: collapseWS rest := by
  rw [collapseWS, if_neg (by rw [h]; exact Bool.false_ne_true)]

theorem collapse_ne_nil : ∀ {l : List Char}, l ≠ [] → collapseWS l ≠ [] := by
  intro l
  induction l with
  | nil => intro h; exact absurd rfl h
  | cons c rest ih =>
    intro _
    rw [collapseWS]
    by_cases hc : isWS c = true
    · rw [if_pos hc]
      by_cases hr : headIsWS rest = true
      · rw [if_pos hr]
        have hrn : rest ≠ [] := by
          intro hx
          rw [hx] at hr
          exact absurd hr (by decide)
        exact ih hrn
      · rw [if_neg hr]
        exact List.cons_ne_nil _ _
    · rw [if_neg hc]
      exact List.cons_ne_nil _ _

theorem collapse_all {p : Char → Bool} (hsp : p ' ' = true) :
    ∀ l : List Char, l.all p = true → (collapseWS l).all p = true := by
  intro l
  induction l with
  | nil => intro _; rfl
  | cons c rest ih =>
    intro h
    rw [List.all_cons, Bool.and_eq_true] at h
    rw [collapseWS]
    by_cases hc : isWS c = true
    · rw [if_pos hc]
      by_cases hr : headIsWS rest = true
      · rw [if_pos hr]
        exact ih h.2
      · rw [if_neg hr]
        rw [List.all_cons, hsp, ih h.2]
        rfl
    · rw [if_neg hc]
      rw [List.all_cons, h.1, ih h.2]
      rfl

theorem collapse_headIsWS : ∀ l : List Char, headIsWS (collapseWS l) = headIsWS l := by
  intro l
  induction l with
  | nil => rfl
  | cons c rest ih =>
    rw [collapseWS]
    by_cases hc : isWS c = true
    · rw [if_pos hc]
      by_cases hr : headIsWS rest = true
      · rw [if_pos hr, ih, hr, headIsWS, hc]
      · rw [if_neg hr, headIsWS, headIsWS, hc]
        decide
    · rw [if_neg hc]
      rw [headIsWS, headIsWS]

theorem headOk_noDub {c : Char} {x : List Char} (h : headIsWS x = false) :
    headOk (fun a b => !(isWS a && isWS b)) c x = true := by
  cases x with
  | nil => rfl
  | cons d x' =>
    rw [headIsWS] at h
    rw [headOk, h]
    simp

theorem collapse_onlySpace : ∀ l : List Char, onlySpaceWS (collapseWS l) = true := by
  intro l
  induction l with
  | nil => rfl
  | cons c rest ih =>
    rw [collapseWS]
    by_cases hc : isWS c = true
    · rw [if_pos hc]
      by_cases hr : headIsWS rest = true
      · rw [if_pos hr]
        exact ih
      · rw [if_neg hr]
        rw [onlySpaceWS, List.all_cons]
        rw [onlySpaceWS] at ih
        rw [ih]
        simp
    · rw [if_neg hc]
      rw [onlySpaceWS, List.all_cons]
      rw [onlySpaceWS] at ih
      rw [ih, eq_false_of_ne_true hc]
      simp

theorem collapse_noDub : ∀ l : List Char, noDubWS (collapseWS l) = true := by
  intro l
  induction l with
  | nil => rfl
  | cons c rest ih =>
    rw [collapseWS]
    by_cases hc : isWS c = true
    · rw [if_pos hc]
      by_cases hr : headIsWS rest = true
      · rw [if_pos hr]
        exact ih
      · rw [if_neg hr]
        rw [noDubWS, pairsOk_cons]
        have hh : headIsWS (collapseWS rest) = false := by
          rw [collapse_headIsWS]
          cases hx : headIsWS rest
          · rfl
          · exact absurd hx hr
        rw [headOk_noDub hh]
        rw [noDubWS] at ih
        rw [ih]
        rfl
    · rw [if_neg hc]
      rw [noDubWS, pairsOk_cons]
      have hh : headOk (fun a b => !(isWS a && isWS b)) c (collapseWS rest) = true := by
        cases hz : collapseWS rest with
        | nil => rfl
        | cons d x' =>
          rw [headOk, eq_false_of_ne_true hc]
          simp
      rw [hh]
      rw [noDubWS] at ih
      rw [ih]
      rfl

theorem collapse_lastNonWS : ∀ l : List Char, lastNonWS l = true → lastNonWS (collapseWS l) = true := by
  intro l
  induction l with
  | nil => intro _; rfl
  | cons c rest ih =>
    intro h
    rcases hr : rest with _ | ⟨d, rest'⟩
    · subst hr
      rw [lastNonWS_singleton] at h
      have hc : isWS c = false := by
        cases hx : isWS c
        · rfl
        · rw [hx] at h
          exact absurd h (by decide)
      rw [collapse_cons_nonws _ hc]
      show lastNonWS [c] = true
      rw [lastNonWS_singleton, hc]
      rfl
    · subst hr
      have hrn : (d :: rest') ≠ [] := List.cons_ne_nil _ _
      rw [lastNonWS_cons hrn] at h
      have ihr := ih h
      have hcr : collapseWS (d :: rest') ≠ [] := collapse_ne_nil hrn
      rw [collapseWS]
      by_cases hc : isWS c = true
      · rw [if_pos hc]
        by_cases hr2 : headIsWS (d :: rest') = true
        · rw [if_pos hr2]
          exact ihr
        · rw [if_neg hr2]
          rw [lastNonWS_cons hcr]
          exact ihr
      · rw [if_neg hc]
        rw [lastNonWS_cons hcr]
        exact ihr

theorem collapse_id : ∀ l : List Char, onlySpaceWS l = true → noDubWS l = true →
    collapseWS l = l := by
  intro l
  induction l with
  | nil => intro _ _; rfl
  | cons c rest ih =>
    intro h1 h2
    rw [onlySpaceWS, List.all_cons, Bool.and_eq_true] at h1
    have h2' := pairsOk_tail h2
    rw [collapseWS]
    by_cases hc : isWS c = true
    · rw [if_pos hc]
      have hcsp : c = ' ' := by
        rcases Bool.or_eq_true_iff.mp h1.1 with hx | hx
        · rw [hc] at hx
          exact absurd hx (by decide)
        · exact decide_eq_true_eq.mp hx
      have hr : headIsWS rest = false := by
        cases hrr : rest with
        | nil => rfl
        | cons d rest' =>
          have := pairsOk_head h2
          rw [hrr, headOk, hc] at this
          cases hd : isWS d
          · exact hd
          · rw [hd] at this
            exact absurd this (by decide)
      rw [if_neg (by rw [hr]; exact Bool.false_ne_true), hcsp,
        ih (by rw [onlySpaceWS]; exact h1.2) h2']
    · rw [if_neg hc, ih (by rw [onlySpaceWS]; exact h1.2) h2']

theorem collapse_append_para :
    ∀ (p m : List Char), p ≠ [] → onlySpaceWS p = true → noDubWS p = true →
      lastNonWS p = true → headIsWS m = false →
      collapseWS (p ++ '\n' :: m) = p ++ ' ' :: collapseWS m := by
  intro p
  induction p with
  | nil => intro m h; exact absurd rfl h
  | cons x p' ih =>
    intro m _ h1 h2 h3 hm
    rw [onlySpaceWS, List.all_cons, Bool.and_eq_true] at h1
    rcases hp' : p' with _ | ⟨y, p''⟩
    · subst hp'
      rw [lastNonWS_singleton] at h3
      have hx : isWS x = false := by
        cases hz : isWS x
        · rfl
        · rw [hz] at h3
          exact absurd h3 (by decide)
      rw [List.cons_append, List.nil_append, collapse_cons_nonws _ hx, collapseWS,
        if_pos (by decide), if_neg (by rw [hm]; exact Bool.false_ne_true)]
      rfl
    · subst hp'
      rw [List.cons_append, collapseWS]
      by_cases hx : isWS x = true
      · rw [if_pos hx]
        have hy : isWS y = false := by
          have := pairsOk_head h2
          rw [headOk, hx] at this
          cases hz : isWS y
          · rfl
          · rw [hz] at this
            exact absurd this (by decide)
        have hhead : headIsWS ((y :: p'') ++ '\n' :: m) = false := by
          rw [headIsWS_append _ (List.cons_ne_nil _ _), headIsWS, hy]
        rw [if_neg (by rw [hhead]; exact Bool.false_ne_true)]
        have hxsp : x = ' ' := by
          rcases Bool.or_eq_true_iff.mp h1.1 with hz | hz
          · rw [hx] at hz
            exact absurd hz (by decide)
          · exact decide_eq_true_eq.mp hz
        rw [ih m (List.cons_ne_nil _ _) (by rw [onlySpaceWS]; exact h1.2) (pairsOk_tail h2)
          (by rw [← lastNonWS_cons (List.cons_ne_nil y p'')]; exact h3) hm, hxsp]
        rfl
      · have hx' : isWS x = false := by
          cases hz : isWS x
          · rfl
          · exact absurd hz hx
        rw [if_neg hx]
        rw [ih m (List.cons_ne_nil _ _) (by rw [onlySpaceWS]; exact h1.2) (pairsOk_tail h2)
          (by rw [← lastNonWS_cons (List.cons_ne_nil y p'')]; exact h3) hm]
        rfl

theorem collapse_joinNl :
    ∀ Ps : List (List Char), Ps ≠ [] →
      (∀ p ∈ Ps, p ≠ [] ∧ onlySpaceWS p = true ∧ noDubWS p = true ∧
        headIsWS p = false ∧ lastNonWS p = true) →
      collapseWS (joinWith ['\n'] Ps) = joinWith [' '] Ps := by
  intro Ps
  induction Ps with
  | nil => intro h; exact absurd rfl h
  | cons p rest ih =>
    intro _ hall
    rcases hr : rest with _ | ⟨q, rest'⟩
    · subst hr
      rcases hall p (by simp) with ⟨_, hos, hnd, _, _⟩
      exact collapse_id p hos hnd
    · subst hr
      rcases hall p (by simp) with ⟨hpne, hos, hnd, _, hlast⟩
      rw [joinWith_cons₂, List.append_assoc, List.singleton_append]
      have hm : headIsWS (joinWith ['\n'] (q :: rest')) = false := by
        rw [headIsWS_joinWith (hall q (by simp)).1]
        exact (hall q (by simp)).2.2.2.1
      rw [collapse_append_para p _ hpne hos hnd hlast hm]
      rw [ih (List.cons_ne_nil _ _) (fun x hx => hall x (List.mem_cons_of_mem _ hx))]
      rw [joinWith_cons₂ [' '] p q rest', List.append_assoc]
      rfl

theorem pairsOk_of_mem {α : Type} {f : α → α → Bool} :
    ∀ {l : List α}, (∀ a ∈ l, ∀ b ∈ l, f a b = true) → pairsOk f l = true := by
  intro l
  induction l with
  | nil => intro _; rfl
  | cons a l' ih =>
    intro h
    rw [pairsOk_cons, Bool.and_eq_true]
    refine ⟨?_, ih (fun x hx y hy => h x (List.mem_cons_of_mem _ hx) y (List.mem_cons_of_mem _ hy))⟩
    cases l' with
    | nil => rfl
    | cons b l'' =>
      rw [headOk]
      exact h a (by simp) b (by simp)

theorem headOk_of_fst {α : Type} {f : α → α → Bool} {c : α}
    (h : ∀ b, f c b = true) : ∀ x : List α, headOk f c x = true := by
  intro x
  cases x with
  | nil => rfl
  | cons d x' => exact h d

theorem lastOk_of_head {α : Type} {f : α → α → Bool} {c : α} {ys : List α}
    (h : ∀ a, f a c = true) : ∀ xs : List α, lastOk f xs (c :: ys) = true := by
  intro xs
  rw [lastOk]
  rcases xs.getLast? with _ | x
  · rfl
  · exact h x

theorem all_ws_noWSP {x : List Char} (h : x.all isWS = true) : noWSP x = true := by
  refine pairsOk_of_mem (fun a _ b hb => ?_)
  rw [ws_not_punct (List.all_eq_true.mp h b hb)]
  simp

theorem fixPunctA_cons_nonws {c : Char} (rest : List Char) (h : isWS c = false) :
    fixPunctA [] (c :: rest) = c :: fixPunctA [] rest := by
  rw [fixPunctA, if_neg (by rw [h]; exact Bool.false_ne_true), if_neg (by simp)]
  rfl

theorem fixPunctA_all {p : Char → Bool} :
    ∀ (l pend : List Char), l.all p = true → pend.all p = true →
      (fixPunctA pend l).all p = true := by
  intro l
  induction l with
  | nil =>
    intro pend _ hp
    rw [fixPunctA, List.all_reverse]
    exact hp
  | cons c rest ih =>
    intro pend h hp
    rw [List.all_cons, Bool.and_eq_true] at h
    rw [fixPunctA]
    by_cases hc : isWS c = true
    · rw [if_pos hc]
      exact ih _ h.2 (by rw [List.all_cons, h.1, hp]; rfl)
    · rw [if_neg hc]
      by_cases hpc : (isPunct c && !pend.isEmpty) = true
      · rw [if_pos hpc, List.all_cons, h.1, ih [] h.2 rfl]
        rfl
      · rw [if_neg hpc, List.all_append, List.all_reverse, hp, List.all_cons, h.1,
          ih [] h.2 rfl]
        rfl

theorem fixPunctA_noWSP :
    ∀ (l pend : List Char), pend.all isWS = true → noWSP (fixPunctA pend l) = true := by
  intro l
  induction l with
  | nil =>
    intro pend hp
    rw [fixPunctA]
    exact all_ws_noWSP (by rw [List.all_reverse]; exact hp)
  | cons c rest ih =>
    intro pend hp
    rw [fixPunctA]
    by_cases hc : isWS c = true
    · rw [if_pos hc]
      exact ih _ (by rw [List.all_cons, hc, hp]; rfl)
    · have hc' : isWS c = false := eq_false_of_ne_true hc
      rw [if_neg hc]
      by_cases hpc : (isPunct c && !pend.isEmpty) = true
      · rw [if_pos hpc]
        rw [noWSP, pairsOk_cons, Bool.and_eq_true]
        refine ⟨headOk_of_fst (fun b => by rw [hc']; rfl) _, ih [] rfl⟩
      · rw [if_neg hpc]
        refine pairsOk_append_of _ (all_ws_noWSP (by rw [List.all_reverse]; exact hp)) ?_ ?_
        · rw [pairsOk_cons, Bool.and_eq_true]
          exact ⟨headOk_of_fst (fun b => by rw [hc']; rfl) _, ih [] rfl⟩
        · rcases hpend : pend with _ | ⟨w, pend'⟩
          · rfl
          · refine lastOk_of_head (fun a => ?_) _
            have hpunct : isPunct c = false := by
              rcases hx : isPunct c
              · rfl
              · exfalso
                refine hpc ?_
                rw [hx, hpend]
                rfl
            rw [hpunct]
            simp

theorem fixPunctA_ne_nil :
    ∀ (l pend : List Char), pend ≠ [] ∨ l ≠ [] → fixPunctA pend l ≠ [] := by
  intro l
  induction l with
  | nil =>
    intro pend h
    rcases h with h | h
    · rw [fixPunctA]
      intro hx
      exact h (by
        have := congrArg List.reverse hx
        rw [List.reverse_reverse] at this
        exact this)
    · exact absurd rfl h
  | cons c rest ih =>
    intro pend _
    rw [fixPunctA]
    by_cases hc : isWS c = true
    · rw [if_pos hc]
      exact ih _ (Or.inl (List.cons_ne_nil _ _))
    · rw [if_neg hc]
      by_cases hpc : (isPunct c && !pend.isEmpty) = true
      · rw [if_pos hpc]
        exact List.cons_ne_nil _ _
      · rw [if_neg hpc]
        intro hx
        rcases List.append_eq_nil.mp hx with ⟨_, h2⟩
        exact List.cons_ne_nil _ _ h2

theorem fixPunctA_noDub :
    ∀ (l pend : List Char), noDubWS (pend.reverse ++ l) = true →
      noDubWS (fixPunctA pend l) = true := by
  intro l
  induction l with
  | nil =>
    intro pend h
    rw [fixPunctA]
    rw [List.append_nil] at h
    exact h
  | cons c rest ih =>
    intro pend h
    rw [fixPunctA]
    by_cases hc : isWS c = true
    · rw [if_pos hc]
      refine ih (c :: pend) ?_
      rw [List.reverse_cons, List.append_assoc]
      exact h
    · have hc' : isWS c = false := eq_false_of_ne_true hc
      have hrest : noDubWS rest = true :=
        pairsOk_tail (pairsOk_append_right h)
      by_cases hpc : (isPunct c && !pend.isEmpty) = true
      · rw [if_neg hc, if_pos hpc, noDubWS, pairsOk_cons, Bool.and_eq_true]
        exact ⟨headOk_of_fst (fun b => by rw [hc']; rfl) _, ih [] hrest⟩
      · rw [if_neg hc, if_neg hpc]
        refine pairsOk_append_of _ (pairsOk_append_left _ h) ?_ ?_
        · rw [pairsOk_cons, Bool.and_eq_true]
          exact ⟨headOk_of_fst (fun b => by rw [hc']; rfl) _, ih [] hrest⟩
        · refine lastOk_of_head (fun a => ?_) _
          rw [hc']
          simp

theorem fixPunctA_lastNonWS :
    ∀ (l pend : List Char), l ≠ [] → lastNonWS l = true →
      lastNonWS (fixPunctA pend l) = true := by
  intro l
  induction l with
  | nil => intro pend h; exact absurd rfl h
  | cons c rest ih =>
    intro pend _ hl
    rcases hrr : rest with _ | ⟨d, rest'⟩
    · subst hrr
      rw [lastNonWS_singleton] at hl
      have hc : isWS c = false := by
        cases hx : isWS c
        · rfl
        · rw [hx] at hl
          exact absurd hl (by decide)
      rw [fixPunctA, if_neg (by rw [hc]; exact Bool.false_ne_true)]
      by_cases hpc : (isPunct c && !pend.isEmpty) = true
      · rw [if_pos hpc]
        show lastNonWS [c] = true
        rw [lastNonWS_singleton, hc]
        rfl
      · rw [if_neg hpc]
        show lastNonWS (pend.reverse ++ [c]) = true
        rw [lastNonWS_concat, hc]
        rfl
    · subst hrr
      have hrn : (d :: rest') ≠ [] := List.cons_ne_nil _ _
      have hl' : lastNonWS (d :: rest') = true := by
        rw [← lastNonWS_cons hrn]
        exact hl
      rw [fixPunctA]
      by_cases hc : isWS c = true
      · rw [if_pos hc]
        exact ih _ hrn hl'
      · rw [if_neg hc]
        have hout : fixPunctA [] (d :: rest') ≠ [] :=
          fixPunctA_ne_nil _ [] (Or.inr hrn)
        by_cases hpc : (isPunct c && !pend.isEmpty) = true
        · rw [if_pos hpc, lastNonWS_cons hout]
          exact ih [] hrn hl'
        · rw [if_neg hpc,
            lastNonWS_append (show (c :: fixPunctA [] (d :: rest')) ≠ [] from
              List.cons_ne_nil _ _),
            lastNonWS_cons hout]
          exact ih [] hrn hl'

theorem fixPunctA_id :
    ∀ (l pend : List Char), noWSP l = true → (pend ≠ [] → headIsPunct l = false) →
      fixPunctA pend l = pend.reverse ++ l := by
  intro l
  induction l with
  | nil =>
    intro pend _ _
    rw [fixPunctA, List.append_nil]
  | cons c rest ih =>
    intro pend h hp
    rw [fixPunctA]
    by_cases hc : isWS c = true
    · rw [if_pos hc]
      have hrest : pend ≠ [] → headIsPunct rest = false → True := fun _ _ => trivial
      have hhead : headIsPunct rest = false := by
        have := pairsOk_head h
        cases hrr : rest with
        | nil => rfl
        | cons d rest' =>
          rw [hrr, headOk, hc] at this
          show isPunct d = false
          cases hx : isPunct d
          · rfl
          · rw [hx] at this
            exact absurd this (by decide)
      rw [ih (c :: pend) (pairsOk_tail h) (fun _ => hhead)]
      rw [List.reverse_cons, List.append_assoc]
      rfl
    · rw [if_neg hc]
      by_cases hpc : (isPunct c && !pend.isEmpty) = true
      · exfalso
        rw [Bool.and_eq_true] at hpc
        rcases hpend : pend with _ | ⟨w, pend'⟩
        · rw [hpend] at hpc
          exact absurd hpc.2 (by decide)
        · have := hp (by rw [hpend]; exact List.cons_ne_nil _ _)
          rw [headIsPunct] at this
          rw [this] at hpc
          exact absurd hpc.1 (by decide)
      · rw [if_neg hpc, ih [] (pairsOk_tail h) (fun hx => absurd rfl hx)]
        rfl

theorem pairsOk_junction {α : Type} {f : α → α → Bool} :
    ∀ (w : List α) (c : α) (m : List α), w ≠ [] → pairsOk f (w ++ c :: m) = true →
      ∃ x, w.getLast? = some x ∧ f x c = true := by
  intro w
  induction w with
  | nil => intro c m h; exact absurd rfl h
  | cons a w' ih =>
    intro c m _ hp
    rcases hw : w' with _ | ⟨b, w''⟩
    · subst hw
      refine ⟨a, rfl, ?_⟩
      exact pairsOk_head hp
    · subst hw
      rcases ih c m (List.cons_ne_nil _ _) (pairsOk_tail hp) with ⟨x, hx1, hx2⟩
      exact ⟨x, by rw [List.getLast?_cons_cons]; exact hx1, hx2⟩

theorem fixSentA_none_nonterm {c : Char} (rest : List Char) (h : isTerm c = false) :
    fixSentA none (c :: rest) = c :: fixSentA none rest := by
  rw [fixSentA, if_neg (by rw [h]; exact Bool.false_ne_true)]

theorem fixSentA_head :
    ∀ (l : List Char) (t : Char) (pend : List Char),
      ∃ X, fixSentA (some (t, pend)) l = t :: X := by
  intro l
  induction l with
  | nil => intro t pend; exact ⟨pend.reverse, rfl⟩
  | cons c rest ih =>
    intro t pend
    rw [fixSentA]
    by_cases h1 : isWS c = true
    · rw [if_pos h1]
      exact ih t (c :: pend)
    · rw [if_neg h1]
      by_cases h2 : isUpperC c = true
      · rw [if_pos h2]
        exact ⟨_, rfl⟩
      · rw [if_neg h2]
        by_cases h3 : isTerm c = true
        · rw [if_pos h3]
          exact ⟨_, rfl⟩
        · rw [if_neg h3]
          exact ⟨_, rfl⟩

theorem fixSentA_none_head? :
    ∀ l : List Char, (fixSentA none l).head? = l.head? := by
  intro l
  cases l with
  | nil => rfl
  | cons c rest =>
    by_cases h : isTerm c = true
    · rw [fixSentA, if_pos h]
      rcases fixSentA_head rest c [] with ⟨X, hX⟩
      rw [hX]
      rfl
    · rw [fixSentA_none_nonterm _ (eq_false_of_ne_true h)]
      rfl

theorem fixSentA_ne_nil : ∀ {l : List Char}, l ≠ [] → fixSentA none l ≠ [] := by
  intro l hl
  intro hx
  have := fixSentA_none_head? l
  rw [hx] at this
  cases l with
  | nil => exact hl rfl
  | cons c rest =>
    rw [List.head?_cons] at this
    exact Option.noConfusion this

theorem fixSentA_all {p : Char → Bool} (hsp : p ' ' = true) :
    ∀ l : List Char, (l.all p = true → (fixSentA none l).all p = true) ∧
      (∀ t pend, p t = true → pend.all p = true → l.all p = true →
        (fixSentA (some (t, pend)) l).all p = true) := by
  intro l
  induction l with
  | nil =>
    refine ⟨fun _ => rfl, fun t pend ht hp _ => ?_⟩
    rw [fixSentA, List.all_cons, ht, List.all_reverse, hp]
    rfl
  | cons c rest ih =>
    have hA := ih.1
    have hB := ih.2
    constructor
    · intro h
      rw [List.all_cons, Bool.and_eq_true] at h
      by_cases h3 : isTerm c = true
      · rw [fixSentA, if_pos h3]
        exact hB c [] h.1 rfl h.2
      · rw [fixSentA_none_nonterm _ (eq_false_of_ne_true h3), List.all_cons, h.1,
          hA h.2]
        rfl
    · intro t pend ht hp h
      rw [List.all_cons, Bool.and_eq_true] at h
      rw [fixSentA]
      by_cases h1 : isWS c = true
      · rw [if_pos h1]
        exact hB t (c :: pend) ht (by rw [List.all_cons, h.1, hp]; rfl) h.2
      · rw [if_neg h1]
        by_cases h2 : isUpperC c = true
        · rw [if_pos h2]
          rw [List.all_cons, List.all_cons, List.all_cons, ht, hsp, h.1, hA h.2]
          rfl
        · rw [if_neg h2]
          by_cases h3 : isTerm c = true
          · rw [if_pos h3, List.all_append, List.all_cons, ht, List.all_reverse, hp,
              hB c [] h.1 rfl h.2]
            rfl
          · rw [if_neg h3, List.all_append, List.all_cons, ht, List.all_reverse, hp,
              List.all_cons, h.1, hA h.2]
            rfl

theorem mem_of_getLast?_eq {α : Type} {l : List α} {x : α}
    (h : l.getLast? = some x) : x ∈ l := by
  have hx : x ∈ l.getLast? := by rw [h]; rfl
  rcases List.mem_getLast?_eq_getLast hx with ⟨hne, heq⟩
  rw [heq]
  exact List.getLast_mem hne

theorem noWSP_state_chunk {t : Char} {pend : List Char} (ht : isTerm t = true)
    (hp : pend.all isWS = true) : noWSP (t :: pend.reverse) = true := by
  rw [noWSP, pairsOk_cons, Bool.and_eq_true]
  refine ⟨headOk_of_fst (fun b => by rw [term_not_ws ht]; rfl) _,
    all_ws_noWSP (by rw [List.all_reverse]; exact hp)⟩

theorem fixSentA_noWSP :
    ∀ l : List Char,
      (noWSP l = true → noWSP (fixSentA none l) = true) ∧
      (∀ t pend, isTerm t = true → pend.all isWS = true →
        noWSP (pend.reverse ++ l) = true →
        noWSP (fixSentA (some (t, pend)) l) = true) := by
  intro l
  induction l with
  | nil =>
    refine ⟨fun _ => rfl, fun t pend ht hp _ => ?_⟩
    rw [fixSentA]
    exact noWSP_state_chunk ht hp
  | cons c rest ih =>
    have hA := ih.1
    have hB := ih.2
    constructor
    · intro h
      by_cases h3 : isTerm c = true
      · rw [fixSentA, if_pos h3]
        refine hB c [] h3 rfl ?_
        exact pairsOk_tail h
      · rw [fixSentA_none_nonterm _ (eq_false_of_ne_true h3)]
        rw [noWSP, pairsOk_cons, Bool.and_eq_true]
        refine ⟨?_, hA (pairsOk_tail h)⟩
        by_cases hc : isWS c = true
        · rcases hout : fixSentA none rest with _ | ⟨d, X⟩
          · rfl
          · rw [headOk]
            have hd : (fixSentA none rest).head? = rest.head? := fixSentA_none_head? rest
            rw [hout] at hd
            rcases hrr : rest with _ | ⟨e, rest'⟩
            · rw [hrr] at hd
              exact Option.noConfusion hd
            · rw [hrr, List.head?_cons, List.head?_cons] at hd
              have hde : d = e := Option.some.inj hd
              subst hde
              have := pairsOk_head h
              rw [hrr, headOk] at this
              exact this
        · exact headOk_of_fst (fun b => by rw [eq_false_of_ne_true hc]; rfl) _
    · intro t pend ht hp h
      rw [fixSentA]
      by_cases h1 : isWS c = true
      · rw [if_pos h1]
        refine hB t (c :: pend) ht (by rw [List.all_cons, h1, hp]; rfl) ?_
        rw [List.reverse_cons, List.append_assoc]
        exact h
      · rw [if_neg h1]
        have hrest : noWSP rest = true := pairsOk_tail (pairsOk_append_right h)
        by_cases h2 : isUpperC c = true
        · rw [if_pos h2]
          rw [noWSP, pairsOk_cons, Bool.and_eq_true]
          refine ⟨headOk_of_fst (fun b => by rw [term_not_ws ht]; rfl) _, ?_⟩
          rw [pairsOk_cons, Bool.and_eq_true]
          refine ⟨?_, ?_⟩
          · rcases hl2 : (c :: fixSentA none rest) with _ | ⟨x, X⟩
            · rfl
            · have hx : x = c := by
                have := congrArg List.head? hl2
                rw [List.head?_cons, List.head?_cons] at this
                exact (Option.some.inj this).symm
              subst hx
              rw [headOk, upper_not_punct h2]
              simp
          · rw [pairsOk_cons, Bool.and_eq_true]
            exact ⟨headOk_of_fst (fun b => by rw [upper_not_ws h2]; rfl) _,
              hA hrest⟩
        · rw [if_neg h2]
          have hchunk := noWSP_state_chunk ht hp
          have hjunction : ∀ m : List Char, headIsPunct (c :: m) = false ∨ pend = [] := by
            intro m
            rcases hpend : pend with _ | ⟨w, pend'⟩
            · exact Or.inr rfl
            · left
              rw [headIsPunct]
              rcases pairsOk_junction pend.reverse c rest
                  (by rw [hpend]; simp) h with ⟨x, hx1, hx2⟩
              have hxw : isWS x = true := by
                refine List.all_eq_true.mp hp x ?_
                have := mem_of_getLast?_eq hx1
                rw [List.mem_reverse] at this
                exact this
              rw [hxw] at hx2
              cases hpc : isPunct c
              · rfl
              · rw [hpc] at hx2
                exact absurd hx2 (by decide)
          by_cases h3 : isTerm c = true
          · rw [if_pos h3]
            have hpendnil : pend = [] := by
              rcases hjunction [] with hx | hx
              · rw [headIsPunct, term_punct h3] at hx
                exact absurd hx (by decide)
              · exact hx
            subst hpendnil
            refine pairsOk_append_of _ (noWSP_state_chunk ht rfl) ?_ ?_
            · exact hB c [] h3 rfl hrest
            · rcases fixSentA_head rest c [] with ⟨X, hX⟩
              rw [hX]
              show lastOk (fun a b => !(isWS a && isPunct b)) [t] (c :: X) = true
              show (!(isWS t && isPunct c)) = true
              rw [term_not_ws ht]
              rfl
          · rw [if_neg h3]
            refine pairsOk_append_of _ hchunk ?_ ?_
            · rw [pairsOk_cons, Bool.and_eq_true]
              refine ⟨headOk_of_fst (fun b => by rw [eq_false_of_ne_true h1]; rfl) _,
                hA hrest⟩
            · rcases hjunction [] with hx | hx
              · have hpc : isPunct c = false := hx
                exact lastOk_of_head (fun a => by rw [hpc]; simp) _
              · subst hx
                show lastOk (fun a b => !(isWS a && isPunct b)) [t]
                  (c :: fixSentA none rest) = true
                show (!(isWS t && isPunct c)) = true
                rw [term_not_ws ht]
                rfl

theorem term_not_upperC {c : Char} (h : isTerm c = true) : isUpperC c = false := by
  rcases term_cases h with h | h | h <;> subst h <;> decide

theorem noDub_state_chunk {t : Char} {pend : List Char} (ht : isWS t = false)
    (hp : noDubWS pend.reverse = true) : noDubWS (t :: pend.reverse) = true := by
  rw [noDubWS, pairsOk_cons, Bool.and_eq_true]
  exact ⟨headOk_of_fst (fun b => by rw [ht]; rfl) _, hp⟩

theorem noTermUpper_state_chunk {t : Char} {pend : List Char}
    (hp : pend.all isWS = true) : noTermUpper (t :: pend.reverse) = true := by
  rw [noTermUpper, pairsOk_cons, Bool.and_eq_true]
  constructor
  · rcases hpr : pend.reverse with _ | ⟨w, X⟩
    · rfl
    · rw [headOk]
      have hw : isWS w = true := by
        refine List.all_eq_true.mp hp w ?_
        rw [← List.mem_reverse, hpr]
        simp
      rw [ws_not_upper hw]
      simp
  · refine pairsOk_of_mem (fun a _ b hb => ?_)
    have hb' : isWS b = true := by
      refine List.all_eq_true.mp hp b ?_
      rw [← List.mem_reverse]
      exact hb
    rw [ws_not_upper hb']
    simp

theorem fixSentA_noDub :
    ∀ l : List Char,
      (noDubWS l = true → noDubWS (fixSentA none l) = true) ∧
      (∀ t pend, isTerm t = true → pend.all isWS = true →
        noDubWS (pend.reverse ++ l) = true →
        noDubWS (fixSentA (some (t, pend)) l) = true) := by
  intro l
  induction l with
  | nil =>
    refine ⟨fun _ => rfl, fun t pend ht hp h => ?_⟩
    rw [fixSentA]
    rw [List.append_nil] at h
    exact noDub_state_chunk (term_not_ws ht) h
  | cons c rest ih =>
    have hA := ih.1
    have hB := ih.2
    constructor
    · intro h
      by_cases h3 : isTerm c = true
      · rw [fixSentA, if_pos h3]
        exact hB c [] h3 rfl (pairsOk_tail h)
      · rw [fixSentA_none_nonterm _ (eq_false_of_ne_true h3)]
        rw [noDubWS, pairsOk_cons, Bool.and_eq_true]
        refine ⟨?_, hA (pairsOk_tail h)⟩
        by_cases hc : isWS c = true
        · rcases hout : fixSentA none rest with _ | ⟨d, X⟩
          · rfl
          · rw [headOk]
            have hd : (fixSentA none rest).head? = rest.head? := fixSentA_none_head? rest
            rw [hout] at hd
            rcases hrr : rest with _ | ⟨e, rest'⟩
            · rw [hrr] at hd
              exact Option.noConfusion hd
            · rw [hrr, List.head?_cons, List.head?_cons] at hd
              have hde : d = e := Option.some.inj hd
              subst hde
              have := pairsOk_head h
              rw [hrr, headOk] at this
              exact this
        · exact headOk_of_fst (fun b => by rw [eq_false_of_ne_true hc]; rfl) _
    · intro t pend ht hp h
      rw [fixSentA]
      by_cases h1 : isWS c = true
      · rw [if_pos h1]
        refine hB t (c :: pend) ht (by rw [List.all_cons, h1, hp]; rfl) ?_
        rw [List.reverse_cons, List.append_assoc]
        exact h
      · rw [if_neg h1]
        have hc' : isWS c = false := eq_false_of_ne_true h1
        have hrest : noDubWS rest = true := pairsOk_tail (pairsOk_append_right h)
        have hleft : noDubWS (t :: pend.reverse) = true :=
          noDub_state_chunk (term_not_ws ht) (pairsOk_append_left _ h)
        by_cases h2 : isUpperC c = true
        · rw [if_pos h2]
          rw [noDubWS, pairsOk_cons, Bool.and_eq_true]
          refine ⟨headOk_of_fst (fun b => by rw [term_not_ws ht]; rfl) _, ?_⟩
          rw [pairsOk_cons, Bool.and_eq_true]
          refine ⟨?_, ?_⟩
          · rcases hl2 : (c :: fixSentA none rest) with _ | ⟨x, X⟩
            · rfl
            · have hx : x = c := by
                have := congrArg List.head? hl2
                rw [List.head?_cons, List.head?_cons] at this
                exact (Option.some.inj this).symm
              subst hx
              rw [headOk, upper_not_ws h2]
              simp
          · rw [pairsOk_cons, Bool.and_eq_true]
            exact ⟨headOk_of_fst (fun b => by rw [hc']; rfl) _, hA hrest⟩
        · rw [if_neg h2]
          by_cases h3 : isTerm c = true
          · rw [if_pos h3]
            refine pairsOk_append_of _ hleft (hB c [] h3 rfl hrest) ?_
            rcases fixSentA_head rest c [] with ⟨X, hX⟩
            rw [hX]
            exact lastOk_of_head (fun a => by rw [term_not_ws h3]; simp) _
          · rw [if_neg h3]
            refine pairsOk_append_of _ hleft ?_ ?_
            · rw [pairsOk_cons, Bool.and_eq_true]
              exact ⟨headOk_of_fst (fun b => by rw [hc']; rfl) _, hA hrest⟩
            · exact lastOk_of_head (fun a => by rw [hc']; simp) _

theorem fixSentA_noTermUpper :
    ∀ l : List Char,
      (noTermUpper (fixSentA none l) = true) ∧
      (∀ t pend, isTerm t = true → pend.all isWS = true →
        noTermUpper (fixSentA (some (t, pend)) l) = true) := by
  intro l
  induction l with
  | nil =>
    refine ⟨rfl, fun t pend _ hp => ?_⟩
    rw [fixSentA]
    exact noTermUpper_state_chunk hp
  | cons c rest ih =>
    have hA := ih.1
    have hB := ih.2
    constructor
    · by_cases h3 : isTerm c = true
      · rw [fixSentA, if_pos h3]
        exact hB c [] h3 rfl
      · rw [fixSentA_none_nonterm _ (eq_false_of_ne_true h3)]
        rw [noTermUpper, pairsOk_cons, Bool.and_eq_true]
        exact ⟨headOk_of_fst (fun b => by rw [eq_false_of_ne_true h3]; rfl) _, hA⟩
    · intro t pend ht hp
      rw [fixSentA]
      by_cases h1 : isWS c = true
      · rw [if_pos h1]
        exact hB t (c :: pend) ht (by rw [List.all_cons, h1, hp]; rfl)
      · rw [if_neg h1]
        have hchunk := noTermUpper_state_chunk (t := t) hp
        by_cases h2 : isUpperC c = true
        · rw [if_pos h2]
          rw [noTermUpper, pairsOk_cons, Bool.and_eq_true]
          refine ⟨?_, ?_⟩
          · show (!(isTerm t && isUpperC ' ')) = true
            have hs : isUpperC ' ' = false := by decide
            rw [hs]
            simp
          · rw [pairsOk_cons, Bool.and_eq_true]
            refine ⟨?_, ?_⟩
            · show (!(isTerm ' ' && isUpperC c)) = true
              have hs : isTerm ' ' = false := by decide
              rw [hs]
              rfl
            · rw [pairsOk_cons, Bool.and_eq_true]
              exact ⟨headOk_of_fst (fun b => by rw [upper_not_term h2]; rfl) _, hA⟩
        · rw [if_neg h2]
          by_cases h3 : isTerm c = true
          · rw [if_pos h3]
            refine pairsOk_append_of _ hchunk (hB c [] h3 rfl) ?_
            rcases fixSentA_head rest c [] with ⟨X, hX⟩
            rw [hX]
            exact lastOk_of_head (fun a => by rw [term_not_upperC h3]; simp) _
          · rw [if_neg h3]
            refine pairsOk_append_of _ hchunk ?_ ?_
            · rw [pairsOk_cons, Bool.and_eq_true]
              exact ⟨headOk_of_fst (fun b => by rw [eq_false_of_ne_true h3]; rfl) _, hA⟩
            · exact lastOk_of_head (fun a => by rw [eq_false_of_ne_true h2]; simp) _

theorem fixSentA_some_ne_nil (l : List Char) (t : Char) (pend : List Char) :
    fixSentA (some (t, pend)) l ≠ [] := by
  rcases fixSentA_head l t pend with ⟨X, hX⟩
  rw [hX]
  exact List.cons_ne_nil _ _

theorem fixSentA_lastNonWS :
    ∀ l : List Char,
      (l ≠ [] → lastNonWS l = true → lastNonWS (fixSentA none l) = true) ∧
      (∀ t pend, pend.all isWS = true →
        lastNonWS (t :: pend.reverse ++ l) = true →
        lastNonWS (fixSentA (some (t, pend)) l) = true) := by
  intro l
  induction l with
  | nil =>
    refine ⟨fun h _ => absurd rfl h, fun t pend _ h => ?_⟩
    rw [fixSentA]
    rw [List.append_nil] at h
    exact h
  | cons c rest ih =>
    have hA := ih.1
    have hB := ih.2
    constructor
    · intro _ hl
      by_cases h3 : isTerm c = true
      · rw [fixSentA, if_pos h3]
        refine hB c [] rfl ?_
        show lastNonWS (c :: rest) = true
        exact hl
      · rw [fixSentA_none_nonterm _ (eq_false_of_ne_true h3)]
        rcases hrr : rest with _ | ⟨d, rest'⟩
        · subst hrr
          exact hl
        · subst hrr
          rw [lastNonWS_cons (fixSentA_ne_nil (List.cons_ne_nil _ _))]
          refine hA (List.cons_ne_nil _ _) ?_
          rw [← lastNonWS_cons (l := d :: rest') (List.cons_ne_nil _ _)]
          exact hl
    · intro t pend hp h
      have hcr : lastNonWS (c :: rest) = true := by
        rw [lastNonWS_append (List.cons_ne_nil c rest)] at h
        exact h
      rw [fixSentA]
      by_cases h1 : isWS c = true
      · rw [if_pos h1]
        refine hB t (c :: pend) (by rw [List.all_cons, h1, hp]; rfl) ?_
        rw [List.reverse_cons, List.cons_append, List.append_assoc, List.singleton_append]
        exact h
      · rw [if_neg h1]
        have hc' : isWS c = false := eq_false_of_ne_true h1
        have hrestlast : rest ≠ [] → lastNonWS rest = true := by
          intro hre
          rw [lastNonWS_cons hre] at hcr
          exact hcr
        by_cases h2 : isUpperC c = true
        · rw [if_pos h2]
          rcases hrr : rest with _ | ⟨d, rest'⟩
          · subst hrr
            show lastNonWS (t :: ' ' :: [c]) = true
            rw [lastNonWS_cons (List.cons_ne_nil _ _), lastNonWS_cons (List.cons_ne_nil _ _),
              lastNonWS_singleton, hc']
            rfl
          · subst hrr
            have hne : fixSentA none (d :: rest') ≠ [] :=
              fixSentA_ne_nil (List.cons_ne_nil _ _)
            rw [lastNonWS_cons (List.cons_ne_nil _ _), lastNonWS_cons (List.cons_ne_nil _ _),
              lastNonWS_cons hne]
            exact hA (List.cons_ne_nil _ _) (hrestlast (List.cons_ne_nil _ _))
        · rw [if_neg h2]
          by_cases h3 : isTerm c = true
          · rw [if_pos h3]
            rw [lastNonWS_append (fixSentA_some_ne_nil rest c [])]
            refine hB c [] rfl ?_
            show lastNonWS (c :: rest) = true
            exact hcr
          · rw [if_neg h3]
            rcases hrr : rest with _ | ⟨d, rest'⟩
            · subst hrr
              rw [lastNonWS_append (List.cons_ne_nil _ _)]
              show lastNonWS [c] = true
              rw [lastNonWS_singleton, hc']
              rfl
            · subst hrr
              have hne : fixSentA none (d :: rest') ≠ [] :=
                fixSentA_ne_nil (List.cons_ne_nil _ _)
              rw [lastNonWS_append (List.cons_ne_nil _ _), lastNonWS_cons hne]
              exact hA (List.cons_ne_nil _ _) (hrestlast (List.cons_ne_nil _ _))

theorem fixSentA_id :
    ∀ l : List Char,
      (onlySpaceWS l = true → noDubWS l = true → noTermUpper l = true →
        fixSentA none l = l) ∧
      (∀ t pend, isTerm t = true → pend.all isWS = true →
        onlySpaceWS (t :: pend.reverse ++ l) = true →
        noDubWS (t :: pend.reverse ++ l) = true →
        noTermUpper (t :: pend.reverse ++ l) = true →
        fixSentA (some (t, pend)) l = t :: pend.reverse ++ l) := by
  intro l
  induction l with
  | nil =>
    refine ⟨fun _ _ _ => rfl, fun t pend _ _ _ _ _ => ?_⟩
    rw [fixSentA, List.append_nil]
  | cons c rest ih =>
    have hA := ih.1
    have hB := ih.2
    constructor
    · intro h1 h2 h3
      by_cases hc : isTerm c = true
      · rw [fixSentA, if_pos hc]
        have hid := hB c [] hc rfl h1 h2 h3
        rw [hid]
        rfl
      · rw [fixSentA_none_nonterm _ (eq_false_of_ne_true hc)]
        have h1r : onlySpaceWS rest = true := by
          rw [onlySpaceWS, List.all_cons, Bool.and_eq_true] at h1
          exact h1.2
        rw [hA h1r (pairsOk_tail h2) (pairsOk_tail h3)]
    · intro t pend ht hp h1 h2 h3
      have h1c : onlySpaceWS (c :: rest) = true := by
        have h1' : onlySpaceWS ((t :: pend.reverse) ++ c :: rest) = true := h1
        rw [onlySpaceWS, List.all_append, Bool.and_eq_true] at h1'
        exact h1'.2
      have h2c : noDubWS (c :: rest) = true := pairsOk_append_right h2
      have h3c : noTermUpper (c :: rest) = true := pairsOk_append_right h3
      have h1r : onlySpaceWS rest = true := by
        rw [onlySpaceWS, List.all_cons, Bool.and_eq_true] at h1c
        exact h1c.2
      have h2r : noDubWS rest = true := pairsOk_tail h2c
      have h3r : noTermUpper rest = true := pairsOk_tail h3c
      rw [fixSentA]
      by_cases hws : isWS c = true
      · rw [if_pos hws]
        have hp' : (c :: pend).all isWS = true := by
          simp [List.all_cons, hws, hp]
        have hre : (t :: (c :: pend).reverse) ++ rest = (t :: pend.reverse) ++ c :: rest := by
          simp
        rw [← hre] at h1 h2 h3
        rw [hB t (c :: pend) ht hp' h1 h2 h3, hre]
      · rw [if_neg hws]
        by_cases hup : isUpperC c = true
        · rw [if_pos hup]
          rcases pend with _ | ⟨w, pend'⟩
          · exfalso
            have h3' : pairsOk (fun a b => !(isTerm a && isUpperC b)) (t :: c :: rest) = true := h3
            rw [pairsOk_cons₂, Bool.and_eq_true] at h3'
            have hpair : (!(isTerm t && isUpperC c)) = true := h3'.1
            rw [ht, hup] at hpair
            exact absurd hpair (by decide)
          · rcases pend' with _ | ⟨w2, pend''⟩
            · have hw : isWS w = true := by
                rw [List.all_cons, Bool.and_eq_true] at hp
                exact hp.1
              have h1' : onlySpaceWS (t :: w :: c :: rest) = true := h1
              rw [onlySpaceWS, List.all_cons, List.all_cons, Bool.and_eq_true,
                Bool.and_eq_true] at h1'
              have hw2 : (!isWS w || decide (w = ' ')) = true := h1'.2.1
              rw [hw, Bool.not_true, Bool.false_or] at hw2
              have hwsp : w = ' ' := of_decide_eq_true hw2
              subst hwsp
              rw [hA h1r h2r h3r]
              rfl
            · exfalso
              rw [List.all_cons, List.all_cons, Bool.and_eq_true, Bool.and_eq_true] at hp
              have hw : isWS w = true := hp.1
              have hw2 : isWS w2 = true := hp.2.1
              have h2' : pairsOk (fun a b => !(isWS a && isWS b))
                  ((t :: (w :: w2 :: pend'').reverse) ++ c :: rest) = true := h2
              have hp1 := pairsOk_append_left (t :: (w :: w2 :: pend'').reverse) h2'
              have hp2 := pairsOk_tail hp1
              have hrev : (w :: w2 :: pend'').reverse = pend''.reverse ++ [w2, w] := by
                simp
              rw [hrev] at hp2
              have hp3 := pairsOk_append_right hp2
              have hpair : (!(isWS w2 && isWS w)) = true := by
                rw [pairsOk_cons₂, Bool.and_eq_true] at hp3
                exact hp3.1
              rw [hw, hw2] at hpair
              exact absurd hpair (by decide)
        · rw [if_neg hup]
          by_cases hterm : isTerm c = true
          · rw [if_pos hterm]
            have hid := hB c [] hterm rfl h1c h2c h3c
            rw [hid]
            rfl
          · rw [if_neg hterm]
            rw [hA h1r h2r h3r]

theorem headIsPunct_append {a : List Char} (b : List Char) (h : a ≠ []) :
    headIsPunct (a ++ b) = headIsPunct a := by
  cases a with
  | nil => exact absurd rfl h
  | cons c a' => rfl

theorem splitSentA_spec_nil (acc : List Char) (h0 : acc.reverse ≠ [])
    (hh : headIsWS acc.reverse = false) (hlast : lastNonWS acc.reverse = true) :
    joinWith [' '] (splitSentA acc false []) = acc.reverse ++ [] ∧
    (∀ p ∈ splitSentA acc false [],
      p ≠ [] ∧ headIsWS p = false ∧ lastNonWS p = true) ∧
    (headIsPunct (acc.reverse ++ []) = false →
      (splitSentA acc false []).all notPunctHead = true) ∧
    (splitSentA acc false []).tail.all notPunctHead = true := by
  have hunf : splitSentA acc false [] = [acc.reverse] := rfl
  rw [hunf, List.append_nil]
  refine ⟨rfl, ?_, ?_, rfl⟩
  · intro p hp
    have hp' : p = acc.reverse := by simpa using hp
    subst hp'
    exact ⟨h0, hh, hlast⟩
  · intro hhp
    simp [notPunctHead, hhp]

theorem splitSentA_spec :
    ∀ n : Nat, ∀ l : List Char, l.length ≤ n → ∀ acc : List Char,
      acc.reverse ++ l ≠ [] →
      onlySpaceWS (acc.reverse ++ l) = true →
      noDubWS (acc.reverse ++ l) = true →
      noWSP (acc.reverse ++ l) = true →
      headIsWS (acc.reverse ++ l) = false →
      lastNonWS (acc.reverse ++ l) = true →
      joinWith [' '] (splitSentA acc false l) = acc.reverse ++ l ∧
      (∀ p ∈ splitSentA acc false l,
        p ≠ [] ∧ headIsWS p = false ∧ lastNonWS p = true) ∧
      (headIsPunct (acc.reverse ++ l) = false →
        (splitSentA acc false l).all notPunctHead = true) ∧
      (splitSentA acc false l).tail.all notPunctHead = true := by
  intro n
  induction n with
  | zero =>
    intro l hlen acc h0 hsp hdub hwsp hh hlast
    have hl : l = [] := List.eq_nil_of_length_eq_zero (Nat.le_zero.mp hlen)
    subst hl
    rw [List.append_nil] at h0 hh hlast
    exact splitSentA_spec_nil acc h0 hh hlast
  | succ n ihn =>
    intro l hlen acc h0 hsp hdub hwsp hh hlast
    rcases l with _ | ⟨c, rest⟩
    · rw [List.append_nil] at h0 hh hlast
      exact splitSentA_spec_nil acc h0 hh hlast
    · rcases acc with _ | ⟨a, acc₂⟩
      · have hunf : splitSentA [] false (c :: rest) =
            if (isWS c && false) = true then
              List.reverse [] :: splitSentA [] true rest
            else splitSentA (c :: []) false rest := rfl
        rw [hunf, if_neg (by simp)]
        have hre : (c :: ([] : List Char)).reverse ++ rest =
            ([] : List Char).reverse ++ c :: rest := by simp
        have hlenr : rest.length ≤ n := by
          have := hlen
          simp [List.length_cons] at this
          omega
        obtain ⟨k1, k2, k3, k4⟩ := ihn rest hlenr (c :: [])
          (by rw [hre]; exact h0) (by rw [hre]; exact hsp) (by rw [hre]; exact hdub)
          (by rw [hre]; exact hwsp) (by rw [hre]; exact hh) (by rw [hre]; exact hlast)
        rw [hre] at k1 k3
        exact ⟨k1, k2, k3, k4⟩
      · have hunf : splitSentA (a :: acc₂) false (c :: rest) =
            if (isWS c && isTerm a) = true then
              (a :: acc₂).reverse :: splitSentA [] true rest
            else splitSentA (c :: a :: acc₂) false rest := rfl
        rw [hunf]
        by_cases hg : (isWS c && isTerm a) = true
        · rw [if_pos hg]
          rw [Bool.and_eq_true] at hg
          have hwc : isWS c = true := hg.1
          have hterm : isTerm a = true := hg.2
          rcases rest with _ | ⟨d, r'⟩
          · exfalso
            rw [lastNonWS_append (List.cons_ne_nil c []), lastNonWS_singleton,
              hwc] at hlast
            exact Bool.false_ne_true hlast
          · have hpair : pairsOk (fun x y => !(isWS x && isWS y)) (c :: d :: r') = true :=
              pairsOk_append_right hdub
            have hd : isWS d = false := by
              have h1 : (!(isWS c && isWS d)) = true := pairsOk_head hpair
              rw [hwc, Bool.true_and] at h1
              cases hdd : isWS d
              · rfl
              · rw [hdd] at h1
                exact absurd h1 (by decide)
            have hppair : pairsOk (fun x y => !(isWS x && isPunct y)) (c :: d :: r') = true :=
              pairsOk_append_right hwsp
            have hdp : isPunct d = false := by
              have h1 : (!(isWS c && isPunct d)) = true := pairsOk_head hppair
              rw [hwc, Bool.true_and] at h1
              cases hdd : isPunct d
              · rfl
              · rw [hdd] at h1
                exact absurd h1 (by decide)
            have hc' : c = ' ' := by
              have hcm : c ∈ (a :: acc₂).reverse ++ c :: d :: r' :=
                List.mem_append_right _ (List.mem_cons_self c _)
              have h2 := List.all_eq_true.mp hsp c hcm
              have h3 : (!isWS c || decide (c = ' ')) = true := h2
              rw [hwc, Bool.not_true, Bool.false_or] at h3
              exact of_decide_eq_true h3
            have hstep : splitSentA [] true (d :: r') = splitSentA [d] false r' := by
              have hunf2 : splitSentA [] true (d :: r') =
                  if isWS d = true then splitSentA [] true r'
                  else splitSentA [d] false r' := rfl
              rw [hunf2, if_neg (show ¬(isWS d = true) from by rw [hd]; exact (by decide))]
            rw [hstep]
            have hco : (a :: acc₂).reverse ++ c :: d :: r' =
                ((a :: acc₂).reverse ++ [c]) ++ d :: r' := by simp
            have hsp' := hsp
            rw [hco, onlySpaceWS, List.all_append, Bool.and_eq_true] at hsp'
            have hsp2 : onlySpaceWS (d :: r') = true := hsp'.2
            have hdub' := hdub
            rw [hco] at hdub'
            have hdub2 : noDubWS (d :: r') = true := pairsOk_append_right hdub'
            have hwsp' := hwsp
            rw [hco] at hwsp'
            have hwsp2 : noWSP (d :: r') = true := pairsOk_append_right hwsp'
            have hh2 : headIsWS (d :: r') = false := by simp [headIsWS, hd]
            have hlast' := hlast
            rw [hco, lastNonWS_append (List.cons_ne_nil d r')] at hlast'
            have hlenr : r'.length ≤ n := by
              have := hlen
              simp [List.length_cons] at this
              omega
            obtain ⟨k1, k2, k3, k4⟩ := ihn r' hlenr [d] (by simp) hsp2 hdub2 hwsp2
              hh2 hlast'
            have hS' : splitSentA [d] false r' ≠ [] := by
              intro hS
              rw [hS] at k1
              exact List.cons_ne_nil d r' k1.symm
            refine ⟨?_, ?_, ?_, ?_⟩
            · rcases hSS : splitSentA [d] false r' with _ | ⟨q, qs⟩
              · exact absurd hSS hS'
              · rw [hSS] at k1
                rw [joinWith_cons₂, k1]
                subst hc'
                simp
            · intro p hp
              rcases List.mem_cons.mp hp with hph | hph
              · subst hph
                refine ⟨by simp, ?_, ?_⟩
                · rw [headIsWS_append (c :: d :: r') (by simp)] at hh
                  exact hh
                · rw [List.reverse_cons, lastNonWS_concat, term_not_ws hterm]
                  rfl
              · exact k2 p hph
            · intro hhp
              rw [List.all_cons, Bool.and_eq_true]
              constructor
              · rw [headIsPunct_append (c :: d :: r') (by simp)] at hhp
                rw [notPunctHead, hhp]
                rfl
              · exact k3 (by simp [headIsPunct, hdp])
            · exact k3 (by simp [headIsPunct, hdp])
        · rw [if_neg hg]
          have hre : (c :: a :: acc₂).reverse ++ rest =
              (a :: acc₂).reverse ++ c :: rest := by simp
          have hlenr : rest.length ≤ n := by
            have := hlen
            simp [List.length_cons] at this
            omega
          obtain ⟨k1, k2, k3, k4⟩ := ihn rest hlenr (c :: a :: acc₂)
            (by rw [hre]; exact h0) (by rw [hre]; exact hsp) (by rw [hre]; exact hdub)
            (by rw [hre]; exact hwsp) (by rw [hre]; exact hh) (by rw [hre]; exact hlast)
          rw [hre] at k1 k3
          exact ⟨k1, k2, k3, k4⟩

theorem processLines_mem :
    ∀ (ls acc : List (List Char)),
      (∀ a ∈ acc, a ≠ [] ∧ headIsWS a = false ∧ lastNonWS a = true) →
      ∀ x ∈ processLines acc ls, x ≠ [] ∧ headIsWS x = false ∧ lastNonWS x = true := by
  intro ls
  induction ls with
  | nil =>
    intro acc hacc x hx
    have hunf : processLines acc [] = acc.reverse := rfl
    rw [hunf] at hx
    exact hacc x (List.mem_reverse.mp hx)
  | cons l rest ih =>
    intro acc hacc x hx
    have hprops : pyStrip l = [] ∨ (pyStrip l ≠ [] ∧ headIsWS (pyStrip l) = false ∧
        lastNonWS (pyStrip l) = true) := by
      by_cases hs : pyStrip l = []
      · exact Or.inl hs
      · exact Or.inr ⟨hs, pyStrip_headIsWS l, pyStrip_lastNonWS l⟩
    rcases acc with _ | ⟨a, acc₂⟩
    · have hunf : processLines [] (l :: rest) =
          if pyStrip l = [] then processLines [] rest
          else processLines [pyStrip l] rest := rfl
      rw [hunf] at hx
      by_cases hs : pyStrip l = []
      · rw [if_pos hs] at hx
        exact ih [] hacc x hx
      · rw [if_neg hs] at hx
        rcases hprops with h | hprops
        · exact absurd h hs
        · exact ih [pyStrip l]
            (by intro b hb; rw [List.mem_singleton.mp hb]; exact hprops) x hx
    · have hunf : processLines (a :: acc₂) (l :: rest) =
          if pyStrip l = [] then processLines (a :: acc₂) rest
          else if pyStrip l = a then processLines (a :: acc₂) rest
          else processLines (pyStrip l :: a :: acc₂) rest := rfl
      rw [hunf] at hx
      by_cases hs : pyStrip l = []
      · rw [if_pos hs] at hx
        exact ih (a :: acc₂) hacc x hx
      · rw [if_neg hs] at hx
        rcases hprops with h | hprops
        · exact absurd h hs
        · by_cases he : pyStrip l = a
          · rw [if_pos he] at hx
            exact ih (a :: acc₂) hacc x hx
          · rw [if_neg he] at hx
            refine ih (pyStrip l :: a :: acc₂) ?_ x hx
            intro b hb
            rcases List.mem_cons.mp hb with h | h
            · rw [h]; exact hprops
            · exact hacc b h

theorem groupsAux_flatten :
    ∀ (S cur : List (List Char)), S ≠ [] →
      (∀ s ∈ S, pyStrip s = s ∧ s ≠ []) →
      (groupsAux cur S).flatten = cur ++ S := by
  intro S
  induction S with
  | nil => intro cur h _; exact absurd rfl h
  | cons s rest ih =>
    intro cur _ hS
    have hss : pyStrip s = s := (hS s (List.mem_cons_self s rest)).1
    have hsne : s ≠ [] := (hS s (List.mem_cons_self s rest)).2
    simp only [groupsAux]
    rw [if_neg (show ¬(pyStrip s = []) from by rw [hss]; exact hsne)]
    by_cases hc : (decide (4 ≤ (cur ++ [pyStrip s]).length) || rest.isEmpty) = true
    · rw [if_pos hc]
      rcases rest with _ | ⟨r₁, rrest⟩
      · rw [hss]
        simp [groupsAux]
      · rw [List.flatten_cons,
          ih [] (List.cons_ne_nil _ _) (fun x hx => hS x (List.mem_cons_of_mem _ hx)),
          hss]
        simp
    · rw [if_neg hc]
      rcases rest with _ | ⟨r₁, rrest⟩
      · exact absurd (by simp) hc
      · rw [ih (cur ++ [pyStrip s]) (List.cons_ne_nil _ _)
          (fun x hx => hS x (List.mem_cons_of_mem _ hx)), hss]
        simp

theorem mem_tail_flatten {α : Type} :
    ∀ (gs : List (List α)), (∀ g ∈ gs, g ≠ []) →
      ∀ g ∈ gs.tail, ∀ p ∈ g, p ∈ gs.flatten.tail := by
  intro gs hne g hg p hp
  rcases gs with _ | ⟨g₀, rest⟩
  · simp at hg
  · rcases g₀ with _ | ⟨x, g₀t⟩
    · exact absurd rfl (hne [] (List.mem_cons_self _ _))
    · have hpr : p ∈ rest.flatten := List.mem_flatten.mpr ⟨g, by simpa using hg, hp⟩
      have hfl : ((x :: g₀t) :: rest).flatten = x :: (g₀t ++ rest.flatten) := by simp
      rw [hfl]
      exact List.mem_append_right _ hpr

theorem joinWith_append (sep : List Char) :
    ∀ (A B : List (List Char)), A ≠ [] → B ≠ [] →
      joinWith sep (A ++ B) = joinWith sep A ++ sep ++ joinWith sep B := by
  intro A
  induction A with
  | nil => intro B h _; exact absurd rfl h
  | cons a A₂ ih =>
    intro B _ hB
    rcases A₂ with _ | ⟨a₂, A₃⟩
    · rcases B with _ | ⟨b, B₂⟩
      · exact absurd rfl hB
      · rw [List.singleton_append, joinWith_cons₂]
        rfl
    · have h1 : (a :: a₂ :: A₃) ++ B = a :: a₂ :: (A₃ ++ B) := rfl
      rw [h1, joinWith_cons₂]
      have h2 : a₂ :: (A₃ ++ B) = (a₂ :: A₃) ++ B := rfl
      rw [h2, ih B (List.cons_ne_nil _ _) hB, joinWith_cons₂]
      simp [List.append_assoc]

theorem joinWith_flatten (sep : List Char) :
    ∀ gs : List (List (List Char)), (∀ g ∈ gs, g ≠ []) →
      joinWith sep (gs.map (joinWith sep)) = joinWith sep gs.flatten := by
  intro gs
  induction gs with
  | nil => intro _; rfl
  | cons g gs₂ ih =>
    intro hne
    rcases gs₂ with _ | ⟨g₂, gs₃⟩
    · simp [joinWith]
    · have hfne : (g₂ :: gs₃).flatten ≠ [] := by
        intro h
        have h2 : g₂ ++ gs₃.flatten = [] := h
        rcases List.append_eq_nil.mp h2 with ⟨h3, _⟩
        exact hne g₂ (by simp) h3
      have hfl : (g :: g₂ :: gs₃).flatten = g ++ (g₂ :: gs₃).flatten := rfl
      rw [List.map_cons, List.map_cons, joinWith_cons₂, ← List.map_cons,
        ih (fun x hx => hne x (List.mem_cons_of_mem _ hx)), hfl,
        joinWith_append sep g ((g₂ :: gs₃).flatten) (hne g (by simp)) hfne]

theorem joinWith_infix (sep : List Char) :
    ∀ (Ps : List (List Char)) (p : List Char), p ∈ Ps →
      ∃ a b, joinWith sep Ps = a ++ (p ++ b) := by
  intro Ps
  induction Ps with
  | nil => intro p hp; simp at hp
  | cons q rest ih =>
    intro p hp
    rcases List.mem_cons.mp hp with h | h
    · subst h
      rcases rest with _ | ⟨r, rest₂⟩
      · exact ⟨[], [], by simp [joinWith]⟩
      · exact ⟨[], sep ++ joinWith sep (r :: rest₂), by rw [joinWith_cons₂]; simp⟩
    · obtain ⟨a, b, hab⟩ := ih p h
      rcases rest with _ | ⟨r, rest₂⟩
      · simp at h
      · exact ⟨q ++ sep ++ a, b, by rw [joinWith_cons₂, hab]; simp⟩

theorem onlySpace_noNl {l : List Char} (h : onlySpaceWS l = true) : noNl l = true := by
  rw [noNl, List.all_eq_true]
  intro c hc
  show (!decide (c = '\n')) = true
  have h2 : (!isWS c || decide (c = ' ')) = true := List.all_eq_true.mp h c hc
  by_cases hcn : c = '\n'
  · subst hcn
    exact absurd h2 (by decide)
  · simp [hcn]

theorem headOk_append {α : Type} (f : α → α → Bool) (x : α) (a b : List α)
    (h : a ≠ []) : headOk f x (a ++ b) = headOk f x a := by
  cases a with
  | nil => exact absurd rfl h
  | cons c a₂ => rfl

theorem lastOk_append_arg {α : Type} (f : α → α → Bool) (xs a b : List α)
    (h : a ≠ []) : lastOk f xs (a ++ b) = lastOk f xs a := by
  rcases hgl : xs.getLast? with _ | x
  · rw [lastOk, lastOk, hgl]
  · rw [lastOk, lastOk, hgl]
    show headOk f x (a ++ b) = headOk f x a
    exact headOk_append f x a b h

theorem pairsOk_joinWith {f : Char → Char → Bool} (sep : List Char)
    (hsepne : sep ≠ []) :
    ∀ Ps : List (List Char), (∀ p ∈ Ps, p ≠ []) →
      (∀ p ∈ Ps, pairsOk f p = true) → pairsOk f sep = true →
      (∀ p ∈ Ps, lastOk f p sep = true) →
      (∀ p ∈ Ps.tail, lastOk f sep p = true) →
      pairsOk f (joinWith sep Ps) = true := by
  intro Ps
  induction Ps with
  | nil => intro _ _ _ _ _; rfl
  | cons p rest ih =>
    intro hne hp hsep hl hr
    rcases rest with _ | ⟨q, rest₂⟩
    · exact hp p (by simp)
    · rw [joinWith_cons₂, List.append_assoc]
      have hq : q ≠ [] := hne q (by simp)
      have hrec : pairsOk f (joinWith sep (q :: rest₂)) = true :=
        ih (fun x hx => hne x (List.mem_cons_of_mem _ hx))
          (fun x hx => hp x (List.mem_cons_of_mem _ hx)) hsep
          (fun x hx => hl x (List.mem_cons_of_mem _ hx))
          (fun x hx => hr x (List.mem_cons_of_mem _ hx))
      have hsepJ : pairsOk f (sep ++ joinWith sep (q :: rest₂)) = true := by
        refine pairsOk_append_of sep hsep hrec ?_
        rcases rest₂ with _ | ⟨r, rest₃⟩
        · exact hr q (by simp)
        · rw [joinWith_cons₂, List.append_assoc, lastOk_append_arg f sep q _ hq]
          exact hr q (by simp)
      refine pairsOk_append_of p (hp p (by simp)) hsepJ ?_
      rw [lastOk_append_arg f p sep _ hsepne]
      exact hl p (by simp)

theorem headIsPunct_joinWith {sep p : List Char} {rest : List (List Char)}
    (h : p ≠ []) : headIsPunct (joinWith sep (p :: rest)) = headIsPunct p := by
  cases rest with
  | nil => rfl
  | cons q rest₂ =>
    rw [joinWith_cons₂, List.append_assoc, headIsPunct_append _ h]

theorem headNl_append {a : List Char} (b : List Char) (h : a ≠ []) :
    headNl (a ++ b) = headNl a := by
  cases a with
  | nil => exact absurd rfl h
  | cons c a₂ => rfl

theorem headNl_joinWith {sep p : List Char} {rest : List (List Char)}
    (h : p ≠ []) : headNl (joinWith sep (p :: rest)) = headNl p := by
  cases rest with
  | nil => rfl
  | cons q rest₂ =>
    rw [joinWith_cons₂, List.append_assoc, headNl_append _ h]

theorem noNl_headNl {p : List Char} (h : noNl p = true) (hne : p ≠ []) :
    headNl p = false := by
  rcases p with _ | ⟨c, p₂⟩
  · exact absurd rfl hne
  · have h2 : (!decide (c = '\n')) = true := List.all_eq_true.mp h c (by simp)
    show decide (c = '\n') = false
    cases hd : decide (c = '\n')
    · rfl
    · rw [hd] at h2
      exact absurd h2 (by decide)

theorem noNl_head_ne {c : Char} {p₂ : List Char} (h : noNl (c :: p₂) = true) :
    ¬(c = '\n') := by
  have h2 : (!decide (c = '\n')) = true := List.all_eq_true.mp h c (by simp)
  intro hcc
  rw [hcc] at h2
  exact absurd h2 (by decide)

theorem noNl_tail {c : Char} {p₂ : List Char} (h : noNl (c :: p₂) = true) :
    noNl p₂ = true := by
  rw [noNl, List.all_cons, Bool.and_eq_true] at h
  exact h.2

theorem splitNlNl_noNl : ∀ p : List Char, noNl p = true → splitNlNl p = [p] := by
  intro p
  induction p with
  | nil => intro _; rfl
  | cons c rest ih =>
    intro h
    have hc : ¬(c = '\n') := noNl_head_ne h
    rcases rest with _ | ⟨d, rest₂⟩
    · rfl
    · have hunf : splitNlNl (c :: d :: rest₂) =
          if c = '\n' ∧ d = '\n' then [] :: splitNlNl rest₂
          else match splitNlNl (d :: rest₂) with
            | h :: t => (c :: h) :: t
            | [] => [[c]] := rfl
      rw [hunf, if_neg (fun hand => hc hand.1), ih (noNl_tail h)]

theorem splitNlNl_append_sep : ∀ (p z : List Char), noNl p = true →
    splitNlNl (p ++ '\n' :: '\n' :: z) = p :: splitNlNl z := by
  intro p
  induction p with
  | nil =>
    intro z _
    have hunf : splitNlNl (('\n' : Char) :: '\n' :: z) =
        if ('\n' : Char) = '\n' ∧ ('\n' : Char) = '\n' then [] :: splitNlNl z
        else match splitNlNl ('\n' :: z) with
          | h :: t => ('\n' :: h) :: t
          | [] => [['\n']] := rfl
    show splitNlNl (('\n' : Char) :: '\n' :: z) = [] :: splitNlNl z
    rw [hunf, if_pos ⟨rfl, rfl⟩]
  | cons a p₂ ih =>
    intro z h
    have ha : ¬(a = '\n') := noNl_head_ne h
    have hp₂ : noNl p₂ = true := noNl_tail h
    rcases p₂ with _ | ⟨b, p₃⟩
    · have hunf : splitNlNl (([a] : List Char) ++ '\n' :: '\n' :: z) =
          if a = '\n' ∧ ('\n' : Char) = '\n' then [] :: splitNlNl ('\n' :: z)
          else match splitNlNl ('\n' :: '\n' :: z) with
            | h :: t => (a :: h) :: t
            | [] => [[a]] := rfl
      rw [hunf, if_neg (fun hand => ha hand.1)]
      have ih2 : splitNlNl (('\n' : Char) :: '\n' :: z) = [] :: splitNlNl z :=
        ih z rfl
      rw [ih2]
    · have hunf : splitNlNl ((a :: b :: p₃) ++ '\n' :: '\n' :: z) =
          if a = '\n' ∧ b = '\n' then [] :: splitNlNl (p₃ ++ '\n' :: '\n' :: z)
          else match splitNlNl ((b :: p₃) ++ '\n' :: '\n' :: z) with
            | h :: t => (a :: h) :: t
            | [] => [[a]] := rfl
      rw [hunf, if_neg (fun hand => ha hand.1), ih z hp₂]

theorem splitNlNl_joinWith : ∀ Ps : List (List Char), Ps ≠ [] →
    (∀ p ∈ Ps, noNl p = true) → splitNlNl (joinWith ['\n', '\n'] Ps) = Ps := by
  intro Ps
  induction Ps with
  | nil => intro h _; exact absurd rfl h
  | cons p rest ih =>
    intro _ hn
    rcases rest with _ | ⟨q, rest₂⟩
    · have h1 : joinWith ['\n', '\n'] [p] = p := rfl
      rw [h1, splitNlNl_noNl p (hn p (by simp))]
    · rw [joinWith_cons₂, List.append_assoc,
        show (['\n', '\n'] : List Char) ++ joinWith ['\n', '\n'] (q :: rest₂) =
          '\n' :: '\n' :: joinWith ['\n', '\n'] (q :: rest₂) from rfl]
      rw [splitNlNl_append_sep p _ (hn p (by simp)),
        ih (List.cons_ne_nil _ _) (fun x hx => hn x (List.mem_cons_of_mem _ hx))]

theorem nlRunsDouble_of_noNl : ∀ p : List Char, noNl p = true →
    nlRunsDouble p = true := by
  intro p
  induction p with
  | nil => intro _; rfl
  | cons c rest ih =>
    intro h
    have hc : ¬(c = '\n') := noNl_head_ne h
    rcases rest with _ | ⟨d, rest₂⟩
    · show (!decide (c = '\n')) = true
      simp [hc]
    · have hunf : nlRunsDouble (c :: d :: rest₂) =
          if c = '\n' then
            (if d = '\n' then
              (if headNl rest₂ = true then false else nlRunsDouble rest₂)
             else false)
          else nlRunsDouble (d :: rest₂) := rfl
      rw [hunf, if_neg hc]
      exact ih (noNl_tail h)

theorem nlRunsDouble_append_sep : ∀ (p z : List Char), noNl p = true →
    headNl z = false → nlRunsDouble z = true →
    nlRunsDouble (p ++ '\n' :: '\n' :: z) = true := by
  intro p
  induction p with
  | nil =>
    intro z _ hz hnl
    have hunf : nlRunsDouble (('\n' : Char) :: '\n' :: z) =
        if ('\n' : Char) = '\n' then
          (if ('\n' : Char) = '\n' then
            (if headNl z = true then false else nlRunsDouble z)
           else false)
        else nlRunsDouble ('\n' :: z) := rfl
    show nlRunsDouble (('\n' : Char) :: '\n' :: z) = true
    rw [hunf, if_pos rfl, if_pos rfl,
      if_neg (show ¬(headNl z = true) from by rw [hz]; exact (by decide))]
    exact hnl
  | cons a p₂ ih =>
    intro z h hz hnl
    have ha : ¬(a = '\n') := noNl_head_ne h
    have hp₂ : noNl p₂ = true := noNl_tail h
    rcases p₂ with _ | ⟨b, p₃⟩
    · have hunf : nlRunsDouble (([a] : List Char) ++ '\n' :: '\n' :: z) =
          if a = '\n' then
            (if ('\n' : Char) = '\n' then
              (if headNl ('\n' :: z) = true then false
               else nlRunsDouble ('\n' :: z))
             else false)
          else nlRunsDouble (('\n' : Char) :: '\n' :: z) := rfl
      rw [hunf, if_neg ha]
      exact ih z rfl hz hnl
    · have hunf : nlRunsDouble ((a :: b :: p₃) ++ '\n' :: '\n' :: z) =
          if a = '\n' then
            (if b = '\n' then
              (if headNl (p₃ ++ '\n' :: '\n' :: z) = true then false
               else nlRunsDouble (p₃ ++ '\n' :: '\n' :: z))
             else false)
          else nlRunsDouble ((b :: p₃) ++ '\n' :: '\n' :: z) := rfl
      rw [hunf, if_neg ha]
      exact ih z hp₂ hz hnl

theorem nlRunsDouble_join : ∀ Ps : List (List Char),
    (∀ p ∈ Ps, p ≠ [] ∧ noNl p = true) →
    nlRunsDouble (joinWith ['\n', '\n'] Ps) = true := by
  intro Ps
  induction Ps with
  | nil => intro _; rfl
  | cons p rest ih =>
    intro hps
    rcases rest with _ | ⟨q, rest₂⟩
    · exact nlRunsDouble_of_noNl p (hps p (by simp)).2
    · rw [joinWith_cons₂, List.append_assoc,
        show (['\n', '\n'] : List Char) ++ joinWith ['\n', '\n'] (q :: rest₂) =
          '\n' :: '\n' :: joinWith ['\n', '\n'] (q :: rest₂) from rfl]
      refine nlRunsDouble_append_sep p _ (hps p (by simp)).2 ?_
        (ih (fun x hx => hps x (List.mem_cons_of_mem _ hx)))
      rw [headNl_joinWith (hps q (by simp)).1]
      exact noNl_headNl (hps q (by simp)).2 (hps q (by simp)).1

theorem splitSentA_never_nil :
    ∀ (l acc : List Char) (insep : Bool), splitSentA acc insep l ≠ [] := by
  intro l
  induction l with
  | nil =>
    intro acc insep
    exact List.cons_ne_nil _ _
  | cons c rest ih =>
    intro acc insep
    cases insep
    · rcases acc with _ | ⟨a, acc₂⟩
      · have hunf : splitSentA [] false (c :: rest) =
            if (isWS c && false) = true then
              List.reverse [] :: splitSentA [] true rest
            else splitSentA (c :: []) false rest := rfl
        rw [hunf]
        by_cases hg : (isWS c && false) = true
        · rw [if_pos hg]
          exact List.cons_ne_nil _ _
        · rw [if_neg hg]
          exact ih _ _
      · have hunf : splitSentA (a :: acc₂) false (c :: rest) =
            if (isWS c && isTerm a) = true then
              (a :: acc₂).reverse :: splitSentA [] true rest
            else splitSentA (c :: a :: acc₂) false rest := rfl
        rw [hunf]
        by_cases hg : (isWS c && isTerm a) = true
        · rw [if_pos hg]
          exact List.cons_ne_nil _ _
        · rw [if_neg hg]
          exact ih _ _
    · have hunf : splitSentA acc true (c :: rest) =
          if isWS c = true then splitSentA acc true rest
          else splitSentA [c] false rest := rfl
      rw [hunf]
      by_cases hg : isWS c = true
      · rw [if_pos hg]
        exact ih _ _
      · rw [if_neg hg]
        exact ih _ _

theorem normalized_props (l : List Char) (hL : step4Lines l ≠ []) :
    normalizedText l ≠ [] ∧ onlySpaceWS (normalizedText l) = true ∧
    noDubWS (normalizedText l) = true ∧ noWSP (normalizedText l) = true ∧
    noTermUpper (normalizedText l) = true ∧ headIsWS (normalizedText l) = false ∧
    lastNonWS (normalizedText l) = true := by
  have hmem : ∀ x ∈ step4Lines l, x ≠ [] ∧ headIsWS x = false ∧ lastNonWS x = true :=
    processLines_mem (splitOnNl (steps123 l)) [] (by intro a ha; simp at ha)
  have hJne : joinWith ['\n'] (step4Lines l) ≠ [] :=
    joinWith_ne_nil (fun p hp => (hmem p hp).1) hL
  have hJh : headIsWS (joinWith ['\n'] (step4Lines l)) = false := by
    rcases hL4 : step4Lines l with _ | ⟨p, rest⟩
    · exact absurd hL4 hL
    · rw [headIsWS_joinWith (hmem p (by rw [hL4]; simp)).1]
      exact (hmem p (by rw [hL4]; simp)).2.1
  have hJl : lastNonWS (joinWith ['\n'] (step4Lines l)) = true :=
    lastNonWS_joinWith (fun p hp => (hmem p hp).1) (fun p hp => (hmem p hp).2.2) hL
  have hCsp : onlySpaceWS (collapseWS (joinWith ['\n'] (step4Lines l))) = true :=
    collapse_onlySpace _
  have hCdub : noDubWS (collapseWS (joinWith ['\n'] (step4Lines l))) = true :=
    collapse_noDub _
  have hCh : headIsWS (collapseWS (joinWith ['\n'] (step4Lines l))) = false := by
    rw [collapse_headIsWS]
    exact hJh
  have hCl : lastNonWS (collapseWS (joinWith ['\n'] (step4Lines l))) = true :=
    collapse_lastNonWS _ hJl
  have hCne : collapseWS (joinWith ['\n'] (step4Lines l)) ≠ [] := collapse_ne_nil hJne
  have hFwsp : noWSP (fixPunctA [] (collapseWS (joinWith ['\n'] (step4Lines l)))) = true :=
    fixPunctA_noWSP _ [] rfl
  have hFdub : noDubWS (fixPunctA [] (collapseWS (joinWith ['\n'] (step4Lines l)))) = true :=
    fixPunctA_noDub _ [] hCdub
  have hFsp : onlySpaceWS (fixPunctA [] (collapseWS (joinWith ['\n'] (step4Lines l)))) = true :=
    fixPunctA_all _ [] hCsp rfl
  have hFl : lastNonWS (fixPunctA [] (collapseWS (joinWith ['\n'] (step4Lines l)))) = true :=
    fixPunctA_lastNonWS _ [] hCne hCl
  have hFne : fixPunctA [] (collapseWS (joinWith ['\n'] (step4Lines l))) ≠ [] :=
    fixPunctA_ne_nil _ [] (Or.inr hCne)
  have hFh : headIsWS (fixPunctA [] (collapseWS (joinWith ['\n'] (step4Lines l)))) = false := by
    rcases hC2 : collapseWS (joinWith ['\n'] (step4Lines l)) with _ | ⟨c, cr⟩
    · exact absurd hC2 hCne
    · rw [hC2] at hCh
      rw [fixPunctA_cons_nonws cr hCh]
      exact hCh
  have h8sp : onlySpaceWS (fixSentA none (fixPunctA []
      (collapseWS (joinWith ['\n'] (step4Lines l))))) = true :=
    (fixSentA_all (by decide) _).1 hFsp
  have h8dub : noDubWS (fixSentA none (fixPunctA []
      (collapseWS (joinWith ['\n'] (step4Lines l))))) = true :=
    (fixSentA_noDub _).1 hFdub
  have h8wsp : noWSP (fixSentA none (fixPunctA []
      (collapseWS (joinWith ['\n'] (step4Lines l))))) = true :=
    (fixSentA_noWSP _).1 hFwsp
  have h8tu : noTermUpper (fixSentA none (fixPunctA []
      (collapseWS (joinWith ['\n'] (step4Lines l))))) = true :=
    (fixSentA_noTermUpper _).1
  have h8l : lastNonWS (fixSentA none (fixPunctA []
      (collapseWS (joinWith ['\n'] (step4Lines l))))) = true :=
    (fixSentA_lastNonWS _).1 hFne hFl
  have h8ne : fixSentA none (fixPunctA []
      (collapseWS (joinWith ['\n'] (step4Lines l)))) ≠ [] :=
    fixSentA_ne_nil hFne
  have h8h : headIsWS (fixSentA none (fixPunctA []
      (collapseWS (joinWith ['\n'] (step4Lines l))))) = false := by
    rw [headIsWS_eq_head?, fixSentA_none_head?, ← headIsWS_eq_head?]
    exact hFh
  exact ⟨h8ne, h8sp, h8dub, h8wsp, h8tu, h8h, h8l⟩

theorem sentences_props (l : List Char) (hL : step4Lines l ≠ []) :
    joinWith [' '] (splitSent (normalizedText l)) = normalizedText l ∧
    (∀ p ∈ splitSent (normalizedText l),
      p ≠ [] ∧ headIsWS p = false ∧ lastNonWS p = true) ∧
    (splitSent (normalizedText l)).tail.all notPunctHead = true := by
  obtain ⟨h8ne, h8sp, h8dub, h8wsp, _, h8h, h8l⟩ := normalized_props l hL
  obtain ⟨k1, k2, _, k4⟩ := splitSentA_spec (normalizedText l).length
    (normalizedText l) le_rfl [] h8ne h8sp h8dub h8wsp h8h h8l
  exact ⟨k1, k2, k4⟩

theorem groups_props (l : List Char) (hL : step4Lines l ≠ []) :
    (groupsOf l).flatten = splitSent (normalizedText l) ∧
    (∀ g ∈ groupsOf l, g ≠ []) ∧
    paragraphsOf l = (groupsOf l).map joinSpace := by
  obtain ⟨k1, k2, k4⟩ := sentences_props l hL
  have hsid : ∀ s ∈ splitSent (normalizedText l), pyStrip s = s ∧ s ≠ [] := by
    intro s hs
    obtain ⟨hne, hh, hl2⟩ := k2 s hs
    exact ⟨pyStrip_id hh hl2, hne⟩
  have hPne : splitSent (normalizedText l) ≠ [] :=
    splitSentA_never_nil (normalizedText l) [] false
  refine ⟨?_, ?_, groupAux_eq_map (sentencesOf l) []⟩
  · exact groupsAux_flatten (splitSent (normalizedText l)) [] hPne hsid
  · intro g hg
    have h1 := (groupsAux_len (sentencesOf l) [] (by simp) g hg).1
    exact List.ne_nil_of_length_pos h1

theorem all_joinWith {q : Char → Bool} (sep : List Char) (hsep : sep.all q = true) :
    ∀ Ps : List (List Char), (∀ p ∈ Ps, p.all q = true) →
      (joinWith sep Ps).all q = true := by
  intro Ps
  induction Ps with
  | nil => intro _; rfl
  | cons p rest ih =>
    intro hp
    rcases rest with _ | ⟨r, rest₂⟩
    · exact hp p (by simp)
    · rw [joinWith_cons₂, List.all_append, List.all_append]
      simp only [Bool.and_eq_true]
      exact ⟨⟨hp p (by simp), hsep⟩, ih (fun x hx => hp x (List.mem_cons_of_mem _ hx))⟩

theorem pieces_noNl (t : List Char) (hL : step4Lines t ≠ []) :
    ∀ p ∈ splitSent (normalizedText t), noNl p = true := by
  obtain ⟨_, h8sp, _, _, _, _, _⟩ := normalized_props t hL
  obtain ⟨k1, _, _⟩ := sentences_props t hL
  have ht8nl : noNl (normalizedText t) = true := onlySpace_noNl h8sp
  intro p hp
  obtain ⟨a, b, hab⟩ := joinWith_infix [' '] _ p hp
  rw [k1] at hab
  rw [hab, noNl, List.all_append, List.all_append, Bool.and_eq_true,
    Bool.and_eq_true] at ht8nl
  exact ht8nl.2.1

theorem paragraphs_props (t : List Char) (hL : step4Lines t ≠ []) :
    ∀ p ∈ paragraphsOf t, p ≠ [] ∧ noNl p = true := by
  obtain ⟨hflat, hgne, hmap⟩ := groups_props t hL
  obtain ⟨_, k2, _⟩ := sentences_props t hL
  intro p hp
  rw [hmap] at hp
  obtain ⟨g, hg, hgp⟩ := List.mem_map.mp hp
  subst hgp
  have hmemP : ∀ s ∈ g, s ∈ splitSent (normalizedText t) := by
    intro s hs
    rw [← hflat]
    exact List.mem_flatten.mpr ⟨g, hg, hs⟩
  constructor
  · exact joinWith_ne_nil (fun s hs => (k2 s (hmemP s hs)).1) (hgne g hg)
  · exact all_joinWith [' '] (by decide) g
      (fun s hs => pieces_noNl t hL s (hmemP s hs))

theorem step4_nil_paragraphs {t : List Char} (hL : step4Lines t = []) :
    paragraphsOf t = [] := by
  rw [paragraphsOf, sentencesOf, normalizedText, hL]
  rfl

/-- C2: for every input, clean_text's output is its sentence groups joined by
single spaces within a group and blank lines between groups; every group holds
between one and four sentences, every group except possibly the last holds
exactly four, and, whenever at least one group exists, splitting the output on
the double-newline separator recovers exactly the space-joined groups. -/
theorem clean_text_paragraph_sizes (t : List Char) :
    clean_text t = joinWith ['\n', '\n'] ((groupsOf t).map joinSpace) ∧
    (∀ g ∈ groupsOf t, 1 ≤ g.length ∧ g.length ≤ 4) ∧
    (∀ g ∈ (groupsOf t).dropLast, g.length = 4) ∧
    (groupsOf t ≠ [] → splitNlNl (clean_text t) = (groupsOf t).map joinSpace) := by
  have hmap : paragraphsOf t = (groupsOf t).map joinSpace :=
    groupAux_eq_map (sentencesOf t) []
  refine ⟨by rw [clean_text, hmap], groupsAux_len (sentencesOf t) [] (by simp),
    groupsAux_dropLast_len (sentencesOf t) [] (by simp), ?_⟩
  intro hne
  by_cases hL : step4Lines t = []
  · exfalso
    have hp := step4_nil_paragraphs hL
    rw [hmap] at hp
    exact hne (List.map_eq_nil_iff.mp hp)
  · have hppr := paragraphs_props t hL
    have hpne : paragraphsOf t ≠ [] := by
      rw [hmap]
      intro h
      exact hne (List.map_eq_nil_iff.mp h)
    rw [clean_text, splitNlNl_joinWith (paragraphsOf t) hpne
      (fun p hp => (hppr p hp).2)]
    exact hmap

theorem clean_text_paragraph_sizes_witness :
    splitNlNl (clean_text (('H' :: 'i' :: '.' :: []))) =
      (groupsOf ('H' :: 'i' :: '.' :: [])).map joinSpace :=
  (clean_text_paragraph_sizes ('H' :: 'i' :: '.' :: [])).2.2.2 (by decide)

/-- C9: every paragraph clean_text emits is a single newline-free line, the
output is exactly those paragraphs joined by blank lines, and every maximal
run of newline characters in the output has length exactly two, so the output
never holds a lone newline or a run of three or more. -/
theorem clean_text_newline_structure (t : List Char) :
    (∀ p ∈ paragraphsOf t, noNl p = true) ∧
    clean_text t = joinWith ['\n', '\n'] (paragraphsOf t) ∧
    nlRunsDouble (clean_text t) = true := by
  by_cases hL : step4Lines t = []
  · have hp := step4_nil_paragraphs hL
    refine ⟨?_, rfl, ?_⟩
    · intro p hp2
      rw [hp] at hp2
      simp at hp2
    · rw [clean_text, hp]
      rfl
  · have hppr := paragraphs_props t hL
    refine ⟨fun p hp => (hppr p hp).2, rfl, ?_⟩
    rw [clean_text]
    exact nlRunsDouble_join (paragraphsOf t)
      (fun p hp => ⟨(hppr p hp).1, (hppr p hp).2⟩)

/-- C5: the final output of clean_text never holds a whitespace character
immediately before a punctuation character (one of comma, period, exclamation
mark, question mark, semicolon, colon). -/
theorem clean_text_noWSP (t : List Char) : noWSP (clean_text t) = true := by
  by_cases hL : step4Lines t = []
  · have h1 : clean_text t = joinWith ['\n', '\n'] [] := by
      rw [clean_text, step4_nil_paragraphs hL]
    rw [h1]
    rfl
  · obtain ⟨hflat, hgne, hmap⟩ := groups_props t hL
    obtain ⟨k1, k2, k4⟩ := sentences_props t hL
    obtain ⟨_, _, _, h8wsp, _, _, _⟩ := normalized_props t hL
    have hppr := paragraphs_props t hL
    have hjoin : joinWith [' '] (paragraphsOf t) = normalizedText t := by
      rw [hmap, show joinSpace = joinWith [' '] from rfl,
        joinWith_flatten [' '] (groupsOf t) hgne, hflat, k1]
    rw [clean_text]
    refine pairsOk_joinWith ['\n', '\n'] (by decide) (paragraphsOf t)
      (fun p hp => (hppr p hp).1) ?_ (by decide) ?_ ?_
    · intro p hp
      obtain ⟨a, b, hab⟩ := joinWith_infix [' '] (paragraphsOf t) p hp
      rw [hjoin] at hab
      rw [hab] at h8wsp
      exact pairsOk_append_left p (pairsOk_append_right h8wsp)
    · intro p _
      rcases hgl : p.getLast? with _ | x
      · rw [lastOk, hgl]
      · rw [lastOk, hgl]
        show (!(isWS x && isPunct '\n')) = true
        rw [show isPunct '\n' = false from rfl, Bool.and_false]
        rfl
    · intro p hp
      have hphead : headIsPunct p = false := by
        rcases hgs : groupsOf t with _ | ⟨g₀, gtail⟩
        · rw [hmap, hgs] at hp
          simp at hp
        · rw [hmap, hgs] at hp
          have hp3 : p ∈ gtail.map joinSpace := hp
          obtain ⟨g, hg, hgp⟩ := List.mem_map.mp hp3
          subst hgp
          rcases g with _ | ⟨s₀, g₂⟩
          · exact absurd rfl (hgne [] (by rw [hgs]; exact List.mem_cons_of_mem _ hg))
          · have hsP : s₀ ∈ splitSent (normalizedText t) := by
              rw [← hflat, hgs]
              exact List.mem_flatten.mpr ⟨s₀ :: g₂, List.mem_cons_of_mem _ hg, by simp⟩
            have hs₀ne : s₀ ≠ [] := (k2 s₀ hsP).1
            rw [show joinSpace (s₀ :: g₂) = joinWith [' '] (s₀ :: g₂) from rfl,
              headIsPunct_joinWith hs₀ne]
            have hs₀tail : s₀ ∈ (splitSent (normalizedText t)).tail := by
              rw [← hflat, hgs]
              exact mem_tail_flatten (g₀ :: gtail)
                (fun x hx => hgne x (by rw [hgs]; exact hx)) (s₀ :: g₂) hg s₀ (by simp)
            have hnp := List.all_eq_true.mp k4 s₀ hs₀tail
            rw [notPunctHead] at hnp
            cases hhp : headIsPunct s₀
            · rfl
            · rw [hhp] at hnp
              exact absurd hnp (by decide)
      rcases p with _ | ⟨c, p₂⟩
      · rfl
      · show (!(isWS '\n' && isPunct c)) = true
        have hc : isPunct c = false := hphead
        rw [show isWS '\n' = true from rfl, hc, Bool.and_false]
        rfl

theorem ltOkCtx_cons_ne {c : Char} (rest : List Char) (g : Bool)
    (h : ¬(c = '<')) : ltOkCtx (c :: rest) g = ltOkCtx rest g := by
  have hunf : ltOkCtx (c :: rest) g =
      if c = '<' then
        (if headIsGt rest then ltOkCtx rest g else !g && !(rest.contains '>'))
      else ltOkCtx rest g := rfl
  rw [hunf, if_neg h]

theorem ltOkCtx_cons_lt (rest : List Char) (g : Bool) :
    ltOkCtx ('<' :: rest) g =
      if headIsGt rest then ltOkCtx rest g else (!g && !(rest.contains '>')) := by
  have hunf : ltOkCtx ('<' :: rest) g =
      if ('<' : Char) = '<' then
        (if headIsGt rest then ltOkCtx rest g else !g && !(rest.contains '>'))
      else ltOkCtx rest g := rfl
  rw [hunf, if_pos rfl]

theorem headIsGt_false_of_contains {b : List Char} (h : b.contains '>' = false) :
    headIsGt b = false := by
  rcases b with _ | ⟨d, b₂⟩
  · rfl
  · rw [contains_cons] at h
    rcases Bool.or_eq_false_iff.mp h with ⟨h1, _⟩
    show decide (d = '>') = false
    exact decide_eq_false (fun he => (beq_eq_false_iff_ne.mp h1) he.symm)

theorem ltOkCtx_no_gt : ∀ b : List Char, b.contains '>' = false →
    ltOkCtx b false = true := by
  intro b
  induction b with
  | nil => intro _; rfl
  | cons c rest ih =>
    intro h
    rw [contains_cons] at h
    rcases Bool.or_eq_false_iff.mp h with ⟨_, h2⟩
    by_cases hc : c = '<'
    · subst hc
      rw [ltOkCtx_cons_lt,
        if_neg (show ¬(headIsGt rest = true) from by
          rw [headIsGt_false_of_contains h2]; exact (by decide)), h2]
      rfl
    · rw [ltOkCtx_cons_ne _ _ hc]
      exact ih h2

theorem ltOkCtx_ws_skip : ∀ (w x : List Char) (g : Bool), w.all isWS = true →
    ltOkCtx (w ++ x) g = ltOkCtx x g := by
  intro w
  induction w with
  | nil => intro x g _; rfl
  | cons c w₂ ih =>
    intro x g h
    rw [List.all_cons, Bool.and_eq_true] at h
    rw [List.cons_append, ltOkCtx_cons_ne _ _ (ws_not_lt h.1)]
    exact ih x g h.2

theorem ltOkCtx_all_ws {w : List Char} (g : Bool) (h : w.all isWS = true) :
    ltOkCtx w g = true := by
  have h2 := ltOkCtx_ws_skip w [] g h
  rw [List.append_nil] at h2
  rw [h2]
  rfl

theorem ltOkCtx_mono : ∀ (l : List Char) (g : Bool), ltOkCtx l g = true →
    ltOkCtx l false = true := by
  intro l
  induction l with
  | nil => intro g _; rfl
  | cons c rest ih =>
    intro g h
    by_cases hc : c = '<'
    · subst hc
      rw [ltOkCtx_cons_lt] at h ⊢
      by_cases hg : headIsGt rest = true
      · rw [if_pos hg] at h ⊢
        exact ih g h
      · rw [if_neg hg] at h ⊢
        rw [Bool.and_eq_true] at h
        rw [h.2]
        rfl
    · rw [ltOkCtx_cons_ne _ _ hc] at h ⊢
      exact ih g h

theorem ltOkCtx_append : ∀ (a b : List Char) (g : Bool), headIsGt b = false →
    ltOkCtx (a ++ b) g = (ltOkCtx a (b.contains '>' || g) && ltOkCtx b g) := by
  intro a
  induction a with
  | nil =>
    intro b g _
    show ltOkCtx b g = (true && ltOkCtx b g)
    rw [Bool.true_and]
  | cons c a₂ ih =>
    intro b g hb
    by_cases hc : c = '<'
    · subst hc
      rcases a₂ with _ | ⟨d, a₃⟩
      · rw [List.cons_append, List.nil_append, ltOkCtx_cons_lt,
          if_neg (show ¬(headIsGt b = true) from by rw [hb]; exact (by decide)),
          ltOkCtx_cons_lt,
          if_neg (show ¬(headIsGt ([] : List Char) = true) from by decide)]
        cases hbc : b.contains '>'
        · cases g
          · simp [ltOkCtx_no_gt b hbc]
          · simp
        · simp
      · rw [List.cons_append, ltOkCtx_cons_lt, ltOkCtx_cons_lt]
        have hhg : headIsGt ((d :: a₃) ++ b) = headIsGt (d :: a₃) := rfl
        rw [hhg]
        by_cases hd : headIsGt (d :: a₃) = true
        · rw [if_pos hd, if_pos hd]
          exact ih b g hb
        · rw [if_neg hd, if_neg hd, contains_append]
          cases hbc : b.contains '>'
          · cases g
            · simp [ltOkCtx_no_gt b hbc]
            · simp
          · simp
    · rw [List.cons_append, ltOkCtx_cons_ne _ _ hc, ltOkCtx_cons_ne _ _ hc]
      exact ih b g hb

theorem anyGt_cons (p : List Char) (ls : List (List Char)) :
    anyGt (p :: ls) = (p.contains '>' || anyGt ls) := by
  rw [anyGt, anyGt, List.any_cons]

theorem anyGt_append (A B : List (List Char)) :
    anyGt (A ++ B) = (anyGt A || anyGt B) := by
  rw [anyGt, anyGt, anyGt, List.any_append]

theorem contains_joinWith {sep : List Char} (hsep : sep.contains '>' = false) :
    ∀ Ps : List (List Char), (joinWith sep Ps).contains '>' = anyGt Ps := by
  intro Ps
  induction Ps with
  | nil => rfl
  | cons p rest ih =>
    rcases rest with _ | ⟨q, rest₂⟩
    · show p.contains '>' = anyGt [p]
      rw [anyGt_cons]
      simp [anyGt]
    · rw [joinWith_cons₂, contains_append, contains_append, hsep, Bool.or_false,
        ih, anyGt_cons p (q :: rest₂)]

theorem anyGt_sublist {A B : List (List Char)} (hs : A.Sublist B)
    (h : anyGt A = true) : anyGt B = true := by
  rw [anyGt, List.any_eq_true] at h ⊢
  obtain ⟨x, hx, hgt⟩ := h
  exact ⟨x, hs.subset hx, hgt⟩

theorem headIsGt_ws_append {w : List Char} (x : List Char)
    (hws : w.all isWS = true) (hne : w ≠ []) : headIsGt (w ++ x) = false := by
  rcases w with _ | ⟨c, w₂⟩
  · exact absurd rfl hne
  · rw [List.all_cons, Bool.and_eq_true] at hws
    show decide (c = '>') = false
    exact decide_eq_false (ws_not_gt hws.1)

theorem linesOkCtx_cons (l : List Char) (ls : List (List Char)) (g : Bool) :
    linesOkCtx (l :: ls) g = (ltOkCtx l (anyGt ls || g) && linesOkCtx ls g) := rfl

theorem linesOk_joinWith {sep : List Char} (hsepws : sep.all isWS = true)
    (hsepne : sep ≠ []) :
    ∀ (Ps : List (List Char)) (g : Bool),
      ltOkCtx (joinWith sep Ps) g = linesOkCtx Ps g := by
  intro Ps
  induction Ps with
  | nil => intro g; rfl
  | cons p rest ih =>
    intro g
    rcases rest with _ | ⟨q, rest₂⟩
    · rw [linesOkCtx_cons, show anyGt [] = false from rfl, Bool.false_or,
        show linesOkCtx [] g = true from rfl, Bool.and_true]
      rfl
    · rw [joinWith_cons₂, List.append_assoc]
      have hsep2 : sep.contains '>' = false := contains_false_of_all_ws hsepws
      rw [ltOkCtx_append p (sep ++ joinWith sep (q :: rest₂)) g
        (headIsGt_ws_append _ hsepws hsepne)]
      rw [ltOkCtx_ws_skip sep _ g hsepws, contains_append, hsep2, Bool.false_or,
        contains_joinWith hsep2 (q :: rest₂), ih g, linesOkCtx_cons p (q :: rest₂) g]

theorem linesOkCtx_append : ∀ (A B : List (List Char)) (g : Bool),
    linesOkCtx (A ++ B) g = (linesOkCtx A (anyGt B || g) && linesOkCtx B g) := by
  intro A
  induction A with
  | nil =>
    intro B g
    show linesOkCtx B g = (true && linesOkCtx B g)
    rw [Bool.true_and]
  | cons l A₂ ih =>
    intro B g
    rw [List.cons_append, linesOkCtx_cons, linesOkCtx_cons, ih, anyGt_append,
      Bool.or_assoc, Bool.and_assoc]

theorem linesOkCtx_sublist : ∀ {A B : List (List Char)}, A.Sublist B → ∀ g : Bool,
    linesOkCtx B g = true → linesOkCtx A g = true := by
  intro A B hs
  induction hs with
  | slnil => intro g _; rfl
  | cons a hs2 ih =>
    intro g h
    rw [linesOkCtx_cons, Bool.and_eq_true] at h
    exact ih g h.2
  | cons₂ a hs2 ih =>
    intro g h
    rw [linesOkCtx_cons, Bool.and_eq_true] at h ⊢
    have h1 := h.1
    refine ⟨?_, ih g h.2⟩
    rename_i l₁ l₂
    cases hA1 : anyGt l₁
    · cases hA2 : anyGt l₂
      · rw [hA2] at h1
        exact h1
      · rw [hA2, Bool.true_or] at h1
        rw [Bool.false_or]
        cases g
        · exact ltOkCtx_mono a true h1
        · exact h1
    · have hA2 : anyGt l₂ = true := anyGt_sublist hs2 hA1
      rw [hA2] at h1
      exact h1

theorem contains_pyStrip (l : List Char) :
    (pyStrip l).contains '>' = l.contains '>' := by
  rcases pyStrip_decomp l with ⟨hdec, ha, hb⟩
  have h := congrArg (fun x => x.contains '>') hdec
  simp only at h
  rw [contains_append, contains_append, contains_false_of_all_ws ha,
    contains_false_of_all_ws hb, Bool.false_or, Bool.or_false] at h
  exact h.symm

theorem ltOkCtx_pyStrip (l : List Char) (g : Bool) :
    ltOkCtx (pyStrip l) g = ltOkCtx l g := by
  rcases pyStrip_decomp l with ⟨hdec, ha, hb⟩
  conv_rhs => rw [hdec]
  rw [List.append_assoc, ltOkCtx_ws_skip _ _ g ha]
  rcases hB : ((l.dropWhile isWS).reverse.takeWhile isWS).reverse with _ | ⟨c, B₂⟩
  · rw [List.append_nil]
  · have hb2 := hb
    rw [hB] at hb2
    have hgt : headIsGt (c :: B₂) = false := by
      rw [List.all_cons, Bool.and_eq_true] at hb2
      show decide (c = '>') = false
      exact decide_eq_false (ws_not_gt hb2.1)
    rw [ltOkCtx_append (pyStrip l) (c :: B₂) g hgt,
      contains_false_of_all_ws hb2, Bool.false_or, ltOkCtx_all_ws g hb2,
      Bool.and_true]

theorem anyGt_map_pyStrip : ∀ ls : List (List Char),
    anyGt (ls.map pyStrip) = anyGt ls := by
  intro ls
  induction ls with
  | nil => rfl
  | cons q qs ih =>
    rw [List.map_cons, anyGt_cons, anyGt_cons, contains_pyStrip, ih]

theorem linesOkCtx_map_pyStrip : ∀ (ls : List (List Char)) (g : Bool),
    linesOkCtx (ls.map pyStrip) g = linesOkCtx ls g := by
  intro ls
  induction ls with
  | nil => intro g; rfl
  | cons l ls₂ ih =>
    intro g
    rw [List.map_cons, linesOkCtx_cons, linesOkCtx_cons, ih, ltOkCtx_pyStrip,
      anyGt_map_pyStrip]

theorem anyGt_map_join {sep : List Char} (hsep : sep.contains '>' = false) :
    ∀ gs : List (List (List Char)),
      anyGt (gs.map (joinWith sep)) = anyGt gs.flatten := by
  intro gs
  induction gs with
  | nil => rfl
  | cons q qs ih =>
    rw [List.map_cons, anyGt_cons, contains_joinWith hsep, ih,
      show (q :: qs).flatten = q ++ qs.flatten from rfl, anyGt_append]

theorem linesOkCtx_map_flatten {sep : List Char} (hsepws : sep.all isWS = true)
    (hsepne : sep ≠ []) :
    ∀ (gs : List (List (List Char))) (g : Bool),
      linesOkCtx (gs.map (joinWith sep)) g = linesOkCtx gs.flatten g := by
  intro gs
  induction gs with
  | nil => intro g; rfl
  | cons g₀ gs₂ ih =>
    intro g
    rw [List.map_cons, linesOkCtx_cons,
      show (g₀ :: gs₂).flatten = g₀ ++ gs₂.flatten from rfl,
      linesOkCtx_append, ← ih, linesOk_joinWith hsepws hsepne g₀,
      anyGt_map_join (contains_false_of_all_ws hsepws)]

theorem processLines_sublist : ∀ (ls acc : List (List Char)),
    (processLines acc ls).Sublist (acc.reverse ++ ls.map pyStrip) := by
  intro ls
  induction ls with
  | nil =>
    intro acc
    have h1 : processLines acc [] = acc.reverse := rfl
    rw [h1, show List.map pyStrip ([] : List (List Char)) = [] from rfl,
      List.append_nil]
  | cons l rest ih =>
    intro acc
    rcases acc with _ | ⟨a, acc₂⟩
    · have hunf : processLines [] (l :: rest) =
          if pyStrip l = [] then processLines [] rest
          else processLines [pyStrip l] rest := rfl
      rw [hunf, List.map_cons]
      by_cases hs : pyStrip l = []
      · rw [if_pos hs]
        exact (ih []).trans (List.Sublist.cons _ (List.Sublist.refl _))
      · rw [if_neg hs]
        exact ih [pyStrip l]
    · have hunf : processLines (a :: acc₂) (l :: rest) =
          if pyStrip l = [] then processLines (a :: acc₂) rest
          else if pyStrip l = a then processLines (a :: acc₂) rest
          else processLines (pyStrip l :: a :: acc₂) rest := rfl
      rw [hunf, List.map_cons]
      by_cases hs : pyStrip l = []
      · rw [if_pos hs]
        exact (ih (a :: acc₂)).trans
          (List.Sublist.append_left (List.Sublist.cons _ (List.Sublist.refl _)) _)
      · rw [if_neg hs]
        by_cases he : pyStrip l = a
        · rw [if_pos he]
          exact (ih (a :: acc₂)).trans
            (List.Sublist.append_left (List.Sublist.cons _ (List.Sublist.refl _)) _)
        · rw [if_neg he]
          refine (ih (pyStrip l :: a :: acc₂)).trans ?_
          rw [show (pyStrip l :: a :: acc₂).reverse =
              (a :: acc₂).reverse ++ [pyStrip l] from by simp, List.append_assoc]
          exact List.Sublist.refl _

theorem removeTagsA_no_gt : ∀ l : List Char, l.contains '>' = false →
    removeTagsA none l = l ∧
    (∀ pend : List Char, removeTagsA (some pend) l = '<' :: pend.reverse ++ l) := by
  intro l
  induction l with
  | nil =>
    intro _
    constructor
    · rfl
    · intro pend
      have hunf : removeTagsA (some pend) [] = '<' :: pend.reverse := rfl
      rw [hunf, List.append_nil]
  | cons c rest ih =>
    intro h
    rw [contains_cons] at h
    rcases Bool.or_eq_false_iff.mp h with ⟨h1, h2⟩
    have hcne : ¬(c = '>') := fun he => (beq_eq_false_iff_ne.mp h1) he.symm
    obtain ⟨ihA, ihB⟩ := ih h2
    constructor
    · have hunf : removeTagsA none (c :: rest) =
          if c = '<' then removeTagsA (some []) rest
          else c :: removeTagsA none rest := rfl
      rw [hunf]
      by_cases hc : c = '<'
      · rw [if_pos hc, ihB [], hc]
        rfl
      · rw [if_neg hc, ihA]
    · intro pend
      have hunf : removeTagsA (some pend) (c :: rest) =
          if c = '>' then
            (if pend = [] then '<' :: '>' :: removeTagsA none rest
             else removeTagsA none rest)
          else removeTagsA (some (c :: pend)) rest := rfl
      rw [hunf, if_neg hcne, ihB (c :: pend)]
      simp

theorem removeCTagsA_no_gt : ∀ l : List Char, l.contains '>' = false →
    ∀ s : Nat, s ≤ 4 → removeCTagsA s l = ctagPend s ++ l := by
  intro l
  induction l with
  | nil =>
    intro _ s hs
    rcases s with _ | _ | _ | _ | s₄
    · rfl
    · rfl
    · rfl
    · rfl
    · have h0 : s₄ = 0 := by omega
      subst h0
      rfl
  | cons c rest ih =>
    intro h s hs
    rw [contains_cons] at h
    rcases Bool.or_eq_false_iff.mp h with ⟨h1, h2⟩
    have hcne : ¬(c = '>') := fun he => (beq_eq_false_iff_ne.mp h1) he.symm
    have ih2 := ih h2
    have hdisp : (if c = '<' then removeCTagsA 1 rest
        else c :: removeCTagsA 0 rest) = c :: rest := by
      by_cases hc : c = '<'
      · rw [if_pos hc, ih2 1 (by omega), hc]
        rfl
      · rw [if_neg hc, ih2 0 (by omega)]
        rfl
    rcases s with _ | _ | _ | _ | s₄
    · have hunf : removeCTagsA 0 (c :: rest) =
          (if c = '<' then removeCTagsA 1 rest else c :: removeCTagsA 0 rest) := rfl
      rw [hunf, hdisp]
      rfl
    · have hunf : removeCTagsA 1 (c :: rest) =
          if c = '/' then removeCTagsA 2 rest
          else if c = 'c' then removeCTagsA 3 rest
          else ctagPend 1 ++
            (if c = '<' then removeCTagsA 1 rest else c :: removeCTagsA 0 rest) := rfl
      rw [hunf]
      by_cases hsl : c = '/'
      · rw [if_pos hsl, ih2 2 (by omega), hsl]
        rfl
      · rw [if_neg hsl]
        by_cases hcc : c = 'c'
        · rw [if_pos hcc, ih2 3 (by omega), hcc]
          rfl
        · rw [if_neg hcc, hdisp]
    · have hunf : removeCTagsA 2 (c :: rest) =
          if c = 'c' then removeCTagsA 4 rest
          else ctagPend 2 ++
            (if c = '<' then removeCTagsA 1 rest else c :: removeCTagsA 0 rest) := rfl
      rw [hunf]
      by_cases hcc : c = 'c'
      · rw [if_pos hcc, ih2 4 (by omega), hcc]
        rfl
      · rw [if_neg hcc, hdisp]
    · have hunf : removeCTagsA 3 (c :: rest) =
          if c = '>' then removeCTagsA 0 rest
          else ctagPend 3 ++
            (if c = '<' then removeCTagsA 1 rest else c :: removeCTagsA 0 rest) := rfl
      rw [hunf, if_neg hcne, hdisp]
    · have hs4 : s₄ = 0 := by omega
      subst hs4
      have hunf : removeCTagsA 4 (c :: rest) =
          if c = '>' then removeCTagsA 0 rest
          else ctagPend 4 ++
            (if c = '<' then removeCTagsA 1 rest else c :: removeCTagsA 0 rest) := rfl
      rw [hunf, if_neg hcne, hdisp]

theorem removeTsA_no_gt : ∀ l : List Char, l.contains '>' = false →
    (removeTsA none l = l) ∧
    (∀ (i : Nat) (pend : List Char),
      removeTsA (some (i, pend)) l = '<' :: pend.reverse ++ l) := by
  intro l
  induction l with
  | nil =>
    intro _
    constructor
    · rfl
    · intro i pend
      have hunf : removeTsA (some (i, pend)) [] = '<' :: pend.reverse := rfl
      rw [hunf, List.append_nil]
  | cons c rest ih =>
    intro h
    rw [contains_cons] at h
    rcases Bool.or_eq_false_iff.mp h with ⟨h1, h2⟩
    have hcne : ¬(c = '>') := fun he => (beq_eq_false_iff_ne.mp h1) he.symm
    obtain ⟨ihA, ihB⟩ := ih h2
    have hdisp : (if c = '<' then removeTsA (some (0, [])) rest
        else c :: removeTsA none rest) = c :: rest := by
      by_cases hc : c = '<'
      · rw [if_pos hc, ihB 0 [], hc]
        rfl
      · rw [if_neg hc, ihA]
    constructor
    · have hunf : removeTsA none (c :: rest) =
          if c = '<' then removeTsA (some (0, [])) rest
          else c :: removeTsA none rest := rfl
      rw [hunf, hdisp]
    · intro i pend
      have hunf : removeTsA (some (i, pend)) (c :: rest) =
          if expectTs i c then
            (if i = 12 then removeTsA none rest
             else removeTsA (some (i + 1, c :: pend)) rest)
          else ('<' :: pend.reverse) ++
            (if c = '<' then removeTsA (some (0, [])) rest
             else c :: removeTsA none rest) := rfl
      rw [hunf]
      by_cases he : expectTs i c = true
      · rw [if_pos he]
        have hi : ¬(i = 12) := by
          intro hi
          subst hi
          have hgt : decide (c = '>') = true := he
          exact hcne (of_decide_eq_true hgt)
        rw [if_neg hi, ihB (i + 1) (c :: pend)]
        simp
      · rw [if_neg he, hdisp]

theorem removeTsA_id : ∀ n : Nat, ∀ l : List Char, l.length ≤ n →
    ltOkCtx l false = true → removeTsA none l = l := by
  intro n
  induction n with
  | zero =>
    intro l hlen _
    have hl : l = [] := List.eq_nil_of_length_eq_zero (Nat.le_zero.mp hlen)
    subst hl
    rfl
  | succ n ihn =>
    intro l hlen hok
    rcases l with _ | ⟨c, rest⟩
    · rfl
    · have hunf : removeTsA none (c :: rest) =
          if c = '<' then removeTsA (some (0, [])) rest
          else c :: removeTsA none rest := rfl
      rw [hunf]
      by_cases hc : c = '<'
      · rw [if_pos hc]
        subst hc
        rw [ltOkCtx_cons_lt] at hok
        by_cases hg : headIsGt rest = true
        · rw [if_pos hg] at hok
          rcases rest with _ | ⟨d, r⟩
          · exact absurd hg (by decide)
          · have hd : d = '>' := of_decide_eq_true hg
            subst hd
            have hstep : removeTsA (some ((0 : Nat), ([] : List Char))) ('>' :: r) =
                '<' :: '>' :: removeTsA none r := rfl
            rw [hstep, ihn r (by
                have := hlen
                simp [List.length_cons] at this
                omega) (by
                rw [ltOkCtx_cons_ne _ _ (show ¬(('>' : Char) = '<') from by decide)] at hok
                exact hok)]
        · rw [if_neg hg, Bool.and_eq_true] at hok
          have hrc : rest.contains '>' = false := by
            have hok2 := hok.2
            cases hx : rest.contains '>'
            · rfl
            · rw [hx] at hok2
              exact absurd hok2 (by decide)
          rw [(removeTsA_no_gt rest hrc).2 0 []]
          rfl
      · rw [if_neg hc]
        rw [ltOkCtx_cons_ne _ _ hc] at hok
        rw [ihn rest (by
            have := hlen
            simp [List.length_cons] at this
            omega) hok]

theorem removeCTagsA_id : ∀ n : Nat, ∀ l : List Char, l.length ≤ n →
    ltOkCtx l false = true → removeCTagsA 0 l = l := by
  intro n
  induction n with
  | zero =>
    intro l hlen _
    have hl : l = [] := List.eq_nil_of_length_eq_zero (Nat.le_zero.mp hlen)
    subst hl
    rfl
  | succ n ihn =>
    intro l hlen hok
    rcases l with _ | ⟨c, rest⟩
    · rfl
    · have hunf : removeCTagsA 0 (c :: rest) =
          if c = '<' then removeCTagsA 1 rest else c :: removeCTagsA 0 rest := rfl
      rw [hunf]
      by_cases hc : c = '<'
      · rw [if_pos hc]
        subst hc
        rw [ltOkCtx_cons_lt] at hok
        by_cases hg : headIsGt rest = true
        · rw [if_pos hg] at hok
          rcases rest with _ | ⟨d, r⟩
          · exact absurd hg (by decide)
          · have hd : d = '>' := of_decide_eq_true hg
            subst hd
            have hstep : removeCTagsA 1 ('>' :: r) =
                '<' :: '>' :: removeCTagsA 0 r := rfl
            rw [hstep, ihn r (by
                have := hlen
                simp [List.length_cons] at this
                omega) (by
                rw [ltOkCtx_cons_ne _ _ (show ¬(('>' : Char) = '<') from by decide)] at hok
                exact hok)]
        · rw [if_neg hg, Bool.and_eq_true] at hok
          have hrc : rest.contains '>' = false := by
            have hok2 := hok.2
            cases hx : rest.contains '>'
            · rfl
            · rw [hx] at hok2
              exact absurd hok2 (by decide)
          rw [removeCTagsA_no_gt rest hrc 1 (by omega)]
          rfl
      · rw [if_neg hc]
        rw [ltOkCtx_cons_ne _ _ hc] at hok
        rw [ihn rest (by
            have := hlen
            simp [List.length_cons] at this
            omega) hok]

theorem removeTagsA_id : ∀ n : Nat, ∀ l : List Char, l.length ≤ n →
    ltOkCtx l false = true → removeTagsA none l = l := by
  intro n
  induction n with
  | zero =>
    intro l hlen _
    have hl : l = [] := List.eq_nil_of_length_eq_zero (Nat.le_zero.mp hlen)
    subst hl
    rfl
  | succ n ihn =>
    intro l hlen hok
    rcases l with _ | ⟨c, rest⟩
    · rfl
    · have hunf : removeTagsA none (c :: rest) =
          if c = '<' then removeTagsA (some []) rest
          else c :: removeTagsA none rest := rfl
      rw [hunf]
      by_cases hc : c = '<'
      · rw [if_pos hc]
        subst hc
        rw [ltOkCtx_cons_lt] at hok
        by_cases hg : headIsGt rest = true
        · rw [if_pos hg] at hok
          rcases rest with _ | ⟨d, r⟩
          · exact absurd hg (by decide)
          · have hd : d = '>' := of_decide_eq_true hg
            subst hd
            have hstep : removeTagsA (some ([] : List Char)) ('>' :: r) =
                '<' :: '>' :: removeTagsA none r := rfl
            rw [hstep, ihn r (by
                have := hlen
                simp [List.length_cons] at this
                omega) (by
                rw [ltOkCtx_cons_ne _ _ (show ¬(('>' : Char) = '<') from by decide)] at hok
                exact hok)]
        · rw [if_neg hg, Bool.and_eq_true] at hok
          have hrc : rest.contains '>' = false := by
            have hok2 := hok.2
            cases hx : rest.contains '>'
            · rfl
            · rw [hx] at hok2
              exact absurd hok2 (by decide)
          rw [(removeTagsA_no_gt rest hrc).2 []]
          rfl
      · rw [if_neg hc]
        rw [ltOkCtx_cons_ne _ _ hc] at hok
        rw [ihn rest (by
            have := hlen
            simp [List.length_cons] at this
            omega) hok]

theorem steps123_id {l : List Char} (h : ltOkB l = true) : steps123 l = l := by
  have h1 : removeTimestamps l = l := removeTsA_id l.length l le_rfl h
  have h2 : removeCTags l = l := removeCTagsA_id l.length l le_rfl h
  have h3 : removeTags l = l := removeTagsA_id l.length l le_rfl h
  rw [steps123, h1, h2, h3]

theorem removeTagsA_ltOk : ∀ l : List Char,
    ltOkB (removeTagsA none l) = true ∧
    (∀ pend : List Char, pend.contains '>' = false →
      ltOkB (removeTagsA (some pend) l) = true) := by
  intro l
  induction l with
  | nil =>
    constructor
    · rfl
    · intro pend hp
      show ltOkCtx (removeTagsA (some pend) []) false = true
      have hunf : removeTagsA (some pend) [] = '<' :: pend.reverse := rfl
      have hrp : pend.reverse.contains '>' = false := by
        refine contains_false_of_all ?_
        intro d hd
        exact ne_of_contains_false hp d (List.mem_reverse.mp hd)
      rw [hunf, ltOkCtx_cons_lt,
        if_neg (show ¬(headIsGt pend.reverse = true) from by
          rw [headIsGt_false_of_contains hrp]; exact (by decide)), hrp]
      rfl
  | cons c rest ih =>
    obtain ⟨ihA, ihB⟩ := ih
    constructor
    · have hunf : removeTagsA none (c :: rest) =
          if c = '<' then removeTagsA (some []) rest
          else c :: removeTagsA none rest := rfl
      rw [hunf]
      by_cases hc : c = '<'
      · rw [if_pos hc]
        exact ihB [] rfl
      · rw [if_neg hc]
        show ltOkCtx (c :: removeTagsA none rest) false = true
        rw [ltOkCtx_cons_ne _ _ hc]
        exact ihA
    · intro pend hp
      have hunf : removeTagsA (some pend) (c :: rest) =
          if c = '>' then
            (if pend = [] then '<' :: '>' :: removeTagsA none rest
             else removeTagsA none rest)
          else removeTagsA (some (c :: pend)) rest := rfl
      rw [hunf]
      by_cases hc : c = '>'
      · rw [if_pos hc]
        by_cases hpe : pend = []
        · rw [if_pos hpe]
          show ltOkCtx ('<' :: '>' :: removeTagsA none rest) false = true
          rw [ltOkCtx_cons_lt,
            if_pos (show headIsGt ('>' :: removeTagsA none rest) = true from rfl),
            ltOkCtx_cons_ne _ _ (show ¬(('>' : Char) = '<') from by decide)]
          exact ihA
        · rw [if_neg hpe]
          exact ihA
      · rw [if_neg hc]
        refine ihB (c :: pend) ?_
        rw [contains_cons, hp, Bool.or_false]
        exact beq_eq_false_iff_ne.mpr (fun he => hc he.symm)

theorem bnot_true_eq_false {b : Bool} (h : (!b) = true) : b = false := by
  cases b
  · rfl
  · exact absurd h (by decide)

theorem all_ne_of_contains_false {c : Char} {l : List Char}
    (h : l.contains c = false) : l.all (fun d => !(d = c)) = true := by
  rw [List.all_eq_true]
  intro d hd
  show (!decide (d = c)) = true
  rw [decide_eq_false (ne_of_contains_false h d hd)]
  rfl

theorem contains_false_of_all_ne {c : Char} {l : List Char}
    (h : l.all (fun d => !(d = c)) = true) : l.contains c = false := by
  refine contains_false_of_all ?_
  intro d hd
  have h2 : (!decide (d = c)) = true := List.all_eq_true.mp h d hd
  intro he
  rw [he] at h2
  simp at h2

theorem collapse_ltOk : ∀ (l : List Char) (g : Bool), ltOkCtx l g = true →
    ltOkCtx (collapseWS l) g = true := by
  intro l
  induction l with
  | nil => intro g _; rfl
  | cons c rest ih =>
    intro g h
    have hunf : collapseWS (c :: rest) =
        if isWS c then
          (if headIsWS rest then collapseWS rest else ' ' :: collapseWS rest)
        else c :: collapseWS rest := rfl
    rw [hunf]
    by_cases hws : isWS c = true
    · rw [if_pos hws]
      have h2 : ltOkCtx rest g = true := by
        rw [ltOkCtx_cons_ne _ _ (ws_not_lt hws)] at h
        exact h
      by_cases hh : headIsWS rest = true
      · rw [if_pos hh]
        exact ih g h2
      · rw [if_neg hh]
        rw [ltOkCtx_cons_ne _ _ (ws_not_lt (show isWS ' ' = true from rfl))]
        exact ih g h2
    · rw [if_neg hws]
      by_cases hc : c = '<'
      · subst hc
        rw [ltOkCtx_cons_lt] at h
        rw [ltOkCtx_cons_lt]
        by_cases hg : headIsGt rest = true
        · rw [if_pos hg] at h
          rcases rest with _ | ⟨d, r⟩
          · exact absurd hg (by decide)
          · have hd : d = '>' := of_decide_eq_true hg
            subst hd
            have hcol : collapseWS ('>' :: r) = '>' :: collapseWS r := by
              have hu2 : collapseWS ('>' :: r) =
                  if isWS '>' then
                    (if headIsWS r then collapseWS r else ' ' :: collapseWS r)
                  else '>' :: collapseWS r := rfl
              rw [hu2, if_neg (show ¬(isWS ('>' : Char) = true) from by decide)]
            have h4 := ih g h
            rw [hcol] at h4
            rw [hcol, if_pos (show headIsGt ('>' :: collapseWS r) = true from rfl)]
            exact h4
        · rw [if_neg hg, Bool.and_eq_true] at h
          have hrc : rest.contains '>' = false := bnot_true_eq_false h.2
          have hcc : (collapseWS rest).contains '>' = false :=
            contains_false_of_all_ne
              (collapse_all (by decide) rest (all_ne_of_contains_false hrc))
          rw [if_neg (show ¬(headIsGt (collapseWS rest) = true) from by
              rw [headIsGt_false_of_contains hcc]; exact (by decide)), hcc, h.1]
          rfl
      · rw [ltOkCtx_cons_ne _ _ hc] at h
        rw [ltOkCtx_cons_ne _ _ hc]
        exact ih g h

theorem fixPunctA_ltOk : ∀ (l pend : List Char) (g : Bool),
    pend.all isWS = true → ltOkCtx l g = true →
    ltOkCtx (fixPunctA pend l) g = true := by
  intro l
  induction l with
  | nil =>
    intro pend g hp _
    have hu : fixPunctA pend [] = pend.reverse := rfl
    rw [hu]
    exact ltOkCtx_all_ws g (by rw [List.all_reverse]; exact hp)
  | cons c rest ih =>
    intro pend g hp h
    have hunf : fixPunctA pend (c :: rest) =
        if isWS c then fixPunctA (c :: pend) rest
        else if isPunct c && !pend.isEmpty then c :: fixPunctA [] rest
        else pend.reverse ++ c :: fixPunctA [] rest := rfl
    rw [hunf]
    by_cases hws : isWS c = true
    · rw [if_pos hws]
      refine ih (c :: pend) g (by rw [List.all_cons, hws, hp]; rfl) ?_
      rw [ltOkCtx_cons_ne _ _ (ws_not_lt hws)] at h
      exact h
    · rw [if_neg hws]
      by_cases hc : c = '<'
      · subst hc
        rw [if_neg (show ¬((isPunct '<' && !pend.isEmpty) = true) from by
            rw [show isPunct '<' = false from rfl, Bool.false_and]
            exact (by decide))]
        rw [ltOkCtx_ws_skip _ _ g (by rw [List.all_reverse]; exact hp)]
        rw [ltOkCtx_cons_lt] at h
        rw [ltOkCtx_cons_lt]
        by_cases hg : headIsGt rest = true
        · rw [if_pos hg] at h
          rcases rest with _ | ⟨d, r⟩
          · exact absurd hg (by decide)
          · have hd : d = '>' := of_decide_eq_true hg
            subst hd
            have hfp : fixPunctA [] ('>' :: r) = '>' :: fixPunctA [] r := by
              have hu2 : fixPunctA [] ('>' :: r) =
                  if isWS '>' then fixPunctA ['>'] r
                  else if isPunct '>' && !([] : List Char).isEmpty then
                    '>' :: fixPunctA [] r
                  else List.reverse [] ++ '>' :: fixPunctA [] r := rfl
              rw [hu2, if_neg (show ¬(isWS ('>' : Char) = true) from by decide),
                if_neg (show ¬((isPunct '>' && !([] : List Char).isEmpty) = true) from
                  by decide)]
              rfl
            have h3 := ih [] g rfl h
            rw [hfp] at h3
            rw [hfp, if_pos (show headIsGt ('>' :: fixPunctA [] r) = true from rfl)]
            exact h3
        · rw [if_neg hg, Bool.and_eq_true] at h
          have hrc : rest.contains '>' = false := bnot_true_eq_false h.2
          have hcc : (fixPunctA [] rest).contains '>' = false :=
            contains_false_of_all_ne
              (fixPunctA_all rest [] (all_ne_of_contains_false hrc) rfl)
          rw [if_neg (show ¬(headIsGt (fixPunctA [] rest) = true) from by
              rw [headIsGt_false_of_contains hcc]; exact (by decide)), hcc, h.1]
          rfl
      · rw [ltOkCtx_cons_ne _ _ hc] at h
        by_cases hpc : (isPunct c && !pend.isEmpty) = true
        · rw [if_pos hpc, ltOkCtx_cons_ne _ _ hc]
          exact ih [] g rfl h
        · rw [if_neg hpc,
            ltOkCtx_ws_skip _ _ g (by rw [List.all_reverse]; exact hp),
            ltOkCtx_cons_ne _ _ hc]
          exact ih [] g rfl h

theorem fixSentA_ltOk : ∀ l : List Char,
    (∀ g : Bool, ltOkCtx l g = true → ltOkCtx (fixSentA none l) g = true) ∧
    (∀ (t : Char) (pend : List Char) (g : Bool), isTerm t = true →
      pend.all isWS = true → ltOkCtx (t :: pend.reverse ++ l) g = true →
      ltOkCtx (fixSentA (some (t, pend)) l) g = true) := by
  intro l
  induction l with
  | nil =>
    refine ⟨fun g _ => rfl, fun t pend g ht hp h => ?_⟩
    rw [fixSentA]
    rw [List.append_nil] at h
    exact h
  | cons c rest ih =>
    obtain ⟨ihA, ihB⟩ := ih
    constructor
    · intro g h
      by_cases hterm : isTerm c = true
      · rw [fixSentA, if_pos hterm]
        exact ihB c [] g hterm rfl h
      · rw [fixSentA_none_nonterm _ (eq_false_of_ne_true hterm)]
        by_cases hc : c = '<'
        · subst hc
          rw [ltOkCtx_cons_lt] at h
          rw [ltOkCtx_cons_lt]
          by_cases hg : headIsGt rest = true
          · rw [if_pos hg] at h
            rcases rest with _ | ⟨d, r⟩
            · exact absurd hg (by decide)
            · have hd : d = '>' := of_decide_eq_true hg
              subst hd
              have hfs : fixSentA none ('>' :: r) = '>' :: fixSentA none r :=
                fixSentA_none_nonterm _ (show isTerm '>' = false from rfl)
              have h3 := ihA g h
              rw [hfs] at h3
              rw [hfs, if_pos (show headIsGt ('>' :: fixSentA none r) = true from rfl)]
              exact h3
          · rw [if_neg hg, Bool.and_eq_true] at h
            have hrc : rest.contains '>' = false := bnot_true_eq_false h.2
            have hcc : (fixSentA none rest).contains '>' = false :=
              contains_false_of_all_ne
                ((fixSentA_all (by decide) rest).1 (all_ne_of_contains_false hrc))
            rw [if_neg (show ¬(headIsGt (fixSentA none rest) = true) from by
                rw [headIsGt_false_of_contains hcc]; exact (by decide)), hcc, h.1]
            rfl
        · rw [ltOkCtx_cons_ne _ _ hc] at h
          rw [ltOkCtx_cons_ne _ _ hc]
          exact ihA g h
    · intro t pend g ht hp h
      have htne : ¬(t = '<') := by
        intro he
        rw [he] at ht
        exact absurd ht (by decide)
      have hskip : ltOkCtx (c :: rest) g = true := by
        rw [List.cons_append, ltOkCtx_cons_ne _ _ htne,
          ltOkCtx_ws_skip _ _ g (by rw [List.all_reverse]; exact hp)] at h
        exact h
      rw [fixSentA]
      by_cases hws : isWS c = true
      · rw [if_pos hws]
        refine ihB t (c :: pend) g ht (by rw [List.all_cons, hws, hp]; rfl) ?_
        have hre : (t :: (c :: pend).reverse) ++ rest = (t :: pend.reverse) ++ c :: rest := by
          simp
        rw [hre]
        exact h
      · rw [if_neg hws]
        by_cases hup : isUpperC c = true
        · rw [if_pos hup]
          have hcne : ¬(c = '<') := by
            intro he
            rw [he] at hup
            exact absurd hup (by decide)
          rw [ltOkCtx_cons_ne _ _ htne,
            ltOkCtx_cons_ne _ _ (ws_not_lt (show isWS ' ' = true from rfl)),
            ltOkCtx_cons_ne _ _ hcne]
          rw [ltOkCtx_cons_ne _ _ hcne] at hskip
          exact ihA g hskip
        · rw [if_neg hup]
          by_cases hterm : isTerm c = true
          · rw [if_pos hterm]
            rw [List.cons_append, ltOkCtx_cons_ne _ _ htne,
              ltOkCtx_ws_skip _ _ g (by rw [List.all_reverse]; exact hp)]
            exact ihB c [] g hterm rfl hskip
          · rw [if_neg hterm]
            rw [List.cons_append, ltOkCtx_cons_ne _ _ htne,
              ltOkCtx_ws_skip _ _ g (by rw [List.all_reverse]; exact hp)]
            by_cases hc : c = '<'
            · subst hc
              rw [ltOkCtx_cons_lt] at hskip
              rw [ltOkCtx_cons_lt]
              by_cases hg : headIsGt rest = true
              · rw [if_pos hg] at hskip
                rcases rest with _ | ⟨d, r⟩
                · exact absurd hg (by decide)
                · have hd : d = '>' := of_decide_eq_true hg
                  subst hd
                  have hfs : fixSentA none ('>' :: r) = '>' :: fixSentA none r :=
                    fixSentA_none_nonterm _ (show isTerm '>' = false from rfl)
                  have h3 := ihA g hskip
                  rw [hfs] at h3
                  rw [hfs,
                    if_pos (show headIsGt ('>' :: fixSentA none r) = true from rfl)]
                  exact h3
              · rw [if_neg hg, Bool.and_eq_true] at hskip
                have hrc : rest.contains '>' = false := bnot_true_eq_false hskip.2
                have hcc : (fixSentA none rest).contains '>' = false :=
                  contains_false_of_all_ne
                    ((fixSentA_all (by decide) rest).1 (all_ne_of_contains_false hrc))
                rw [if_neg (show ¬(headIsGt (fixSentA none rest) = true) from by
                    rw [headIsGt_false_of_contains hcc]; exact (by decide)), hcc,
                  hskip.1]
                rfl
            · rw [ltOkCtx_cons_ne _ _ hc] at hskip
              rw [ltOkCtx_cons_ne _ _ hc]
              exact ihA g hskip

theorem pieces_all (t : List Char) (hL : step4Lines t ≠ []) {p : Char → Bool}
    (h8 : (normalizedText t).all p = true) :
    ∀ s ∈ splitSent (normalizedText t), s.all p = true := by
  obtain ⟨k1, _, _⟩ := sentences_props t hL
  intro s hs
  obtain ⟨a, b, hab⟩ := joinWith_infix [' '] _ s hs
  rw [k1] at hab
  rw [hab, List.all_append, List.all_append, Bool.and_eq_true, Bool.and_eq_true] at h8
  exact h8.2.1

theorem pieces_pairs (t : List Char) (hL : step4Lines t ≠ [])
    {f : Char → Char → Bool} (h8 : pairsOk f (normalizedText t) = true) :
    ∀ s ∈ splitSent (normalizedText t), pairsOk f s = true := by
  obtain ⟨k1, _, _⟩ := sentences_props t hL
  intro s hs
  obtain ⟨a, b, hab⟩ := joinWith_infix [' '] _ s hs
  rw [k1] at hab
  rw [hab] at h8
  exact pairsOk_append_left s (pairsOk_append_right h8)

theorem paragraphs_strip_props (t : List Char) (hL : step4Lines t ≠ []) :
    ∀ p ∈ paragraphsOf t, p ≠ [] ∧ onlySpaceWS p = true ∧ noDubWS p = true ∧
      headIsWS p = false ∧ lastNonWS p = true := by
  obtain ⟨hflat, hgne, hmap⟩ := groups_props t hL
  obtain ⟨k1, k2, _⟩ := sentences_props t hL
  obtain ⟨_, h8sp, h8dub, _, _, _, _⟩ := normalized_props t hL
  intro p hp
  rw [hmap] at hp
  obtain ⟨g, hg, hgp⟩ := List.mem_map.mp hp
  subst hgp
  have hmemP : ∀ s ∈ g, s ∈ splitSent (normalizedText t) := by
    intro s hs
    rw [← hflat]
    exact List.mem_flatten.mpr ⟨g, hg, hs⟩
  have hne : joinSpace g ≠ [] :=
    joinWith_ne_nil (fun s hs => (k2 s (hmemP s hs)).1) (hgne g hg)
  refine ⟨hne, ?_, ?_, ?_, ?_⟩
  · exact all_joinWith [' '] (by decide) g
      (fun s hs => pieces_all t hL h8sp s (hmemP s hs))
  · refine pairsOk_joinWith [' '] (List.cons_ne_nil _ _) g
      (fun s hs => (k2 s (hmemP s hs)).1)
      (fun s hs => pieces_pairs t hL h8dub s (hmemP s hs)) rfl ?_ ?_
    · intro s hs
      rcases hgl : s.getLast? with _ | x
      · rw [lastOk, hgl]
      · rw [lastOk, hgl]
        show (!(isWS x && isWS ' ')) = true
        have hln := (k2 s (hmemP s hs)).2.2
        rw [lastNonWS, hgl] at hln
        rw [show isWS ' ' = true from rfl, Bool.and_true]
        exact hln
    · intro s hs
      have hsg : s ∈ g := List.mem_of_mem_tail hs
      have hhw := (k2 s (hmemP s hsg)).2.1
      rcases s with _ | ⟨c, s₂⟩
      · rfl
      · show (!(isWS ' ' && isWS c)) = true
        have hcw : isWS c = false := hhw
        rw [show isWS ' ' = true from rfl, Bool.true_and, hcw]
        rfl
  · rcases g with _ | ⟨s₀, g₂⟩
    · exact absurd rfl (hgne [] hg)
    · have hs₀ := k2 s₀ (hmemP s₀ (by simp))
      rw [show joinSpace (s₀ :: g₂) = joinWith [' '] (s₀ :: g₂) from rfl,
        headIsWS_joinWith hs₀.1]
      exact hs₀.2.1
  · rw [show joinSpace g = joinWith [' '] g from rfl]
    refine lastNonWS_joinWith ?_ ?_ (hgne g hg)
    · intro x hx
      exact (k2 x (hmemP x hx)).1
    · intro x hx
      exact (k2 x (hmemP x hx)).2.2

theorem splitOnNl_noNl : ∀ p : List Char, noNl p = true → splitOnNl p = [p] := by
  intro p
  induction p with
  | nil => intro _; rfl
  | cons a p₂ ih =>
    intro h
    have ha : ¬(a = '\n') := noNl_head_ne h
    have hunf : splitOnNl (a :: p₂) =
        if a = '\n' then [] :: splitOnNl p₂
        else match splitOnNl p₂ with
          | h :: t => (a :: h) :: t
          | [] => [[a]] := rfl
    rw [hunf, if_neg ha, ih (noNl_tail h)]

theorem splitOnNl_append_nl : ∀ (p z : List Char), noNl p = true →
    splitOnNl (p ++ '\n' :: z) = p :: splitOnNl z := by
  intro p
  induction p with
  | nil =>
    intro z _
    have hunf : splitOnNl (('\n' : Char) :: z) =
        if ('\n' : Char) = '\n' then [] :: splitOnNl z
        else match splitOnNl z with
          | h :: t => ('\n' :: h) :: t
          | [] => [['\n']] := rfl
    show splitOnNl (('\n' : Char) :: z) = [] :: splitOnNl z
    rw [hunf, if_pos rfl]
  | cons a p₂ ih =>
    intro z h
    have ha : ¬(a = '\n') := noNl_head_ne h
    have hunf : splitOnNl ((a :: p₂) ++ '\n' :: z) =
        if a = '\n' then [] :: splitOnNl (p₂ ++ '\n' :: z)
        else match splitOnNl (p₂ ++ '\n' :: z) with
          | h :: t => (a :: h) :: t
          | [] => [[a]] := rfl
    rw [hunf, if_neg ha, ih z (noNl_tail h)]

theorem splitOnNl_joinNlNl : ∀ Ps : List (List Char), Ps ≠ [] →
    (∀ p ∈ Ps, noNl p = true) →
    splitOnNl (joinWith ['\n', '\n'] Ps) = sepEmpties Ps := by
  intro Ps
  induction Ps with
  | nil => intro h _; exact absurd rfl h
  | cons p rest ih =>
    intro _ hn
    rcases rest with _ | ⟨q, rest₂⟩
    · have h1 : joinWith ['\n', '\n'] [p] = p := rfl
      rw [h1, splitOnNl_noNl p (hn p (by simp))]
      rfl
    · rw [joinWith_cons₂, List.append_assoc,
        show (['\n', '\n'] : List Char) ++ joinWith ['\n', '\n'] (q :: rest₂) =
          '\n' :: '\n' :: joinWith ['\n', '\n'] (q :: rest₂) from rfl,
        splitOnNl_append_nl p _ (hn p (by simp))]
      have h2 : splitOnNl (('\n' : Char) :: joinWith ['\n', '\n'] (q :: rest₂)) =
          [] :: splitOnNl (joinWith ['\n', '\n'] (q :: rest₂)) := by
        have hunf : splitOnNl (('\n' : Char) :: joinWith ['\n', '\n'] (q :: rest₂)) =
            if ('\n' : Char) = '\n' then
              [] :: splitOnNl (joinWith ['\n', '\n'] (q :: rest₂))
            else match splitOnNl (joinWith ['\n', '\n'] (q :: rest₂)) with
              | h :: t => ('\n' :: h) :: t
              | [] => [['\n']] := rfl
        rw [hunf, if_pos rfl]
      rw [h2, ih (List.cons_ne_nil _ _) (fun x hx => hn x (List.mem_cons_of_mem _ hx))]
      rfl

theorem processLines_sepEmpties :
    ∀ (Ps : List (List Char)) (a : List Char) (acc : List (List Char)),
      (∀ p ∈ Ps, pyStrip p = p ∧ p ≠ []) →
      pairsOk (fun x y => !(x == y)) (a :: Ps) = true →
      processLines (a :: acc) (sepEmpties Ps) = (a :: acc).reverse ++ Ps := by
  intro Ps
  induction Ps with
  | nil =>
    intro a acc _ _
    have h0 : sepEmpties ([] : List (List Char)) = [] := rfl
    have h1 : processLines (a :: acc) ([] : List (List Char)) = (a :: acc).reverse := rfl
    rw [h0, h1, List.append_nil]
  | cons q Ps₂ ih =>
    intro a acc hstrip hadj
    have hq := hstrip q (List.mem_cons_self q Ps₂)
    have hqa : ¬(q = a) := by
      have hpair : (!(a == q)) = true := pairsOk_head hadj
      have hne : a ≠ q := beq_eq_false_iff_ne.mp (bnot_true_eq_false hpair)
      exact fun he => hne he.symm
    rcases Ps₂ with _ | ⟨r, Ps₃⟩
    · have h1 : sepEmpties [q] = [q] := rfl
      rw [h1]
      have h2 : processLines (a :: acc) [q] =
          if pyStrip q = [] then processLines (a :: acc) []
          else if pyStrip q = a then processLines (a :: acc) []
          else processLines (pyStrip q :: a :: acc) [] := rfl
      rw [h2, if_neg (by rw [hq.1]; exact hq.2), if_neg (by rw [hq.1]; exact hqa)]
      have h3 : processLines (pyStrip q :: a :: acc) ([] : List (List Char)) =
          (pyStrip q :: a :: acc).reverse := rfl
      rw [h3, hq.1]
      simp
    · have h1 : sepEmpties (q :: r :: Ps₃) = q :: [] :: sepEmpties (r :: Ps₃) := rfl
      rw [h1]
      have h2 : processLines (a :: acc) (q :: [] :: sepEmpties (r :: Ps₃)) =
          if pyStrip q = [] then processLines (a :: acc) ([] :: sepEmpties (r :: Ps₃))
          else if pyStrip q = a then processLines (a :: acc) ([] :: sepEmpties (r :: Ps₃))
          else processLines (pyStrip q :: a :: acc) ([] :: sepEmpties (r :: Ps₃)) := rfl
      rw [h2, if_neg (by rw [hq.1]; exact hq.2), if_neg (by rw [hq.1]; exact hqa)]
      have h3 : processLines (pyStrip q :: a :: acc) ([] :: sepEmpties (r :: Ps₃)) =
          processLines (pyStrip q :: a :: acc) (sepEmpties (r :: Ps₃)) := rfl
      rw [h3, hq.1,
        ih q (a :: acc) (fun x hx => hstrip x (List.mem_cons_of_mem _ hx))
          (pairsOk_tail hadj)]
      simp

theorem processLines_sepEmpties_top :
    ∀ Ps : List (List Char), (∀ p ∈ Ps, pyStrip p = p ∧ p ≠ []) →
      pairsOk (fun x y => !(x == y)) Ps = true →
      processLines [] (sepEmpties Ps) = Ps := by
  intro Ps hstrip hadj
  rcases Ps with _ | ⟨p, rest⟩
  · rfl
  · have hp := hstrip p (List.mem_cons_self p rest)
    rcases rest with _ | ⟨q, rest₂⟩
    · have h1 : sepEmpties [p] = [p] := rfl
      rw [h1]
      have h2 : processLines ([] : List (List Char)) [p] =
          if pyStrip p = [] then processLines [] []
          else processLines [pyStrip p] [] := rfl
      rw [h2, if_neg (by rw [hp.1]; exact hp.2)]
      have h3 : processLines [pyStrip p] ([] : List (List Char)) = [pyStrip p] := rfl
      rw [h3, hp.1]
    · have h1 : sepEmpties (p :: q :: rest₂) = p :: [] :: sepEmpties (q :: rest₂) := rfl
      rw [h1]
      have h2 : processLines ([] : List (List Char)) (p :: [] :: sepEmpties (q :: rest₂)) =
          if pyStrip p = [] then processLines [] ([] :: sepEmpties (q :: rest₂))
          else processLines [pyStrip p] ([] :: sepEmpties (q :: rest₂)) := rfl
      rw [h2, if_neg (by rw [hp.1]; exact hp.2)]
      have h3 : processLines [pyStrip p] ([] :: sepEmpties (q :: rest₂)) =
          processLines [pyStrip p] (sepEmpties (q :: rest₂)) := rfl
      rw [h3, hp.1,
        processLines_sepEmpties (q :: rest₂) p []
          (fun x hx => hstrip x (List.mem_cons_of_mem _ hx)) hadj]
      rfl

theorem clean_text_ltOk (t : List Char) : ltOkB (clean_text t) = true := by
  by_cases hL : step4Lines t = []
  · have h1 : clean_text t = joinWith ['\n', '\n'] [] := by
      rw [clean_text, step4_nil_paragraphs hL]
    rw [h1]
    rfl
  · obtain ⟨hflat, hgne, hmap⟩ := groups_props t hL
    obtain ⟨k1, k2, _⟩ := sentences_props t hL
    have hrt : ltOkB (steps123 t) = true := by
      rw [steps123]
      exact (removeTagsA_ltOk (removeCTags (removeTimestamps t))).1
    have hlines : linesOkCtx (splitOnNl (steps123 t)) false = true := by
      rw [← linesOk_joinWith
        (show (['\n'] : List Char).all isWS = true from by decide)
        (List.cons_ne_nil _ _) (splitOnNl (steps123 t)) false, joinWith_splitOnNl]
      exact hrt
    have hsub : (step4Lines t).Sublist ((splitOnNl (steps123 t)).map pyStrip) :=
      processLines_sublist (splitOnNl (steps123 t)) []
    have hL4 : linesOkCtx (step4Lines t) false = true :=
      linesOkCtx_sublist hsub false
        (by rw [linesOkCtx_map_pyStrip]; exact hlines)
    have hJ : ltOkB (joinWith ['\n'] (step4Lines t)) = true := by
      rw [ltOkB, linesOk_joinWith
        (show (['\n'] : List Char).all isWS = true from by decide)
        (List.cons_ne_nil _ _) (step4Lines t) false]
      exact hL4
    have hC : ltOkB (collapseWS (joinWith ['\n'] (step4Lines t))) = true :=
      collapse_ltOk _ false hJ
    have hF : ltOkB (fixPunctA [] (collapseWS (joinWith ['\n'] (step4Lines t)))) = true :=
      fixPunctA_ltOk _ [] false rfl hC
    have h8 : ltOkB (normalizedText t) = true :=
      (fixSentA_ltOk _).1 false hF
    have hP : linesOkCtx (splitSent (normalizedText t)) false = true := by
      rw [← linesOk_joinWith
        (show ([' '] : List Char).all isWS = true from by decide)
        (List.cons_ne_nil _ _) (splitSent (normalizedText t)) false, k1]
      exact h8
    have hparas : linesOkCtx (paragraphsOf t) false = true := by
      rw [hmap, show joinSpace = joinWith [' '] from rfl,
        linesOkCtx_map_flatten
          (show ([' '] : List Char).all isWS = true from by decide)
          (List.cons_ne_nil _ _), hflat]
      exact hP
    rw [clean_text, ltOkB, linesOk_joinWith
      (show (['\n', '\n'] : List Char).all isWS = true from by decide)
      (List.cons_ne_nil _ _) (paragraphsOf t) false]
    exact hparas

/-- C1 (amended): clean_text is idempotent on every input whose paragraph list
has no two adjacent equal paragraphs; re-cleaning such an input's output
reproduces it exactly.  On the raw image of clean_text the claim fails, because
the duplicate-line rule of the second run merges adjacent equal paragraphs, as
the recorded counterexample shows. -/
theorem clean_text_idempotent (t : List Char)
    (hadj : pairsOk (fun a b => !(a == b)) (paragraphsOf t) = true) :
    clean_text (clean_text t) = clean_text t := by
  by_cases hL : step4Lines t = []
  · have h1 : clean_text t = joinWith ['\n', '\n'] [] := by
      rw [clean_text, step4_nil_paragraphs hL]
    rw [h1]
    rfl
  · obtain ⟨hflat, hgne, hmap⟩ := groups_props t hL
    obtain ⟨k1, k2, _⟩ := sentences_props t hL
    obtain ⟨_, h8sp, h8dub, h8wsp, h8tu, _, _⟩ := normalized_props t hL
    have hppr := paragraphs_props t hL
    have hout : ltOkB (clean_text t) = true := clean_text_ltOk t
    have hparstrip : ∀ p ∈ paragraphsOf t, pyStrip p = p ∧ p ≠ [] := by
      intro p hp
      obtain ⟨h1, _, _, h4, h5⟩ := paragraphs_strip_props t hL p hp
      exact ⟨pyStrip_id h4 h5, h1⟩
    have hpne : paragraphsOf t ≠ [] := by
      intro h
      rw [hmap] at h
      have hgs := List.map_eq_nil_iff.mp h
      rw [hgs] at hflat
      exact splitSentA_never_nil (normalizedText t) [] false hflat.symm
    have hsteps : steps123 (clean_text t) = clean_text t := steps123_id hout
    have hsplit : splitOnNl (clean_text t) = sepEmpties (paragraphsOf t) := by
      rw [clean_text]
      exact splitOnNl_joinNlNl (paragraphsOf t) hpne (fun p hp => (hppr p hp).2)
    have hlines2 : step4Lines (clean_text t) = paragraphsOf t := by
      rw [step4Lines, hsteps, hsplit]
      exact processLines_sepEmpties_top (paragraphsOf t) hparstrip hadj
    have hcol : collapseWS (joinWith ['\n'] (paragraphsOf t)) =
        joinWith [' '] (paragraphsOf t) :=
      collapse_joinNl (paragraphsOf t) hpne (paragraphs_strip_props t hL)
    have hjoin : joinWith [' '] (paragraphsOf t) = normalizedText t := by
      rw [hmap, show joinSpace = joinWith [' '] from rfl,
        joinWith_flatten [' '] (groupsOf t) hgne, hflat, k1]
    have hfp2 : fixPunct (normalizedText t) = normalizedText t := by
      have h := fixPunctA_id (normalizedText t) [] h8wsp (fun hx => absurd rfl hx)
      exact h
    have hfs2 : fixSent (normalizedText t) = normalizedText t :=
      (fixSentA_id (normalizedText t)).1 h8sp h8dub h8tu
    have hnt : normalizedText (clean_text t) = normalizedText t := by
      have hunf : normalizedText (clean_text t) =
          fixSent (fixPunct (collapseWS
            (joinWith ['\n'] (step4Lines (clean_text t))))) := rfl
      rw [hunf, hlines2, hcol, hjoin, hfp2, hfs2]
    have hfinal : clean_text (clean_text t) =
        joinWith ['\n', '\n']
          (groupAux [] (splitSent (normalizedText (clean_text t)))) := rfl
    rw [hfinal, hnt]
    rfl

theorem clean_text_idempotent_witness :
    pairsOk (fun a b => !(a == b)) (paragraphsOf (chars "A. B. C. D. E.")) = true ∧
    clean_text (clean_text (chars "A. B. C. D. E.")) =
      clean_text (chars "A. B. C. D. E.") :=
  ⟨by decide, clean_text_idempotent (chars "A. B. C. D. E.") (by decide)⟩

end CaptionTools
